import Mathlib

/-!
# The R1CS solver of gnark over the BN254 scalar field

A shallow embedding of `internal/backend/bn254/cs/r1cs.go`.

* Field elements (`fr.Element`) are the residues modulo the BN254 scalar modulus.
* Go slices are lists; every slice access that Go bounds-checks is an explicit
  check here, and a failed check is the run-time panic `Panic.indexOutOfRange`.
* A function that can panic returns `Except Panic _`.  A panicking run has no
  further observable result in this development (the deferred log emission of a
  panicking `Solve` is not described).
* Buffers that Go mutates in place (`a`, `b`, `c`, `wireValues`,
  `wireInstantiated`) are passed in and returned.
-/

namespace Cs

/-! ## Field elements -/

/-- Modulus of `fr.Element`: the order of the BN254 scalar field. -/
def frModulus : Nat :=
  21888242871839275222246405745257275088548364400416034343698204186575808495617

/-- The type `fr.Element`, a residue modulo `frModulus`. -/
abbrev Element := ZMod frModulus

/-- The method `Element.Div`: the quotient is the product with the inverse, and the
inverse of zero is zero. -/
def ElementDiv (x y : Element) : Element := x * y⁻¹

/-- The method `Element.ToBigIntRegular`: the canonical integer in `[0, frModulus)`. -/
def ToBigIntRegular (x : Element) : Nat := ZMod.val x

/-- Modelled from the spec: `Element.String` of the field package (not among the
sources) gives "its field value's canonical textual form", the decimal text of the
canonical integer. -/
def ElementString (x : Element) : String := toString (ToBigIntRegular x)

/-- Square-and-multiply exponentiation modulo `m`, used to certify that `frModulus`
is prime. -/
def powModAux : Nat → Nat → Nat → Nat → Nat
  | 0, _, _, m => 1 % m
  | f + 1, a, n, m =>
    if n = 0 then 1 % m
    else if n % 2 = 1 then a * powModAux f (a * a % m) (n / 2) m % m
    else powModAux f (a * a % m) (n / 2) m

/-- Modular power for exponents below `2 ^ 256`. -/
def powMod (a n m : Nat) : Nat := powModAux 256 a n m

/-! ## Run-time failures -/

/-- The ways a run aborts instead of returning. -/
inductive Panic where
  /-- `panic("found more than one wire to instantiate")`. -/
  | moreThanOneWire
  /-- `panic("unimplemented solving method")`. -/
  | unimplementedSolver
  /-- Go run-time panic: slice index out of range. -/
  | indexOutOfRange
  /-- `checker.Lsh(&checker, uint(res))` with `res = -1`: a shift by `2^64 - 1` bits,
  which cannot be allocated. -/
  | shiftOutOfRange
deriving DecidableEq, Repr

deriving instance DecidableEq for Except

/-- Bounds-checked read `xs[i]`. -/
def index {α : Type} (xs : List α) (i : Nat) : Except Panic α :=
  match xs[i]? with
  | some x => .ok x
  | none => .error .indexOutOfRange

/-- Bounds-checked write `xs[i] = x`. -/
def assign {α : Type} (xs : List α) (i : Nat) (x : α) : Except Panic (List α) :=
  if i < xs.length then .ok (xs.set i x) else .error .indexOutOfRange

/-- Bounds-checked read `xs[i]` for a Go `int` index. -/
def indexInt {α : Type} (xs : List α) (i : Int) : Except Panic α :=
  if i < 0 then .error .indexOutOfRange else index xs i.toNat

/-- Arithmetic of Go's 64-bit `int`: the representative in `[-2^63, 2^63)`. -/
def wrapInt (x : Int) : Int := (x + 2 ^ 63) % 2 ^ 64 - 2 ^ 63

/-! ## Data model (package `compiled`, as used by the solver) -/

/-- Modelled from the spec: the identifiers reserved for the coefficients one,
minus-one, zero and two (`compiled.CoeffIdOne`, ...).  Package `compiled` is not
among the sources, so the four constants are a parameter of every function that
compares against them. -/
structure CoeffIds where
  CoeffIdOne : Nat
  CoeffIdMinusOne : Nat
  CoeffIdZero : Nat
  CoeffIdTwo : Nat
deriving DecidableEq, Repr

/-- A `compiled.Term`: a coefficient identifier and a wire identifier, read by the
accessors `CoeffID()` and `VariableID()`. -/
structure Term where
  CoeffID : Nat
  VariableID : Nat
deriving DecidableEq, Repr

/-- The tag `compiled.SolvingMethod` of a constraint. -/
inductive SolvingMethod where
  | SingleOutput
  | BinaryDec
  /-- Any other value of the tag. -/
  | other (tag : Nat)
deriving DecidableEq, Repr

/-- A `compiled.R1C`: the constraint `L * R = O` and its solving method. -/
structure R1C where
  L : List Term
  R : List Term
  O : List Term
  Solver : SolvingMethod
deriving DecidableEq, Repr

/-- The bytes of a Go string literal: the UTF-8 encoding of its characters.  A Go
`string` is a sequence of bytes, which need not be valid UTF-8. -/
def goString (s : String) : List Nat :=
  s.data.flatMap fun ch => (String.utf8EncodeChar ch).map UInt8.toNat

/-- A `compiled.LogEntry`: a template (a Go `string`, as its bytes) and the wires to
substitute into it. -/
structure LogEntry where
  Format : List Nat
  ToResolve : List Nat
deriving DecidableEq, Repr

/-- The struct `R1CS`: the fields of the embedded `compiled.R1CS` that the solver
reads, the coefficient pool, and whether `loggerOut` is a writer (`true`) or `nil`.
The counts are Go `int` values. -/
structure R1CS where
  NbInternalVariables : Int
  NbPublicVariables : Int
  NbSecretVariables : Int
  NbConstraints : Int
  NbCOConstraints : Int
  Constraints : List R1C
  Logs : List LogEntry
  DebugInfoAssertion : List LogEntry
  Coefficients : List Element
  loggerOut : Bool
deriving DecidableEq

/-- The value of `fmt.Sprintf(format, args...)`, kept symbolic: the template (a Go
`string`, as its bytes) and the argument list passed to it. -/
structure Formatted where
  format : List Nat
  args : List String
deriving DecidableEq, Repr

/-! ## Linear combinations -/

/-- The method `AddTerm`: `res += value * coefficient(t)`. -/
def AddTerm (ids : CoeffIds) (r : R1CS) (res : Element) (t : Term) (value : Element) :
    Except Panic Element :=
  if t.CoeffID = ids.CoeffIdOne then .ok (res + value)
  else if t.CoeffID = ids.CoeffIdMinusOne then .ok (res - value)
  else if t.CoeffID = ids.CoeffIdZero then .ok res
  else if t.CoeffID = ids.CoeffIdTwo then .ok (res + 2 * value)
  else
    match index r.Coefficients t.CoeffID with
    | .ok k => .ok (res + k * value)
    | .error e => .error e

/-- The method `mulWireByCoeff`: `res *= coefficient(t)`. -/
def mulWireByCoeff (ids : CoeffIds) (r : R1CS) (res : Element) (t : Term) :
    Except Panic Element :=
  if t.CoeffID = ids.CoeffIdOne then .ok res
  else if t.CoeffID = ids.CoeffIdMinusOne then .ok (-res)
  else if t.CoeffID = ids.CoeffIdZero then .ok 0
  else if t.CoeffID = ids.CoeffIdTwo then .ok (2 * res)
  else
    match index r.Coefficients t.CoeffID with
    | .ok k => .ok (res * k)
    | .error e => .error e

/-- The loop `for _, t := range lc { r1cs.AddTerm(&acc, t, wireValues[t.VariableID()]) }`. -/
def addTerms (ids : CoeffIds) (r : R1CS) (wireValues : List Element) :
    List Term → Element → Except Panic Element
  | [], acc => .ok acc
  | t :: ts, acc =>
    match index wireValues t.VariableID with
    | .error e => .error e
    | .ok v =>
      match AddTerm ids r acc t v with
      | .error e => .error e
      | .ok acc1 => addTerms ids r wireValues ts acc1

/-- The function `instantiateR1C`: the values `(a, b, c)` of `L`, `R`, `O`. -/
def instantiateR1C (ids : CoeffIds) (cons : R1C) (r : R1CS) (wireValues : List Element) :
    Except Panic (Element × Element × Element) :=
  match addTerms ids r wireValues cons.L 0 with
  | .error e => .error e
  | .ok a =>
    match addTerms ids r wireValues cons.R 0 with
    | .error e => .error e
    | .ok b =>
      match addTerms ids r wireValues cons.O 0 with
      | .error e => .error e
      | .ok c => .ok (a, b, c)

/-! ## The per-constraint solver -/

/-- The closure `processTerm` of `solveR1C`: a term on a known wire is accumulated
into `val`; a term on an unknown wire is remembered in `termToCompute` and its side
in `loc`, and a second such term is fatal.  The result is the new
`(val, loc, termToCompute)`. -/
def processTerm (ids : CoeffIds) (r : R1CS) (wireInstantiated : List Bool)
    (wireValues : List Element) (t : Term) (val : Element) (locValue : Nat)
    (loc : Nat) (termToCompute : Term) : Except Panic (Element × Nat × Term) :=
  match index wireInstantiated t.VariableID with
  | .error e => .error e
  | .ok true =>
    match index wireValues t.VariableID with
    | .error e => .error e
    | .ok v =>
      match AddTerm ids r val t v with
      | .error e => .error e
      | .ok val1 => .ok (val1, loc, termToCompute)
  | .ok false =>
    if loc ≠ 0 then .error .moreThanOneWire
    else .ok (val, locValue, t)

/-- The loop `for _, t := range side { processTerm(t, &val, locValue) }`. -/
def processTerms (ids : CoeffIds) (r : R1CS) (wireInstantiated : List Bool)
    (wireValues : List Element) (locValue : Nat) :
    List Term → Element → Nat → Term → Except Panic (Element × Nat × Term)
  | [], val, loc, termToCompute => .ok (val, loc, termToCompute)
  | t :: ts, val, loc, termToCompute =>
    match processTerm ids r wireInstantiated wireValues t val locValue loc termToCompute with
    | .error e => .error e
    | .ok (val1, loc1, term1) =>
      processTerms ids r wireInstantiated wireValues locValue ts val1 loc1 term1

/-- The statements `wireValues[cID].Op(..).Sub(..)` followed by
`r1cs.mulWireByCoeff(&wireValues[cID], termToCompute)`: the wire receives `v` scaled
by the coefficient of `termToCompute`. -/
def computeWire (ids : CoeffIds) (r : R1CS) (wireValues : List Element)
    (termToCompute : Term) (v : Element) : Except Panic (List Element) :=
  match index wireValues termToCompute.VariableID with
  | .error e => .error e
  | .ok _ =>
    match mulWireByCoeff ids r v termToCompute with
    | .error e => .error e
    | .ok v1 => assign wireValues termToCompute.VariableID v1

/-- The part of the case `compiled.SingleOutput` after the three scans: nothing to do
when `loc` is zero, else the `switch loc` that computes the wire of `termToCompute`
and the statement `wireInstantiated[cID] = true`. -/
def isolateWire (ids : CoeffIds) (r : R1CS) (wireInstantiated : List Bool)
    (wireValues : List Element) (a b c : Element) (loc : Nat) (termToCompute : Term) :
    Except Panic (List Bool × List Element) :=
  if loc = 0 then .ok (wireInstantiated, wireValues)
  else
    let computed : Except Panic (List Element) :=
      if loc = 1 then
        if b ≠ 0 then computeWire ids r wireValues termToCompute (ElementDiv c b - a)
        else .ok wireValues
      else if loc = 2 then
        if a ≠ 0 then computeWire ids r wireValues termToCompute (ElementDiv c a - b)
        else .ok wireValues
      else if loc = 3 then computeWire ids r wireValues termToCompute (a * b - c)
      else .ok wireValues
    match computed with
    | .error e => .error e
    | .ok wireValues1 =>
      match assign wireInstantiated termToCompute.VariableID true with
      | .error e => .error e
      | .ok wireInstantiated1 => .ok (wireInstantiated1, wireValues1)

/-- The case `compiled.SingleOutput` of `solveR1C`: the scans of `L`, `R` and `O`
(with `loc = 0` and the zero term at the start), then `isolateWire`.  The result is
the new `(wireInstantiated, wireValues)`. -/
def solveSingleOutput (ids : CoeffIds) (r : R1CS) (cons : R1C)
    (wireInstantiated : List Bool) (wireValues : List Element) :
    Except Panic (List Bool × List Element) :=
  match processTerms ids r wireInstantiated wireValues 1 cons.L 0 0 ⟨0, 0⟩ with
  | .error e => .error e
  | .ok (a, loc1, term1) =>
    match processTerms ids r wireInstantiated wireValues 2 cons.R 0 loc1 term1 with
    | .error e => .error e
    | .ok (b, loc2, term2) =>
      match processTerms ids r wireInstantiated wireValues 3 cons.O 0 loc2 term2 with
      | .error e => .error e
      | .ok (c, loc, termToCompute) =>
        isolateWire ids r wireInstantiated wireValues a b c loc termToCompute

/-- The loop `for bCopy.Cmp(&zero) != 0 { bCopy.Rsh(&bCopy, 1); res++ }` of
`quickLog`: the number of right shifts that bring `n` to zero.  The first argument
bounds the number of iterations; `bitLen` passes `n`, which is always enough. -/
def shiftCount : Nat → Nat → Nat
  | 0, _ => 0
  | fuel + 1, n => if n = 0 then 0 else shiftCount fuel (n / 2) + 1

/-- Number of right shifts that bring `n` to zero. -/
def bitLen (n : Nat) : Nat := shiftCount n n

/-- The closure `quickLog` of `solveR1C`, for `nbBits = len(r.L)`. -/
def quickLog (nbBits : Nat) (bi : Nat) : Except Panic Int :=
  let res : Int := (bitLen bi : Int) - 1
  if res < 0 then .error .shiftOutOfRange
  else
    let checker : Nat := 2 ^ res.toNat
    if checker ≠ bi then .ok ((nbBits : Int) - 1) else .ok res

/-- The slice `bitSlice`: `bitSlice[i] = bigN.Bit(i)` for `i < nbBits`. -/
def bitSlice (bigN nbBits : Nat) : List Nat :=
  (List.range nbBits).map fun i => (Nat.testBit bigN i).toNat

/-- The last loop of the case `compiled.BinaryDec`: every term of `L` gets the bit
selected by its pooled coefficient. -/
def assignBits (r : R1CS) (bits : List Nat) (nbBits : Nat) :
    List Term → List Bool → List Element → Except Panic (List Bool × List Element)
  | [], wireInstantiated, wireValues => .ok (wireInstantiated, wireValues)
  | t :: ts, wireInstantiated, wireValues =>
    match index r.Coefficients t.CoeffID with
    | .error e => .error e
    | .ok coef =>
      match quickLog nbBits (ToBigIntRegular coef) with
      | .error e => .error e
      | .ok ithBit =>
        match indexInt bits ithBit with
        | .error e => .error e
        | .ok bit =>
          match assign wireValues t.VariableID (bit : Element) with
          | .error e => .error e
          | .ok wireValues1 =>
            match assign wireInstantiated t.VariableID true with
            | .error e => .error e
            | .ok wireInstantiated1 =>
              assignBits r bits nbBits ts wireInstantiated1 wireValues1

/-- The case `compiled.BinaryDec` of `solveR1C`. -/
def solveBinaryDec (ids : CoeffIds) (r : R1CS) (cons : R1C)
    (wireInstantiated : List Bool) (wireValues : List Element) :
    Except Panic (List Bool × List Element) :=
  match addTerms ids r wireValues cons.O 0 with
  | .error e => .error e
  | .ok n =>
    assignBits r (bitSlice (ToBigIntRegular n) cons.L.length) cons.L.length cons.L
      wireInstantiated wireValues

/-- The method `solveR1C`.  The result is the new `(wireInstantiated, wireValues)`. -/
def solveR1C (ids : CoeffIds) (r : R1CS) (cons : R1C)
    (wireInstantiated : List Bool) (wireValues : List Element) :
    Except Panic (List Bool × List Element) :=
  match cons.Solver with
  | .SingleOutput => solveSingleOutput ids r cons wireInstantiated wireValues
  | .BinaryDec => solveBinaryDec ids r cons wireInstantiated wireValues
  | .other _ => .error .unimplementedSolver

/-! ## Debug and log messages -/

/-- The loop of `logValue` that builds the argument list `toResolve`. -/
def resolveArgs (wireValues : List Element) (wireInstantiated : List Bool) :
    List Nat → Except Panic (List String)
  | [] => .ok []
  | wireID :: rest =>
    match index wireInstantiated wireID with
    | .error e => .error e
    | .ok false =>
      match resolveArgs wireValues wireInstantiated rest with
      | .error e => .error e
      | .ok args => .ok ("???" :: args)
    | .ok true =>
      match index wireValues wireID with
      | .error e => .error e
      | .ok v =>
        match resolveArgs wireValues wireInstantiated rest with
        | .error e => .error e
        | .ok args => .ok (ElementString v :: args)

/-- The method `logValue`: `fmt.Sprintf(entry.Format, toResolve...)`. -/
def logValue (entry : LogEntry) (wireValues : List Element) (wireInstantiated : List Bool) :
    Except Panic Formatted :=
  match resolveArgs wireValues wireInstantiated entry.ToResolve with
  | .error e => .error e
  | .ok args => .ok ⟨entry.Format, args⟩

/-- The loop of `printLogs` over the entries `logs`: the lines written to
`loggerOut`, in order.  A line is resolved even when `loggerOut` is `nil`. -/
def printLogEntries (loggerOut : Bool) (wireValues : List Element)
    (wireInstantiated : List Bool) : List LogEntry → Except Panic (List Formatted)
  | [] => .ok []
  | entry :: rest =>
    match logValue entry wireValues wireInstantiated with
    | .error e => .error e
    | .ok logLine =>
      match printLogEntries loggerOut wireValues wireInstantiated rest with
      | .error e => .error e
      | .ok lines => .ok (if loggerOut then logLine :: lines else lines)

/-- The method `printLogs`. -/
def printLogs (r : R1CS) (wireValues : List Element) (wireInstantiated : List Bool) :
    Except Panic (List Formatted) :=
  printLogEntries r.loggerOut wireValues wireInstantiated r.Logs

/-! ## Solve -/

/-- The errors `Solve` returns. -/
inductive SolveError where
  /-- The error `invalid witness size, got %d, expected %d = %d (public - ONE_WIRE) + %d
  (secret)` with its four arguments. -/
  | invalidWitnessSize (got expected publicMinusOne secret : Int)
  /-- The error `invalid input size: len(a, b, c) == r1cs.NbConstraints and
  len(wireValues) == r1cs.NbWires`. -/
  | invalidInputSize
  /-- The error that wraps `ErrUnsatisfiedConstraint` with the text `couldn't solve
  computational constraint. May happen: div by 0 or no inverse found`. -/
  | unsolvedComputational
  /-- The error that wraps `ErrUnsatisfiedConstraint` with the resolved debug text. -/
  | unsatisfiedAssertion (debugInfoStr : Formatted)
deriving DecidableEq, Repr

/-- Whether `errors.Is(err, ErrUnsatisfiedConstraint)`: the error was built with
`fmt.Errorf("%w: %s", ErrUnsatisfiedConstraint, ..)`. -/
def SolveError.wrapsErrUnsatisfiedConstraint : SolveError → Bool
  | .unsolvedComputational => true
  | .unsatisfiedAssertion _ => true
  | _ => false

/-- The buffers `Solve` works on. -/
structure Buffers where
  a : List Element
  b : List Element
  c : List Element
  wireValues : List Element
  wireInstantiated : List Bool
deriving DecidableEq

/-- What a returning call of `Solve` leaves behind: the returned error (`none` is
`nil`), the four caller-owned slices, and the lines written to `loggerOut`. -/
structure SolveResult where
  err : Option SolveError
  a : List Element
  b : List Element
  c : List Element
  wireValues : List Element
  logs : List Formatted
deriving DecidableEq

/-- The statements `a[i], b[i], c[i] = instantiateR1C(..)` followed by the check
`check.Mul(&a[i], &b[i]); check.Equal(&c[i])`.  The result is the new buffers and
whether the check passed. -/
def instantiateAndCheck (ids : CoeffIds) (r : R1CS) (cons : R1C) (i : Nat) (s : Buffers) :
    Except Panic (Buffers × Bool) :=
  match instantiateR1C ids cons r s.wireValues with
  | .error e => .error e
  | .ok (av, bv, cv) =>
    match assign s.a i av with
    | .error e => .error e
    | .ok a1 =>
      match assign s.b i bv with
      | .error e => .error e
      | .ok b1 =>
        match assign s.c i cv with
        | .error e => .error e
        | .ok c1 => .ok ({ s with a := a1, b := b1, c := c1 }, decide (av * bv = cv))

/-- The loop over the computational constraints, `steps` iterations starting at
index `i`.  The result is the error returned from inside the loop, if any, and the
buffers. -/
def solveComputational (ids : CoeffIds) (r : R1CS) :
    Nat → Nat → Buffers → Except Panic (Option SolveError × Buffers)
  | 0, _, s => .ok (none, s)
  | steps + 1, i, s =>
    match index r.Constraints i with
    | .error e => .error e
    | .ok cons =>
      match solveR1C ids r cons s.wireInstantiated s.wireValues with
      | .error e => .error e
      | .ok (wireInstantiated1, wireValues1) =>
        match instantiateAndCheck ids r cons i
            { s with wireInstantiated := wireInstantiated1, wireValues := wireValues1 } with
        | .error e => .error e
        | .ok (s1, true) => solveComputational ids r steps (i + 1) s1
        | .ok (s1, false) => .ok (some .unsolvedComputational, s1)

/-- The loop over the assertions, `steps` iterations starting at index `i`, of which
`nbCO` is the index of the first assertion. -/
def checkAssertions (ids : CoeffIds) (r : R1CS) (nbCO : Nat) :
    Nat → Nat → Buffers → Except Panic (Option SolveError × Buffers)
  | 0, _, s => .ok (none, s)
  | steps + 1, i, s =>
    match index r.Constraints i with
    | .error e => .error e
    | .ok cons =>
      match instantiateAndCheck ids r cons i s with
      | .error e => .error e
      | .ok (s1, true) => checkAssertions ids r nbCO steps (i + 1) s1
      | .ok (s1, false) =>
        match index r.DebugInfoAssertion (i - nbCO) with
        | .error e => .error e
        | .ok debugInfo =>
          match logValue debugInfo s1.wireValues s1.wireInstantiated with
          | .error e => .error e
          | .ok debugInfoStr => .ok (some (.unsatisfiedAssertion debugInfoStr), s1)

/-- The two loops of `Solve`, from the first computational constraint to the last
assertion.  The second loop starts at `i = int(NbCOConstraints)`; a negative start
passes the test `i < len(Constraints)` and indexes the slice out of range. -/
def solveConstraints (ids : CoeffIds) (r : R1CS) (s : Buffers) :
    Except Panic (Option SolveError × Buffers) :=
  match solveComputational ids r r.NbCOConstraints.toNat 0 s with
  | .error e => .error e
  | .ok (some err, s1) => .ok (some err, s1)
  | .ok (none, s1) =>
    if r.NbCOConstraints < 0 then .error .indexOutOfRange
    else
      checkAssertions ids r r.NbCOConstraints.toNat
        (r.Constraints.length - r.NbCOConstraints.toNat) r.NbCOConstraints.toNat s1

/-- The builtin `copy(dst, src)`: the first `min(len(dst), len(src))` elements of
`dst` are replaced. -/
def copy {α : Type} (dst src : List α) : List α :=
  src.take dst.length ++ dst.drop src.length

/-- The loop `for i := 0; i < len(witness); i++ { wireInstantiated[i+1] = true }`,
`steps` iterations starting at `i`. -/
def markWitness : Nat → Nat → List Bool → Except Panic (List Bool)
  | 0, _, wireInstantiated => .ok wireInstantiated
  | steps + 1, i, wireInstantiated =>
    match assign wireInstantiated (i + 1) true with
    | .error e => .error e
    | .ok wireInstantiated1 => markWitness steps (i + 1) wireInstantiated1

/-- The length `int(r1cs.NbPublicVariables-1+r1cs.NbSecretVariables)` that `Solve`
expects of the witness. -/
def expectedWitnessSize (r : R1CS) : Int :=
  wrapInt (wrapInt (r.NbPublicVariables - 1) + r.NbSecretVariables)

/-- The number `nbWires` of `Solve`. -/
def nbWires (r : R1CS) : Int :=
  wrapInt (wrapInt (r.NbPublicVariables + r.NbSecretVariables) + r.NbInternalVariables)

/-- The initialisation of `Solve` after the size checks: `wireInstantiated` is
allocated, the ONE wire set, the witness copied and marked. -/
def initWires (r : R1CS) (witness wireValues : List Element) :
    Except Panic (List Bool × List Element) :=
  match assign (List.replicate (nbWires r).toNat false) 0 true with
  | .error e => .error e
  | .ok wireInstantiated1 =>
    match assign wireValues 0 (1 : Element) with
    | .error e => .error e
    | .ok wireValues1 =>
      match markWitness witness.length 0 wireInstantiated1 with
      | .error e => .error e
      | .ok wireInstantiated2 =>
        .ok (wireInstantiated2, wireValues1.take 1 ++ copy (wireValues1.drop 1) witness)

/-- The method `Solve`. -/
def Solve (ids : CoeffIds) (r : R1CS) (witness a b c wireValues : List Element) :
    Except Panic SolveResult :=
  if (witness.length : Int) ≠ expectedWitnessSize r then
    .ok { err := some (.invalidWitnessSize witness.length (expectedWitnessSize r)
            (wrapInt (r.NbPublicVariables - 1)) r.NbSecretVariables),
          a := a, b := b, c := c, wireValues := wireValues, logs := [] }
  else if (a.length : Int) ≠ r.NbConstraints ∨ (b.length : Int) ≠ r.NbConstraints ∨
      (c.length : Int) ≠ r.NbConstraints ∨ (wireValues.length : Int) ≠ nbWires r then
    .ok { err := some .invalidInputSize,
          a := a, b := b, c := c, wireValues := wireValues, logs := [] }
  else
    match initWires r witness wireValues with
    | .error e => .error e
    | .ok (wireInstantiated0, wireValues0) =>
      match solveConstraints ids r
          { a := a, b := b, c := c, wireValues := wireValues0,
            wireInstantiated := wireInstantiated0 } with
      | .error e => .error e
      | .ok (err, s) =>
        match printLogs r s.wireValues s.wireInstantiated with
        | .error e => .error e
        | .ok logs =>
          .ok { err := err, a := s.a, b := s.b, c := s.c, wireValues := s.wireValues,
                logs := logs }

/-- Whether an error is the witness-size error of `Solve`. -/
def SolveError.isWitnessSize : SolveError → Bool
  | .invalidWitnessSize _ _ _ _ => true
  | _ => false

/-! ## Vocabulary of the statements -/

/-- The terms of `ts` whose wire is in range and not yet instantiated. -/
def unknownTerms (wireInstantiated : List Bool) (ts : List Term) : List Term :=
  ts.filter fun t => wireInstantiated[t.VariableID]? == some false

/-- The terms of `ts` whose wire is instantiated. -/
def knownTerms (wireInstantiated : List Bool) (ts : List Term) : List Term :=
  ts.filter fun t => wireInstantiated[t.VariableID]? == some true

/-- All terms of a constraint, in the order the solver visits them. -/
def R1C.terms (cons : R1C) : List Term := cons.L ++ cons.R ++ cons.O

/-- Whether the coefficient identifier of `t` is reserved or indexes the pool. -/
def coeffInRange (ids : CoeffIds) (r : R1CS) (t : Term) : Bool :=
  t.CoeffID == ids.CoeffIdOne || t.CoeffID == ids.CoeffIdMinusOne ||
    t.CoeffID == ids.CoeffIdZero || t.CoeffID == ids.CoeffIdTwo ||
    decide (t.CoeffID < r.Coefficients.length)

/-- Whether every term of `ts` has its wire below `n` and a coefficient identifier
that is reserved or indexes the pool: no slice access of a scan over `ts` can fail. -/
def termsInRange (ids : CoeffIds) (r : R1CS) (n : Nat) (ts : List Term) : Bool :=
  ts.all fun t => decide (t.VariableID < n) && coeffInRange ids r t

/-- The distinct unknown wires a constraint refers to. -/
def unknownWires (wireInstantiated : List Bool) (cons : R1C) : List Nat :=
  ((unknownTerms wireInstantiated cons.terms).map Term.VariableID).dedup

/-- Whether constraint `j` evaluates on `wireValues` to values with `a * b = c`. -/
def satisfiedAt (ids : CoeffIds) (r : R1CS) (wireValues : List Element) (j : Nat) : Bool :=
  match r.Constraints[j]? with
  | none => false
  | some cons =>
    match instantiateR1C ids cons r wireValues with
    | .ok (x, y, z) => decide (x * y = z)
    | .error _ => false

/-- Whether constraint `j` evaluates on `wireValues` to values with `a * b ≠ c`. -/
def violatedAt (ids : CoeffIds) (r : R1CS) (wireValues : List Element) (j : Nat) : Bool :=
  match r.Constraints[j]? with
  | none => false
  | some cons =>
    match instantiateR1C ids cons r wireValues with
    | .ok (x, y, z) => decide (x * y ≠ z)
    | .error _ => false

/-- Whether `a[j] * b[j] = c[j]` holds, all three entries being present. -/
def productAt (as bs cs : List Element) (j : Nat) : Bool :=
  match as[j]?, bs[j]?, cs[j]? with
  | some x, some y, some z => decide (x * y = z)
  | _, _, _ => false

/-- The coefficient of a term as the specification words it: one, minus-one, zero,
two for the four reserved identifiers, and the pooled constant `Coefficients[id]` for
any other identifier (a run-time panic when `id` is outside the pool). -/
def coef (ids : CoeffIds) (r : R1CS) (t : Term) : Except Panic Element :=
  if t.CoeffID = ids.CoeffIdOne then .ok 1
  else if t.CoeffID = ids.CoeffIdMinusOne then .ok (-1)
  else if t.CoeffID = ids.CoeffIdZero then .ok 0
  else if t.CoeffID = ids.CoeffIdTwo then .ok 2
  else index r.Coefficients t.CoeffID

/-- The canonical integer of the coefficient of a term (zero when the identifier is
outside the pool). -/
def coefInt (ids : CoeffIds) (r : R1CS) (t : Term) : Nat :=
  match coef ids r t with
  | .ok k => ToBigIntRegular k
  | .error _ => 0

/-- Whether the solver of a computational constraint leaves the wire `w` marked known:
every wire of a constraint solved by isolation, and the wires of `L` of a bit
decomposition. -/
def R1C.marks (cons : R1C) (w : Nat) : Bool :=
  match cons.Solver with
  | .SingleOutput => cons.terms.any fun t => t.VariableID == w
  | .BinaryDec => cons.L.any fun t => t.VariableID == w
  | .other _ => false

/-- Whether the wire `w` is known once the first `k` constraints are solved, with a
witness of `n` values: the ONE wire, a witness wire, or a wire that one of these
constraints marks. -/
def knownAfter (r : R1CS) (n k w : Nat) : Bool :=
  decide (w ≤ n) || (r.Constraints.take k).any fun cj => cj.marks w

/-- Whether the computational constraint `cj` at index `j` can write the wire `w`: a
bit decomposition writes the wires of its `L`; the single-output solver writes at most
one wire of the constraint, and only a wire that is not known yet. -/
def mayWrite (r : R1CS) (n j : Nat) (cj : R1C) (w : Nat) : Bool :=
  match cj.Solver with
  | .SingleOutput => (cj.terms.any fun t => t.VariableID == w) && !knownAfter r n j w
  | .BinaryDec => cj.L.any fun t => t.VariableID == w
  | .other _ => false

/-! ## Concrete circuits -/

/-- The identifiers gnark reserves: zero, one, two, minus-one at 0, 1, 2, 3. -/
def gnarkIds : CoeffIds :=
  { CoeffIdZero := 0, CoeffIdOne := 1, CoeffIdTwo := 2, CoeffIdMinusOne := 3 }

/-- The coefficient pool that stores the reserved constants at `gnarkIds`. -/
def gnarkPool : List Element := [0, 1, 2, -1]

/-- The constraint `x * x = y` on wires `[ONE, y, x]`: two terms on the wire `x`. -/
def squareCons (ids : CoeffIds) : R1C :=
  { L := [⟨ids.CoeffIdOne, 2⟩], R := [⟨ids.CoeffIdOne, 2⟩], O := [⟨ids.CoeffIdOne, 1⟩],
    Solver := .SingleOutput }

/-- The constraint `x * y = z` of `mulGate`. -/
def mulCons (ids : CoeffIds) : R1C :=
  { L := [⟨ids.CoeffIdOne, 1⟩], R := [⟨ids.CoeffIdOne, 2⟩], O := [⟨ids.CoeffIdOne, 3⟩],
    Solver := .SingleOutput }

/-- Scenario A of the specification: wires `[ONE, x, y, z]`, the single computational
constraint `x * y = z` solved for the internal wire `z`, no assertion.  The two
inputs are split into `nbPublic - 1` public and `3 - nbPublic` secret wires. -/
def mulGate (ids : CoeffIds) (nbPublic : Int) (pool : List Element) : R1CS :=
  { NbInternalVariables := 1
    NbPublicVariables := nbPublic
    NbSecretVariables := 3 - nbPublic
    NbConstraints := 1
    NbCOConstraints := 1
    Constraints := [mulCons ids]
    Logs := []
    DebugInfoAssertion := []
    Coefficients := pool
    loggerOut := true }

/-- The constraint `(2 * x) * ONE = y` on wires `[ONE, y, x]`. -/
def halfCons (ids : CoeffIds) : R1C :=
  { L := [⟨ids.CoeffIdTwo, 2⟩], R := [⟨ids.CoeffIdOne, 0⟩], O := [⟨ids.CoeffIdOne, 1⟩],
    Solver := .SingleOutput }

/-- Wires `[ONE, y, x]` with `y` a secret input and `x` internal, and the single
computational constraint `halfCons`. -/
def halfGate (ids : CoeffIds) (pool : List Element) : R1CS :=
  { NbInternalVariables := 1
    NbPublicVariables := 1
    NbSecretVariables := 1
    NbConstraints := 1
    NbCOConstraints := 1
    Constraints := [halfCons ids]
    Logs := []
    DebugInfoAssertion := []
    Coefficients := pool
    loggerOut := true }

/-- The constraint `x * ONE = 2 * ONE` on wires `[ONE, x]`, solved by isolation. -/
def equalsTwoCons (ids : CoeffIds) : R1C :=
  { L := [⟨ids.CoeffIdOne, 1⟩], R := [⟨ids.CoeffIdOne, 0⟩], O := [⟨ids.CoeffIdTwo, 0⟩],
    Solver := .SingleOutput }

/-- The constraint `x * ONE = ONE` on wires `[ONE, x]`, solved by decomposing `O` into
the one bit `x`. -/
def oneBitCons (ids : CoeffIds) : R1C :=
  { L := [⟨ids.CoeffIdOne, 1⟩], R := [⟨ids.CoeffIdOne, 0⟩], O := [⟨ids.CoeffIdOne, 0⟩],
    Solver := .BinaryDec }

/-- Wires `[ONE, x]` with `x` a secret input and two computational constraints: first
`equalsTwoCons`, then `oneBitCons`, which assigns `x` again. -/
def overwriteCircuit (ids : CoeffIds) (pool : List Element) : R1CS :=
  { NbInternalVariables := 0
    NbPublicVariables := 1
    NbSecretVariables := 1
    NbConstraints := 2
    NbCOConstraints := 2
    Constraints := [equalsTwoCons ids, oneBitCons ids]
    Logs := []
    DebugInfoAssertion := []
    Coefficients := pool
    loggerOut := true }

/-- The assertion `z * ONE = 12 * ONE` on wires `[ONE, x, y, z]`, the coefficient `12`
being the pooled constant with identifier 4. -/
def equalsTwelveCons (ids : CoeffIds) : R1C :=
  { L := [⟨ids.CoeffIdOne, 3⟩], R := [⟨ids.CoeffIdOne, 0⟩], O := [⟨4, 0⟩],
    Solver := .SingleOutput }

/-- Scenario B of the specification: the gate `x * y = z` followed by the assertion
`z == 12`, whose debug entry shows `x`, `y` and `z`. -/
def assertGate (ids : CoeffIds) : R1CS :=
  { NbInternalVariables := 1
    NbPublicVariables := 1
    NbSecretVariables := 2
    NbConstraints := 2
    NbCOConstraints := 1
    Constraints := [mulCons ids, equalsTwelveCons ids]
    Logs := []
    DebugInfoAssertion := [⟨goString "%s * %s = %s, expected 12", [1, 2, 3]⟩]
    Coefficients := gnarkPool ++ [12]
    loggerOut := true }

/-- Scenario C of the specification: on wires `[ONE, v, b0, b1]` the constraint that
decomposes `v` into the bits `b0` (coefficient one) and `b1` (coefficient two). -/
def bitsCons (ids : CoeffIds) : R1C :=
  { L := [⟨ids.CoeffIdOne, 2⟩, ⟨ids.CoeffIdTwo, 3⟩], R := [⟨ids.CoeffIdOne, 0⟩],
    O := [⟨ids.CoeffIdOne, 1⟩], Solver := .BinaryDec }

/-- Wires `[ONE, v, b0, b1]` with `v` a secret input, and the single computational
constraint `bitsCons`. -/
def bitsGate (ids : CoeffIds) (pool : List Element) : R1CS :=
  { NbInternalVariables := 2
    NbPublicVariables := 1
    NbSecretVariables := 1
    NbConstraints := 1
    NbCOConstraints := 1
    Constraints := [bitsCons ids]
    Logs := []
    DebugInfoAssertion := []
    Coefficients := pool
    loggerOut := true }

/-- A coefficient pool that holds `2` at the identifier reserved for one and `1` at
the identifier reserved for two (with `gnarkIds`). -/
def swappedPool : List Element := [0, 2, 1, -1]

/-- The constraint `x * y = y` on wires `[ONE, y, x]`. -/
def skipCons (ids : CoeffIds) : R1C :=
  { L := [⟨ids.CoeffIdOne, 2⟩], R := [⟨ids.CoeffIdOne, 1⟩], O := [⟨ids.CoeffIdOne, 1⟩],
    Solver := .SingleOutput }

/-- The constraint `x * ONE = ONE` on wires `[ONE, y, x]`. -/
def isOneCons (ids : CoeffIds) : R1C :=
  { L := [⟨ids.CoeffIdOne, 2⟩], R := [⟨ids.CoeffIdOne, 0⟩], O := [⟨ids.CoeffIdOne, 0⟩],
    Solver := .SingleOutput }

/-- Wires `[ONE, y, x]` with `y` a secret input and `x` internal, and the single
computational constraint `skipCons`. -/
def skipGate (ids : CoeffIds) (pool : List Element) : R1CS :=
  { NbInternalVariables := 1
    NbPublicVariables := 1
    NbSecretVariables := 1
    NbConstraints := 1
    NbCOConstraints := 1
    Constraints := [skipCons ids]
    Logs := []
    DebugInfoAssertion := []
    Coefficients := pool
    loggerOut := true }

/-- On wires `[ONE, b]`, the constraint that decomposes `ONE` into the single bit `b`,
whose coefficient is the pooled constant with identifier 4. -/
def pooledBitCons (ids : CoeffIds) : R1C :=
  { L := [⟨4, 1⟩], R := [⟨ids.CoeffIdOne, 0⟩], O := [⟨ids.CoeffIdOne, 0⟩],
    Solver := .BinaryDec }

/-- Wires `[ONE, b]` with `b` internal, and the single computational constraint
`pooledBitCons`. -/
def pooledBitGate (ids : CoeffIds) (pool : List Element) : R1CS :=
  { NbInternalVariables := 1
    NbPublicVariables := 1
    NbSecretVariables := 0
    NbConstraints := 1
    NbCOConstraints := 1
    Constraints := [pooledBitCons ids]
    Logs := []
    DebugInfoAssertion := []
    Coefficients := pool
    loggerOut := true }

/-- The constraint `ONE * ONE = 0 * ONE` on the single wire `[ONE]`, solved by
decomposing `O` into the one bit `ONE`. -/
def zeroOneCons (ids : CoeffIds) : R1C :=
  { L := [⟨ids.CoeffIdOne, 0⟩], R := [⟨ids.CoeffIdOne, 0⟩], O := [⟨ids.CoeffIdZero, 0⟩],
    Solver := .BinaryDec }

/-- The single wire `[ONE]` and the single computational constraint `zeroOneCons`. -/
def zeroOneCircuit (ids : CoeffIds) (pool : List Element) : R1CS :=
  { NbInternalVariables := 0
    NbPublicVariables := 1
    NbSecretVariables := 0
    NbConstraints := 1
    NbCOConstraints := 1
    Constraints := [zeroOneCons ids]
    Logs := []
    DebugInfoAssertion := []
    Coefficients := pool
    loggerOut := true }

/-- On wires `[ONE, x, y, z, b0, b1]`: the gate `x * y = z`, then the decomposition of
`z` into the bits `b0` and `b1`. -/
def mulBitsCircuit (ids : CoeffIds) (pool : List Element) : R1CS :=
  { NbInternalVariables := 3
    NbPublicVariables := 1
    NbSecretVariables := 2
    NbConstraints := 2
    NbCOConstraints := 2
    Constraints := [mulCons ids,
      { L := [⟨ids.CoeffIdOne, 4⟩, ⟨ids.CoeffIdTwo, 5⟩], R := [⟨ids.CoeffIdOne, 0⟩],
        O := [⟨ids.CoeffIdOne, 3⟩], Solver := .BinaryDec }]
    Logs := []
    DebugInfoAssertion := []
    Coefficients := pool
    loggerOut := true }

/-! ## Serialization

The encoder and decoder behind `WriteTo` and `ReadFrom` (package `cbor`) and the field
declarations of `compiled.R1CS` are not among the sources.  This section models them
from the spec: a compact self-describing binary encoding in which every item starts
with a head that carries its kind and its length or value, a decoder that refuses an
array whose declared element count exceeds the configured bound, and a count of the
bytes consumed. -/

/-- The errors of the decoder. -/
inductive DecodeError where
  /-- The input ends inside an item. -/
  | unexpectedEOF
  /-- The head of an item has another kind than the one expected. -/
  | wrongKind
  /-- A head that no item starts with, or a value outside the type decoded into. -/
  | malformed
  /-- An array declares more elements than `MaxArrayElements`. -/
  | tooManyElements
  /-- The bytes of a text are not valid UTF-8. -/
  | invalidUTF8
deriving DecidableEq, Repr

/-- The option `MaxArrayElements: 134217728` that `ReadFrom` passes to the decoder. -/
def MaxArrayElements : Nat := 134217728

/-- Modelled from the spec: the `k` bytes of `n`, most significant first. -/
def beBytes : Nat → Nat → List Nat
  | 0, _ => []
  | k + 1, n => beBytes k (n / 256) ++ [n % 256]

/-- Modelled from the spec: the number whose bytes, most significant first, are `bs`. -/
def beNat (bs : List Nat) : Nat := bs.foldl (fun acc b => acc * 256 + b) 0

/-- Modelled from the spec: the head of an item of the self-describing encoding (the
encoder of package `cbor` is not among the sources).  The first byte holds the kind in
its three high bits; the five low bits hold the argument when it is below `24`, and else
say in how many bytes (1, 2, 4 or 8) the argument follows. -/
def encodeHead (kind arg : Nat) : List Nat :=
  if arg < 24 then [kind * 32 + arg]
  else if arg < 2 ^ 8 then (kind * 32 + 24) :: beBytes 1 arg
  else if arg < 2 ^ 16 then (kind * 32 + 25) :: beBytes 2 arg
  else if arg < 2 ^ 32 then (kind * 32 + 26) :: beBytes 4 arg
  else (kind * 32 + 27) :: beBytes 8 arg

/-- Modelled from the spec: reads a `k`-byte argument. -/
def readBE (k : Nat) (bs : List Nat) : Except DecodeError (Nat × List Nat) :=
  if bs.length < k then .error .unexpectedEOF else .ok (beNat (bs.take k), bs.drop k)

/-- Modelled from the spec: reads a head; the result is the kind, the argument and the
remaining input. -/
def decodeHead (bs : List Nat) : Except DecodeError (Nat × Nat × List Nat) :=
  match bs with
  | [] => .error .unexpectedEOF
  | b :: rest =>
    if b % 32 < 24 then .ok (b / 32, b % 32, rest)
    else if 27 < b % 32 then .error .malformed
    else
      match readBE (2 ^ (b % 32 - 24)) rest with
      | .error e => .error e
      | .ok (n, rest1) => .ok (b / 32, n, rest1)

/-- Modelled from the spec: reads a head of the kind `kind`. -/
def expectHead (kind : Nat) (bs : List Nat) : Except DecodeError (Nat × List Nat) :=
  match decodeHead bs with
  | .error e => .error e
  | .ok (k, n, rest) => if k = kind then .ok (n, rest) else .error .wrongKind

/-- Kind of an unsigned integer. -/
def kindUint : Nat := 0

/-- Kind of a negative integer. -/
def kindNegInt : Nat := 1

/-- Kind of a text. -/
def kindText : Nat := 3

/-- Kind of an array. -/
def kindArray : Nat := 4

/-- Modelled from the spec: an unsigned integer is a head of kind `kindUint`. -/
def encodeUint (n : Nat) : List Nat := encodeHead kindUint n

/-- Modelled from the spec: decoder of an unsigned integer. -/
def decodeUint (bs : List Nat) : Except DecodeError (Nat × List Nat) :=
  expectHead kindUint bs

/-- Modelled from the spec: a signed integer `x` is the unsigned `x` when `0 ≤ x`, and
a head of kind `kindNegInt` with argument `-1 - x` otherwise. -/
def encodeInt (x : Int) : List Nat :=
  if 0 ≤ x then encodeHead kindUint x.toNat else encodeHead kindNegInt (-1 - x).toNat

/-- Modelled from the spec: decoder of a signed integer. -/
def decodeInt (bs : List Nat) : Except DecodeError (Int × List Nat) :=
  match decodeHead bs with
  | .error e => .error e
  | .ok (k, n, rest) =>
    if k = kindUint then .ok ((n : Int), rest)
    else if k = kindNegInt then .ok (-1 - (n : Int), rest)
    else .error .wrongKind

/-- Modelled from the spec: the items of a sequence, one after the other. -/
def encodeAll {α : Type} (enc : α → List Nat) : List α → List Nat
  | [] => []
  | x :: xs => enc x ++ encodeAll enc xs

/-- Modelled from the spec: decoder of `n` items in a row. -/
def decodeMany {α : Type} (dec : List Nat → Except DecodeError (α × List Nat)) :
    Nat → List Nat → Except DecodeError (List α × List Nat)
  | 0, bs => .ok ([], bs)
  | n + 1, bs =>
    match dec bs with
    | .error e => .error e
    | .ok (x, rest) =>
      match decodeMany dec n rest with
      | .error e => .error e
      | .ok (xs, rest1) => .ok (x :: xs, rest1)

/-- Modelled from the spec: a slice is a head of kind `kindArray` that declares the
number of elements, followed by the elements. -/
def encodeArray {α : Type} (enc : α → List Nat) (xs : List α) : List Nat :=
  encodeHead kindArray xs.length ++ encodeAll enc xs

/-- Modelled from the spec: decoder of a slice (the decoder of package `cbor` is not
among the sources).  The declared number of elements is checked against `maxElems`
before any element is read. -/
def decodeArray {α : Type} (maxElems : Nat)
    (dec : List Nat → Except DecodeError (α × List Nat)) (bs : List Nat) :
    Except DecodeError (List α × List Nat) :=
  match expectHead kindArray bs with
  | .error e => .error e
  | .ok (n, rest) =>
    if maxElems < n then .error .tooManyElements else decodeMany dec n rest

/-- Modelled from the spec: the head of a struct with `n` fields, which are written
after it in the order of their declaration. -/
def encodeStruct (n : Nat) : List Nat := encodeHead kindArray n

/-- Modelled from the spec: reads the head of a struct with `n` fields. -/
def expectStruct (n : Nat) (bs : List Nat) : Except DecodeError (List Nat) :=
  match expectHead kindArray bs with
  | .error e => .error e
  | .ok (m, rest) => if m = n then .ok rest else .error .malformed

/-- Whether a byte continues a multi-byte character of UTF-8. -/
def isCont (b : Nat) : Bool := decide (0x80 ≤ b) && decide (b ≤ 0xBF)

/-- Whether the bytes are well-formed UTF-8 (the test `utf8.Valid` of Go): one to four
bytes per character, no overlong form, no surrogate, nothing above `U+10FFFF`.  The
first argument bounds the number of characters; `validUTF8` passes the number of
bytes, which is always enough. -/
def validUTF8Aux : Nat → List Nat → Bool
  | 0, bs => bs.isEmpty
  | _ + 1, [] => true
  | fuel + 1, b0 :: rest =>
    if b0 < 0x80 then validUTF8Aux fuel rest
    else if 0xC2 ≤ b0 ∧ b0 ≤ 0xDF then
      match rest with
      | b1 :: rest1 => isCont b1 && validUTF8Aux fuel rest1
      | _ => false
    else if 0xE0 ≤ b0 ∧ b0 ≤ 0xEF then
      match rest with
      | b1 :: b2 :: rest2 =>
        decide ((if b0 = 0xE0 then 0xA0 else 0x80) ≤ b1) &&
          decide (b1 ≤ (if b0 = 0xED then 0x9F else 0xBF)) && isCont b2 &&
          validUTF8Aux fuel rest2
      | _ => false
    else if 0xF0 ≤ b0 ∧ b0 ≤ 0xF4 then
      match rest with
      | b1 :: b2 :: b3 :: rest3 =>
        decide ((if b0 = 0xF0 then 0x90 else 0x80) ≤ b1) &&
          decide (b1 ≤ (if b0 = 0xF4 then 0x8F else 0xBF)) && isCont b2 && isCont b3 &&
          validUTF8Aux fuel rest3
      | _ => false
    else false

/-- Whether the bytes of a Go string are valid UTF-8. -/
def validUTF8 (bs : List Nat) : Bool := validUTF8Aux bs.length bs

/-- Modelled from the spec: a text (a Go `string`) is a head of kind `kindText` that
declares the number of bytes, followed by the bytes. -/
def encodeText (s : List Nat) : List Nat :=
  encodeHead kindText s.length ++ s

/-- Modelled from the spec: decoder of a text (the decoder of package `cbor` is not
among the sources).  A text whose bytes are not valid UTF-8 is refused. -/
def decodeText (bs : List Nat) : Except DecodeError (List Nat × List Nat) :=
  match expectHead kindText bs with
  | .error e => .error e
  | .ok (n, rest) =>
    if rest.length < n then .error .unexpectedEOF
    else if validUTF8 (rest.take n) then .ok (rest.take n, rest.drop n)
    else .error .invalidUTF8

/-- Modelled from the spec: the four 64-bit limbs of an integer below `2 ^ 256`, least
significant first (`fr.Element` is an array of `fr.Limbs = 4` words). -/
def limbs (n : Nat) : List Nat :=
  [n % 2 ^ 64, n / 2 ^ 64 % 2 ^ 64, n / 2 ^ 128 % 2 ^ 64, n / 2 ^ 192 % 2 ^ 64]

/-- Modelled from the spec: a field element is the struct of the four limbs of its
canonical integer. -/
def encodeElement (x : Element) : List Nat :=
  encodeStruct 4 ++ encodeAll encodeUint (limbs (ToBigIntRegular x))

/-- Modelled from the spec: decoder of a field element. -/
def decodeElement (bs : List Nat) : Except DecodeError (Element × List Nat) :=
  match expectStruct 4 bs with
  | .error e => .error e
  | .ok rest =>
    match decodeMany decodeUint 4 rest with
    | .error e => .error e
    | .ok ([l0, l1, l2, l3], rest1) =>
      .ok (((l0 + l1 * 2 ^ 64 + l2 * 2 ^ 128 + l3 * 2 ^ 192 : Nat) : Element), rest1)
    | .ok _ => .error .malformed

/-- Modelled from the spec: a term is the struct of its two identifiers. -/
def encodeTerm (t : Term) : List Nat :=
  encodeStruct 2 ++ (encodeUint t.CoeffID ++ encodeUint t.VariableID)

/-- Modelled from the spec: decoder of a term. -/
def decodeTerm (bs : List Nat) : Except DecodeError (Term × List Nat) :=
  match expectStruct 2 bs with
  | .error e => .error e
  | .ok rest =>
    match decodeUint rest with
    | .error e => .error e
    | .ok (coeffID, rest1) =>
      match decodeUint rest1 with
      | .error e => .error e
      | .ok (variableID, rest2) => .ok (⟨coeffID, variableID⟩, rest2)

/-- Modelled from the spec: the number written for a solver tag. -/
def SolvingMethod.toTag : SolvingMethod → Nat
  | .SingleOutput => 0
  | .BinaryDec => 1
  | .other tag => tag + 2

/-- Modelled from the spec: the solver tag written as a number. -/
def SolvingMethod.ofTag : Nat → SolvingMethod
  | 0 => .SingleOutput
  | 1 => .BinaryDec
  | tag + 2 => .other tag

/-- Modelled from the spec: a constraint is the struct of `L`, `R`, `O` and the solver
tag. -/
def encodeR1C (cons : R1C) : List Nat :=
  encodeStruct 4 ++ (encodeArray encodeTerm cons.L ++ (encodeArray encodeTerm cons.R ++
    (encodeArray encodeTerm cons.O ++ encodeUint cons.Solver.toTag)))

/-- Modelled from the spec: decoder of a constraint. -/
def decodeR1C (maxElems : Nat) (bs : List Nat) : Except DecodeError (R1C × List Nat) :=
  match expectStruct 4 bs with
  | .error e => .error e
  | .ok rest =>
    match decodeArray maxElems decodeTerm rest with
    | .error e => .error e
    | .ok (l, rest1) =>
      match decodeArray maxElems decodeTerm rest1 with
      | .error e => .error e
      | .ok (r, rest2) =>
        match decodeArray maxElems decodeTerm rest2 with
        | .error e => .error e
        | .ok (o, rest3) =>
          match decodeUint rest3 with
          | .error e => .error e
          | .ok (tag, rest4) =>
            .ok ({ L := l, R := r, O := o, Solver := SolvingMethod.ofTag tag }, rest4)

/-- Modelled from the spec: a log entry is the struct of the template and the wire
identifiers. -/
def encodeLogEntry (entry : LogEntry) : List Nat :=
  encodeStruct 2 ++ (encodeText entry.Format ++ encodeArray encodeUint entry.ToResolve)

/-- Modelled from the spec: decoder of a log entry. -/
def decodeLogEntry (maxElems : Nat) (bs : List Nat) :
    Except DecodeError (LogEntry × List Nat) :=
  match expectStruct 2 bs with
  | .error e => .error e
  | .ok rest =>
    match decodeText rest with
    | .error e => .error e
    | .ok (format, rest1) =>
      match decodeArray maxElems decodeUint rest1 with
      | .error e => .error e
      | .ok (toResolve, rest2) => .ok ({ Format := format, ToResolve := toResolve }, rest2)

/-- Modelled from the spec: what `encoder.Encode(r1cs)` writes (the encoder of package
`cbor` and the declaration of `compiled.R1CS` are not among the sources).  The whole
circuit object is the struct of the variable and constraint counts, the constraint
list, the log and debug entries and the coefficient pool.  The field `loggerOut` is not
exported and is not written. -/
def encodeR1CS (r : R1CS) : List Nat :=
  encodeStruct 9 ++ (encodeInt r.NbInternalVariables ++ (encodeInt r.NbPublicVariables ++
    (encodeInt r.NbSecretVariables ++ (encodeInt r.NbConstraints ++
    (encodeInt r.NbCOConstraints ++ (encodeArray encodeR1C r.Constraints ++
    (encodeArray encodeLogEntry r.Logs ++ (encodeArray encodeLogEntry r.DebugInfoAssertion ++
    encodeArray encodeElement r.Coefficients))))))))

/-- Modelled from the spec: what `decoder.Decode(r1cs)` reads (the decoder of package
`cbor` is not among the sources), with the input that remains; `loggerOut` is the
field of the receiver, which the decoder leaves alone. -/
def decodeR1CS (maxElems : Nat) (loggerOut : Bool) (bs : List Nat) :
    Except DecodeError (R1CS × List Nat) :=
  match expectStruct 9 bs with
  | .error e => .error e
  | .ok rest =>
    match decodeInt rest with
    | .error e => .error e
    | .ok (nbInternal, rest1) =>
      match decodeInt rest1 with
      | .error e => .error e
      | .ok (nbPublic, rest2) =>
        match decodeInt rest2 with
        | .error e => .error e
        | .ok (nbSecret, rest3) =>
          match decodeInt rest3 with
          | .error e => .error e
          | .ok (nbConstraints, rest4) =>
            match decodeInt rest4 with
            | .error e => .error e
            | .ok (nbCO, rest5) =>
              match decodeArray maxElems (decodeR1C maxElems) rest5 with
              | .error e => .error e
              | .ok (constraints, rest6) =>
                match decodeArray maxElems (decodeLogEntry maxElems) rest6 with
                | .error e => .error e
                | .ok (logs, rest7) =>
                  match decodeArray maxElems (decodeLogEntry maxElems) rest7 with
                  | .error e => .error e
                  | .ok (debugInfo, rest8) =>
                    match decodeArray maxElems decodeElement rest8 with
                    | .error e => .error e
                    | .ok (coefficients, rest9) =>
                      .ok ({ NbInternalVariables := nbInternal
                             NbPublicVariables := nbPublic
                             NbSecretVariables := nbSecret
                             NbConstraints := nbConstraints
                             NbCOConstraints := nbCO
                             Constraints := constraints
                             Logs := logs
                             DebugInfoAssertion := debugInfo
                             Coefficients := coefficients
                             loggerOut := loggerOut }, rest9)

/-- The method `WriteTo`: the bytes written to `w` and the count `_w.N` of bytes
written.  The encoder of this model never fails, so the returned error is `nil`. -/
def WriteTo (r : R1CS) : List Nat × Nat :=
  (encodeR1CS r, (encodeR1CS r).length)

/-- The method `ReadFrom` on the receiver `recv` and the bytes `input` of the reader:
the decoded receiver and `decoder.NumBytesRead()`, or the error of the decoder.  The
decoding mode is built from `MaxArrayElements: 134217728`. -/
def ReadFrom (recv : R1CS) (input : List Nat) : Except DecodeError (R1CS × Nat) :=
  match decodeR1CS MaxArrayElements recv.loggerOut input with
  | .error e => .error e
  | .ok (r, rest) => .ok (r, input.length - rest.length)

/-- Whether a slice of `n` elements is accepted by a decoder with the bound `maxElems`
(and `n` is a length a head can carry). -/
def fitsLen (maxElems n : Nat) : Bool := decide (n ≤ maxElems) && decide (n < 2 ^ 64)

/-- Whether a number is a `uint64`. -/
def fitsUint (n : Nat) : Bool := decide (n < 2 ^ 64)

/-- Whether an integer is an `int64`. -/
def fitsInt (x : Int) : Bool := decide (-2 ^ 63 ≤ x) && decide (x < 2 ^ 63)

/-- Whether the identifiers of a term are `uint64` values. -/
def Term.fits (t : Term) : Bool := fitsUint t.CoeffID && fitsUint t.VariableID

/-- Whether a linear expression has at most `maxElems` terms, all of which fit. -/
def fitsTerms (maxElems : Nat) (ts : List Term) : Bool :=
  fitsLen maxElems ts.length && ts.all Term.fits

/-- Whether the slices of a constraint have at most `maxElems` elements and its
numbers are `uint64` values. -/
def R1C.fits (maxElems : Nat) (cons : R1C) : Bool :=
  fitsTerms maxElems cons.L && fitsTerms maxElems cons.R && fitsTerms maxElems cons.O &&
    fitsUint cons.Solver.toTag

/-- Whether the template of a log entry is valid UTF-8, its slice has at most
`maxElems` elements, and its numbers and the length of its template are `uint64`
values. -/
def LogEntry.fits (maxElems : Nat) (entry : LogEntry) : Bool :=
  fitsUint entry.Format.length && validUTF8 entry.Format &&
    fitsLen maxElems entry.ToResolve.length && entry.ToResolve.all fitsUint

/-- Whether a list of log entries has at most `maxElems` entries, all of which fit. -/
def fitsEntries (maxElems : Nat) (entries : List LogEntry) : Bool :=
  fitsLen maxElems entries.length && entries.all (LogEntry.fits maxElems)

/-- Whether every slice of the circuit object, at every level, has at most `maxElems`
elements, the counts are `int64` values and the identifiers `uint64` values. -/
def R1CS.fits (maxElems : Nat) (r : R1CS) : Bool :=
  fitsInt r.NbInternalVariables && fitsInt r.NbPublicVariables &&
    fitsInt r.NbSecretVariables && fitsInt r.NbConstraints && fitsInt r.NbCOConstraints &&
    fitsLen maxElems r.Constraints.length && r.Constraints.all (R1C.fits maxElems) &&
    fitsEntries maxElems r.Logs && fitsEntries maxElems r.DebugInfoAssertion &&
    fitsLen maxElems r.Coefficients.length

/-- A circuit without constraints with one log entry, whose template is the single
byte `0xff`, which is not valid UTF-8. -/
def badTextCircuit : R1CS :=
  { NbInternalVariables := 0
    NbPublicVariables := 1
    NbSecretVariables := 0
    NbConstraints := 0
    NbCOConstraints := 0
    Constraints := []
    Logs := [⟨[0xff], []⟩]
    DebugInfoAssertion := []
    Coefficients := []
    loggerOut := true }

/-- A circuit without constraints whose coefficient pool has one element more than the
decoder accepts. -/
def bigPoolCircuit : R1CS :=
  { NbInternalVariables := 0
    NbPublicVariables := 1
    NbSecretVariables := 0
    NbConstraints := 0
    NbCOConstraints := 0
    Constraints := []
    Logs := []
    DebugInfoAssertion := []
    Coefficients := List.replicate (MaxArrayElements + 1) 0
    loggerOut := true }

/-! ## The modulus is prime

A Pratt certificate: for each prime `p` of the chain a base `a` of order `p - 1` and
the prime factors of `p - 1`.
-/

/-- Square-and-multiply computes the modular power. -/
theorem powModAux_eq (f : Nat) : ∀ a n m : Nat, n < 2 ^ f → powModAux f a n m = a ^ n % m := by
  induction f with
  | zero =>
    intro a n m h
    have : n = 0 := by simpa using h
    subst this; simp [powModAux]
  | succ f ih =>
    intro a n m h
    unfold powModAux
    by_cases h0 : n = 0
    · simp [h0]
    · have hlt : n / 2 < 2 ^ f := by
        rw [Nat.div_lt_iff_lt_mul (by norm_num)]; rw [pow_succ] at h; exact h
      rw [if_neg h0, ih _ _ _ hlt]
      have hsq : (a * a % m) ^ (n / 2) % m = (a * a) ^ (n / 2) % m := by
        rw [Nat.pow_mod, Nat.mod_mod, ← Nat.pow_mod]
      rw [hsq, ← pow_two, ← pow_mul]
      by_cases h1 : n % 2 = 1
      · rw [if_pos h1]
        have hn : n = 2 * (n / 2) + 1 := by omega
        conv_rhs => rw [hn, pow_succ, mul_comm]
        rw [Nat.mul_mod, Nat.mod_mod, ← Nat.mul_mod]
      · rw [if_neg h1]
        have hn : n = 2 * (n / 2) := by omega
        conv_rhs => rw [hn]

/-- Lucas test from a factorisation of `p - 1` into primes, with the powers evaluated
by `powMod`. -/
theorem prime_of_cert (p a : Nat) (l : List (Nat × Nat))
    (hprod : (l.map fun x => x.1 ^ x.2).prod = p - 1)
    (hprime : ∀ x ∈ l, Nat.Prime x.1)
    (ha : powMod a (p - 1) p = 1)
    (hq : ∀ x ∈ l, powMod a ((p - 1) / x.1) p ≠ 1)
    (hbits : p < 2 ^ 256) (hp : 1 < p) : Nat.Prime p := by
  have hlt : ∀ n, n ≤ p → n < 2 ^ 256 := fun n hn => lt_of_le_of_lt hn hbits
  have cast_pow : ∀ n : Nat, n ≤ p → ((a : ZMod p) ^ n = 1 ↔ powMod a n p = 1 % p) := by
    intro n hn
    unfold powMod
    rw [powModAux_eq 256 a n p (hlt n hn), ← Nat.cast_pow, ← Nat.cast_one,
      ZMod.natCast_eq_natCast_iff']
  have hp1 : 1 % p = 1 := Nat.mod_eq_of_lt hp
  apply lucas_primality p (a : ZMod p)
  · rw [cast_pow _ (Nat.sub_le _ _), hp1]; exact ha
  · intro q hqp hqd
    rw [← hprod] at hqd
    obtain ⟨y, hy, hqy⟩ := (Prime.dvd_prod_iff (Nat.prime_iff.mp hqp)).mp hqd
    obtain ⟨x, hx, rfl⟩ := List.mem_map.mp hy
    have hqx : q ∣ x.1 := hqp.dvd_of_dvd_pow hqy
    have hqe : q = x.1 := (Nat.prime_dvd_prime_iff_eq hqp (hprime x hx)).mp hqx
    subst hqe
    rw [Ne, cast_pow _ (le_trans (Nat.div_le_self _ _) (Nat.sub_le _ _)), hp1]
    exact hq x hx

theorem prime_1593227 : Nat.Prime 1593227 := by
  apply prime_of_cert _ 2 [(2, 1), (19, 1), (41927, 1)]
  · decide!
  · intro x hx
    simp only [List.mem_cons, List.not_mem_nil, or_false] at hx
    rcases hx with rfl | rfl | rfl
    · norm_num
    · norm_num
    · norm_num
  · decide!
  · decide!
  · decide!
  · decide!

theorem prime_405928799 : Nat.Prime 405928799 := by
  apply prime_of_cert _ 22 [(2, 1), (11, 1), (3691, 1), (4999, 1)]
  · decide!
  · intro x hx
    simp only [List.mem_cons, List.not_mem_nil, or_false] at hx
    rcases hx with rfl | rfl | rfl | rfl
    · norm_num
    · norm_num
    · norm_num
    · norm_num
  · decide!
  · decide!
  · decide!
  · decide!

theorem prime_639533339 : Nat.Prime 639533339 := by
  apply prime_of_cert _ 2 [(2, 1), (229, 1), (853, 1), (1637, 1)]
  · decide!
  · intro x hx
    simp only [List.mem_cons, List.not_mem_nil, or_false] at hx
    rcases hx with rfl | rfl | rfl | rfl
    · norm_num
    · norm_num
    · norm_num
    · norm_num
  · decide!
  · decide!
  · decide!
  · decide!

theorem prime_12048837557 : Nat.Prime 12048837557 := by
  apply prime_of_cert _ 2 [(2, 2), (7, 2), (661, 1), (93001, 1)]
  · decide!
  · intro x hx
    simp only [List.mem_cons, List.not_mem_nil, or_false] at hx
    rcases hx with rfl | rfl | rfl | rfl
    · norm_num
    · norm_num
    · norm_num
    · norm_num
  · decide!
  · decide!
  · decide!
  · decide!

theorem prime_5156902474397 : Nat.Prime 5156902474397 := by
  apply prime_of_cert _ 2 [(2, 2), (107, 1), (12048837557, 1)]
  · decide!
  · intro x hx
    simp only [List.mem_cons, List.not_mem_nil, or_false] at hx
    rcases hx with rfl | rfl | rfl
    · norm_num
    · norm_num
    · exact prime_12048837557
  · decide!
  · decide!
  · decide!
  · decide!

theorem prime_1670836401704629 : Nat.Prime 1670836401704629 := by
  apply prime_of_cert _ 2 [(2, 2), (3, 4), (5156902474397, 1)]
  · decide!
  · intro x hx
    simp only [List.mem_cons, List.not_mem_nil, or_false] at hx
    rcases hx with rfl | rfl | rfl
    · norm_num
    · norm_num
    · exact prime_5156902474397
  · decide!
  · decide!
  · decide!
  · decide!

theorem prime_65865678001877903 : Nat.Prime 65865678001877903 := by
  apply prime_of_cert _ 5 [(2, 1), (83, 1), (379, 1), (1637, 1), (639533339, 1)]
  · decide!
  · intro x hx
    simp only [List.mem_cons, List.not_mem_nil, or_false] at hx
    rcases hx with rfl | rfl | rfl | rfl | rfl
    · norm_num
    · norm_num
    · norm_num
    · norm_num
    · exact prime_639533339
  · decide!
  · decide!
  · decide!
  · decide!

theorem prime_13818364434197438864469338081 : Nat.Prime 13818364434197438864469338081 := by
  apply prime_of_cert _ 3 [(2, 5), (5, 1), (823, 1), (1593227, 1), (65865678001877903, 1)]
  · decide!
  · intro x hx
    simp only [List.mem_cons, List.not_mem_nil, or_false] at hx
    rcases hx with rfl | rfl | rfl | rfl | rfl
    · norm_num
    · norm_num
    · norm_num
    · exact prime_1593227
    · exact prime_65865678001877903
  · decide!
  · decide!
  · decide!
  · decide!

theorem frModulus_prime : Nat.Prime frModulus := by
  apply prime_of_cert _ 5 [(2, 28), (3, 2), (13, 1), (29, 1), (983, 1), (11003, 1), (237073, 1), (405928799, 1), (1670836401704629, 1), (13818364434197438864469338081, 1)]
  · decide!
  · intro x hx
    simp only [List.mem_cons, List.not_mem_nil, or_false] at hx
    rcases hx with rfl | rfl | rfl | rfl | rfl | rfl | rfl | rfl | rfl | rfl
    · norm_num
    · norm_num
    · norm_num
    · norm_num
    · norm_num
    · norm_num
    · norm_num
    · exact prime_405928799
    · exact prime_1670836401704629
    · exact prime_13818364434197438864469338081
  · decide!
  · decide!
  · decide!
  · decide!

instance frModulus_fact : Fact (Nat.Prime frModulus) := ⟨frModulus_prime⟩

/-! ## Slices -/

/-- A read returns exactly when the index is in range. -/
theorem index_eq_ok {α : Type} (xs : List α) (i : Nat) (x : α) :
    index xs i = .ok x ↔ xs[i]? = some x := by
  unfold index
  cases h : xs[i]? <;> simp

/-- A read panics exactly when the index is out of range. -/
theorem index_eq_error {α : Type} (xs : List α) (i : Nat) (e : Panic) :
    index xs i = .error e ↔ xs.length ≤ i ∧ e = .indexOutOfRange := by
  unfold index
  cases h : xs[i]? with
  | none => simp [List.getElem?_eq_none_iff.mp h, eq_comm]
  | some x =>
    have := (List.getElem?_eq_some_iff.mp h).1
    simp; intro h1; omega

/-- A write returns exactly when the index is in range. -/
theorem assign_eq_ok {α : Type} (xs : List α) (i : Nat) (x : α) (ys : List α) :
    assign xs i x = .ok ys ↔ i < xs.length ∧ ys = xs.set i x := by
  unfold assign
  by_cases h : i < xs.length <;> simp [h, eq_comm]

/-- A write in range. -/
theorem assign_of_lt {α : Type} (xs : List α) (i : Nat) (x : α) (h : i < xs.length) :
    assign xs i x = .ok (xs.set i x) := by
  simp [assign, h]

/-! ## Size checks of Solve -/

/-- The computational loop only ever returns the computational error. -/
theorem solveComputational_err (ids : CoeffIds) (r : R1CS) (steps : Nat) :
    ∀ (i : Nat) (s s1 : Buffers) (err : Option SolveError),
      solveComputational ids r steps i s = .ok (err, s1) →
      err = none ∨ err = some .unsolvedComputational := by
  induction steps with
  | zero =>
    intro i s s1 err h
    simp [solveComputational] at h
    exact Or.inl h.1.symm
  | succ k ih =>
    intro i s s1 err h
    unfold solveComputational at h
    split at h
    · cases h
    · split at h
      · cases h
      · split at h
        · cases h
        · exact ih _ _ _ _ h
        · simp at h; exact Or.inr h.1.symm

/-- The assertion loop only ever returns the assertion error. -/
theorem checkAssertions_err (ids : CoeffIds) (r : R1CS) (nbCO steps : Nat) :
    ∀ (i : Nat) (s s1 : Buffers) (err : Option SolveError),
      checkAssertions ids r nbCO steps i s = .ok (err, s1) →
      err = none ∨ ∃ m, err = some (.unsatisfiedAssertion m) := by
  induction steps with
  | zero =>
    intro i s s1 err h
    simp [checkAssertions] at h
    exact Or.inl h.1.symm
  | succ k ih =>
    intro i s s1 err h
    unfold checkAssertions at h
    split at h
    · cases h
    · split at h
      · cases h
      · exact ih _ _ _ _ h
      · split at h
        · cases h
        · split at h
          · cases h
          · simp at h; exact Or.inr ⟨_, h.1.symm⟩

/-- The two loops return `nil` or an error that wraps `ErrUnsatisfiedConstraint`. -/
theorem solveConstraints_err (ids : CoeffIds) (r : R1CS) (s s1 : Buffers)
    (err : Option SolveError) (h : solveConstraints ids r s = .ok (err, s1)) :
    err = none ∨ err = some .unsolvedComputational ∨
      ∃ m, err = some (.unsatisfiedAssertion m) := by
  unfold solveConstraints at h
  split at h
  · cases h
  · rename_i e s2 hc
    simp at h
    rcases solveComputational_err _ _ _ _ _ _ _ hc with h1 | h1
    · cases h1
    · right; left; rw [← h.1, h1]
  · split at h
    · cases h
    · rcases checkAssertions_err _ _ _ _ _ _ _ _ h with h1 | h1
      · exact Or.inl h1
      · exact Or.inr (Or.inr h1)

/-- C3: `Solve` returns the witness-size error exactly when `len(witness)` differs from
`int(NbPublicVariables - 1 + NbSecretVariables)`; in that case nothing is solved: `a`,
`b`, `c` and `wireValues` come back as they were passed and no log line is written. -/
theorem Solve_witness_size (ids : CoeffIds) (r : R1CS) (witness a b c wireValues : List Element) :
    ((∃ res e, Solve ids r witness a b c wireValues = .ok res ∧ res.err = some e ∧
        e.isWitnessSize = true) ↔ (witness.length : Int) ≠ expectedWitnessSize r) ∧
    ((witness.length : Int) ≠ expectedWitnessSize r →
      Solve ids r witness a b c wireValues = .ok
        { err := some (.invalidWitnessSize witness.length (expectedWitnessSize r)
            (wrapInt (r.NbPublicVariables - 1)) r.NbSecretVariables),
          a := a, b := b, c := c, wireValues := wireValues, logs := [] }) := by
  have key : (witness.length : Int) ≠ expectedWitnessSize r →
      Solve ids r witness a b c wireValues = .ok
        { err := some (.invalidWitnessSize witness.length (expectedWitnessSize r)
            (wrapInt (r.NbPublicVariables - 1)) r.NbSecretVariables),
          a := a, b := b, c := c, wireValues := wireValues, logs := [] } := by
    intro h
    simp [Solve, h]
  refine ⟨⟨?_, ?_⟩, key⟩
  · rintro ⟨res, e, hres, herr, hw⟩
    by_contra hlen
    unfold Solve at hres
    rw [if_neg (by simp [hlen])] at hres
    split at hres
    · simp at hres
      rw [← hres] at herr
      simp at herr
      rw [← herr] at hw
      simp [SolveError.isWitnessSize] at hw
    · split at hres
      · cases hres
      · split at hres
        · cases hres
        · rename_i err s hsc
          split at hres
          · cases hres
          · simp at hres
            rw [← hres] at herr
            simp at herr
            rcases solveConstraints_err _ _ _ _ _ hsc with h1 | h1 | ⟨m, h1⟩
            · rw [h1] at herr; cases herr
            · rw [h1] at herr; cases herr; simp [SolveError.isWitnessSize] at hw
            · rw [h1] at herr; cases herr; simp [SolveError.isWitnessSize] at hw
  · intro h
    exact ⟨_, _, key h, rfl, rfl⟩

/-- C4: with a witness of the expected length, a buffer `a`, `b` or `c` whose length
differs from `NbConstraints`, or a `wireValues` whose length differs from `nbWires`,
makes `Solve` return the buffer-size error with `a`, `b`, `c` and `wireValues` (the
ONE wire and the witness range included) exactly as passed, and no log line. -/
theorem Solve_buffer_size (ids : CoeffIds) (r : R1CS) (witness a b c wireValues : List Element)
    (hw : (witness.length : Int) = expectedWitnessSize r)
    (hbuf : (a.length : Int) ≠ r.NbConstraints ∨ (b.length : Int) ≠ r.NbConstraints ∨
      (c.length : Int) ≠ r.NbConstraints ∨ (wireValues.length : Int) ≠ nbWires r) :
    Solve ids r witness a b c wireValues = .ok
      { err := some .invalidInputSize,
        a := a, b := b, c := c, wireValues := wireValues, logs := [] } := by
  unfold Solve
  rw [if_neg (by simp [hw]), if_pos hbuf]


/-- C4 at a concrete input: the multiplication gate with an empty `a`. -/
theorem Solve_buffer_size_witness :
    Solve gnarkIds (mulGate gnarkIds 1 gnarkPool) [3, 4] [] [0] [0] [0, 0, 0, 0] = .ok
      { err := some .invalidInputSize,
        a := [], b := [0], c := [0], wireValues := [0, 0, 0, 0], logs := [] } :=
  Solve_buffer_size gnarkIds (mulGate gnarkIds 1 gnarkPool) [3, 4] [] [0] [0] [0, 0, 0, 0]
    (by decide) (by decide)

/-! ## The two loops of Solve -/

/-- What a returning `instantiateAndCheck` has done. -/
theorem instantiateAndCheck_eq_ok (ids : CoeffIds) (r : R1CS) (cons : R1C) (i : Nat)
    (s s1 : Buffers) (passed : Bool) :
    instantiateAndCheck ids r cons i s = .ok (s1, passed) ↔
      ∃ av bv cv, instantiateR1C ids cons r s.wireValues = .ok (av, bv, cv) ∧
        i < s.a.length ∧ i < s.b.length ∧ i < s.c.length ∧
        s1 = { s with a := s.a.set i av, b := s.b.set i bv, c := s.c.set i cv } ∧
        passed = decide (av * bv = cv) := by
  unfold instantiateAndCheck
  cases hi : instantiateR1C ids cons r s.wireValues with
  | error e => simp
  | ok v =>
    obtain ⟨av, bv, cv⟩ := v
    simp only [assign]
    by_cases ha : i < s.a.length
    · by_cases hb : i < s.b.length
      · by_cases hc : i < s.c.length
        · simp only [ha, hb, hc, if_true]
          constructor
          · intro h
            simp only [Except.ok.injEq, Prod.mk.injEq] at h
            exact ⟨av, bv, cv, rfl, trivial, trivial, trivial, h.1.symm, h.2.symm⟩
          · rintro ⟨x, y, z, hxyz, -, -, -, h1, h2⟩
            simp only [Except.ok.injEq, Prod.mk.injEq] at hxyz
            obtain ⟨rfl, rfl, rfl⟩ := hxyz
            rw [h1, h2]
        · simp [ha, hb, hc]
      · simp [ha, hb]
    · simp [ha]

/-- One iteration of the computational loop. -/
theorem solveComputational_succ (ids : CoeffIds) (r : R1CS) (steps i : Nat) (s s2 : Buffers)
    (err : Option SolveError) :
    solveComputational ids r (steps + 1) i s = .ok (err, s2) ↔
      ∃ cons inst1 w1 s1 passed, r.Constraints[i]? = some cons ∧
        solveR1C ids r cons s.wireInstantiated s.wireValues = .ok (inst1, w1) ∧
        instantiateAndCheck ids r cons i
          { s with wireInstantiated := inst1, wireValues := w1 } = .ok (s1, passed) ∧
        ((passed = true ∧ solveComputational ids r steps (i + 1) s1 = .ok (err, s2)) ∨
          (passed = false ∧ err = some .unsolvedComputational ∧ s2 = s1)) := by
  conv_lhs => unfold solveComputational
  cases hc : index r.Constraints i with
  | error e =>
    have : r.Constraints[i]? = none := by
      rw [index_eq_error] at hc; exact List.getElem?_eq_none_iff.mpr hc.1
    simp [this]
  | ok cons =>
    rw [index_eq_ok] at hc
    dsimp only
    cases hs : solveR1C ids r cons s.wireInstantiated s.wireValues with
    | error e => simp [hc, hs]
    | ok v =>
      obtain ⟨inst1, w1⟩ := v
      dsimp only
      cases hi : instantiateAndCheck ids r cons i
          { s with wireInstantiated := inst1, wireValues := w1 } with
      | error e =>
        constructor
        · intro h; cases h
        rintro ⟨c1, i1, v1, t1, p1, h1, h2, h3, -⟩
        rw [hc] at h1; cases h1
        rw [hs] at h2; cases h2
        rw [hi] at h3; cases h3
      | ok v =>
        obtain ⟨s1, passed⟩ := v
        cases passed
        · dsimp only
          constructor
          · intro h
            simp only [Except.ok.injEq, Prod.mk.injEq] at h
            exact ⟨cons, inst1, w1, s1, false, hc, hs, hi, Or.inr ⟨rfl, h.1.symm, h.2.symm⟩⟩
          · rintro ⟨c1, i1, v1, t1, p1, h1, h2, h3, h4⟩
            rw [hc] at h1; cases h1
            rw [hs] at h2; cases h2
            rw [hi] at h3; cases h3
            rcases h4 with ⟨h5, -⟩ | ⟨-, h5, h6⟩
            · cases h5
            · rw [h5, h6]
        · dsimp only
          constructor
          · intro h
            exact ⟨cons, inst1, w1, s1, true, hc, hs, hi, Or.inl ⟨rfl, h⟩⟩
          · rintro ⟨c1, i1, v1, t1, p1, h1, h2, h3, h4⟩
            rw [hc] at h1; cases h1
            rw [hs] at h2; cases h2
            rw [hi] at h3; cases h3
            rcases h4 with ⟨-, h5⟩ | ⟨h5, -⟩
            · exact h5
            · cases h5

/-- One iteration of the assertion loop. -/
theorem checkAssertions_succ (ids : CoeffIds) (r : R1CS) (nbCO steps i : Nat) (s s2 : Buffers)
    (err : Option SolveError) :
    checkAssertions ids r nbCO (steps + 1) i s = .ok (err, s2) ↔
      ∃ cons s1 passed, r.Constraints[i]? = some cons ∧
        instantiateAndCheck ids r cons i s = .ok (s1, passed) ∧
        ((passed = true ∧ checkAssertions ids r nbCO steps (i + 1) s1 = .ok (err, s2)) ∨
          (passed = false ∧ ∃ debugInfo debugInfoStr,
            r.DebugInfoAssertion[i - nbCO]? = some debugInfo ∧
            logValue debugInfo s1.wireValues s1.wireInstantiated = .ok debugInfoStr ∧
            err = some (.unsatisfiedAssertion debugInfoStr) ∧ s2 = s1)) := by
  conv_lhs => unfold checkAssertions
  cases hc : index r.Constraints i with
  | error e =>
    have : r.Constraints[i]? = none := by
      rw [index_eq_error] at hc; exact List.getElem?_eq_none_iff.mpr hc.1
    simp [this]
  | ok cons =>
    rw [index_eq_ok] at hc
    dsimp only
    cases hi : instantiateAndCheck ids r cons i s with
    | error e =>
      constructor
      · intro h; cases h
      rintro ⟨c1, t1, p1, h1, h3, -⟩
      rw [hc] at h1; cases h1
      rw [hi] at h3; cases h3
    | ok v =>
      obtain ⟨s1, passed⟩ := v
      cases passed
      · dsimp only
        cases hd : index r.DebugInfoAssertion (i - nbCO) with
        | error e =>
          have hnone : r.DebugInfoAssertion[i - nbCO]? = none := by
            rw [index_eq_error] at hd; exact List.getElem?_eq_none_iff.mpr hd.1
          constructor
          · intro h; cases h
          rintro ⟨c1, t1, p1, h1, h3, h4⟩
          rw [hc] at h1; cases h1
          rw [hi] at h3; cases h3
          rcases h4 with ⟨h5, -⟩ | ⟨-, d, m, h5, -⟩
          · cases h5
          · rw [hnone] at h5; cases h5
        | ok d =>
          rw [index_eq_ok] at hd
          dsimp only
          cases hl : logValue d s1.wireValues s1.wireInstantiated with
          | error e =>
            constructor
            · intro h; cases h
            rintro ⟨c1, t1, p1, h1, h3, h4⟩
            rw [hc] at h1; cases h1
            rw [hi] at h3; cases h3
            rcases h4 with ⟨h5, -⟩ | ⟨-, d1, m, h5, h6, -⟩
            · cases h5
            · rw [hd] at h5; cases h5
              rw [hl] at h6; cases h6
          | ok m =>
            dsimp only
            constructor
            · intro h
              simp only [Except.ok.injEq, Prod.mk.injEq] at h
              exact ⟨cons, s1, false, hc, hi, Or.inr ⟨rfl, d, m, hd, hl, h.1.symm, h.2.symm⟩⟩
            · rintro ⟨c1, t1, p1, h1, h3, h4⟩
              rw [hc] at h1; cases h1
              rw [hi] at h3; cases h3
              rcases h4 with ⟨h5, -⟩ | ⟨-, d1, m1, h5, h6, h7, h8⟩
              · cases h5
              · rw [hd] at h5; cases h5
                rw [hl] at h6; cases h6
                rw [h7, h8]
      · dsimp only
        constructor
        · intro h
          exact ⟨cons, s1, true, hc, hi, Or.inl ⟨rfl, h⟩⟩
        · rintro ⟨c1, t1, p1, h1, h3, h4⟩
          rw [hc] at h1; cases h1
          rw [hi] at h3; cases h3
          rcases h4 with ⟨-, h5⟩ | ⟨h5, -⟩
          · exact h5
          · cases h5

/-- Entry `j` of the three output vectors after `a[i], b[i], c[i]` were written. -/
theorem productAt_set (as bs cs : List Element) (i : Nat) (av bv cv : Element)
    (ha : i < as.length) (hb : i < bs.length) (hc : i < cs.length) :
    productAt (as.set i av) (bs.set i bv) (cs.set i cv) i = decide (av * bv = cv) := by
  simp [productAt, List.getElem?_set_self, ha, hb, hc]

/-- Agreement of the output vectors at an entry carries `productAt` over. -/
theorem productAt_congr (as bs cs as1 bs1 cs1 : List Element) (j : Nat)
    (ha : as1[j]? = as[j]?) (hb : bs1[j]? = bs[j]?) (hc : cs1[j]? = cs[j]?) :
    productAt as1 bs1 cs1 j = productAt as bs cs j := by
  simp [productAt, ha, hb, hc]

/-- The computational loop keeps the lengths of `a`, `b`, `c`, leaves the entries
below its start untouched, and on `nil` every entry it went over satisfies
`a[j] * b[j] = c[j]`. -/
theorem solveComputational_rows (ids : CoeffIds) (r : R1CS) (steps : Nat) :
    ∀ (i : Nat) (s s2 : Buffers) (err : Option SolveError),
      solveComputational ids r steps i s = .ok (err, s2) →
      (s2.a.length = s.a.length ∧ s2.b.length = s.b.length ∧ s2.c.length = s.c.length) ∧
      (∀ j, j < i → s2.a[j]? = s.a[j]? ∧ s2.b[j]? = s.b[j]? ∧ s2.c[j]? = s.c[j]?) ∧
      (err = none → ∀ j, i ≤ j → j < i + steps → productAt s2.a s2.b s2.c j = true) := by
  induction steps with
  | zero =>
    intro i s s2 err h
    simp only [solveComputational, Except.ok.injEq, Prod.mk.injEq] at h
    obtain ⟨-, rfl⟩ := h
    exact ⟨⟨rfl, rfl, rfl⟩, fun j _ => ⟨rfl, rfl, rfl⟩, fun _ j h1 h2 => by omega⟩
  | succ k ih =>
    intro i s s2 err h
    rw [solveComputational_succ] at h
    obtain ⟨cons, inst1, w1, s1, passed, -, -, hi, hrest⟩ := h
    rw [instantiateAndCheck_eq_ok] at hi
    obtain ⟨av, bv, cv, -, ha, hb, hc, hs1, hp⟩ := hi
    dsimp only at ha hb hc
    have hframe1 : ∀ j, j < i → s1.a[j]? = s.a[j]? ∧ s1.b[j]? = s.b[j]? ∧ s1.c[j]? = s.c[j]? := by
      intro j hj
      have hne : i ≠ j := by omega
      rw [hs1]
      exact ⟨List.getElem?_set_ne hne, List.getElem?_set_ne hne, List.getElem?_set_ne hne⟩
    have hlen1 : s1.a.length = s.a.length ∧ s1.b.length = s.b.length ∧
        s1.c.length = s.c.length := by
      rw [hs1]; simp
    rcases hrest with ⟨hpass, hrec⟩ | ⟨-, herr, hs2⟩
    · obtain ⟨hlen, hfr, hprod⟩ := ih _ _ _ _ hrec
      refine ⟨⟨hlen.1.trans hlen1.1, hlen.2.1.trans hlen1.2.1, hlen.2.2.trans hlen1.2.2⟩,
        ?_, ?_⟩
      · intro j hj
        obtain ⟨h1, h2, h3⟩ := hfr j (by omega)
        obtain ⟨h4, h5, h6⟩ := hframe1 j hj
        exact ⟨h1.trans h4, h2.trans h5, h3.trans h6⟩
      · intro hnil j h1 h2
        rcases Nat.eq_or_lt_of_le h1 with heq | hlt
        · subst heq
          obtain ⟨h4, h5, h6⟩ := hfr i (by omega)
          rw [productAt_congr _ _ _ _ _ _ _ h4 h5 h6, hs1]
          dsimp only
          rw [productAt_set _ _ _ _ _ _ _ ha hb hc, ← hp, hpass]
        · exact hprod hnil j (by omega) (by omega)
    · subst hs2
      refine ⟨hlen1, hframe1, ?_⟩
      intro hnil
      rw [herr] at hnil
      cases hnil

/-- The assertion loop changes no wire, keeps the lengths of `a`, `b`, `c`, leaves
the entries below its start untouched, and on `nil` every entry it went over
satisfies `a[j] * b[j] = c[j]`. -/
theorem checkAssertions_rows (ids : CoeffIds) (r : R1CS) (nbCO steps : Nat) :
    ∀ (i : Nat) (s s2 : Buffers) (err : Option SolveError),
      checkAssertions ids r nbCO steps i s = .ok (err, s2) →
      (s2.wireValues = s.wireValues ∧ s2.wireInstantiated = s.wireInstantiated) ∧
      (s2.a.length = s.a.length ∧ s2.b.length = s.b.length ∧ s2.c.length = s.c.length) ∧
      (∀ j, j < i → s2.a[j]? = s.a[j]? ∧ s2.b[j]? = s.b[j]? ∧ s2.c[j]? = s.c[j]?) ∧
      (err = none → ∀ j, i ≤ j → j < i + steps → productAt s2.a s2.b s2.c j = true) := by
  induction steps with
  | zero =>
    intro i s s2 err h
    simp only [checkAssertions, Except.ok.injEq, Prod.mk.injEq] at h
    obtain ⟨-, rfl⟩ := h
    exact ⟨⟨rfl, rfl⟩, ⟨rfl, rfl, rfl⟩, fun j _ => ⟨rfl, rfl, rfl⟩, fun _ j h1 h2 => by omega⟩
  | succ k ih =>
    intro i s s2 err h
    rw [checkAssertions_succ] at h
    obtain ⟨cons, s1, passed, -, hi, hrest⟩ := h
    rw [instantiateAndCheck_eq_ok] at hi
    obtain ⟨av, bv, cv, -, ha, hb, hc, hs1, hp⟩ := hi
    have hframe1 : ∀ j, j < i → s1.a[j]? = s.a[j]? ∧ s1.b[j]? = s.b[j]? ∧ s1.c[j]? = s.c[j]? := by
      intro j hj
      have hne : i ≠ j := by omega
      rw [hs1]
      exact ⟨List.getElem?_set_ne hne, List.getElem?_set_ne hne, List.getElem?_set_ne hne⟩
    have hlen1 : s1.a.length = s.a.length ∧ s1.b.length = s.b.length ∧
        s1.c.length = s.c.length := by
      rw [hs1]; simp
    have hw1 : s1.wireValues = s.wireValues ∧ s1.wireInstantiated = s.wireInstantiated := by
      rw [hs1]; exact ⟨rfl, rfl⟩
    rcases hrest with ⟨hpass, hrec⟩ | ⟨-, d, m, -, -, herr, hs2⟩
    · obtain ⟨hw, hlen, hfr, hprod⟩ := ih _ _ _ _ hrec
      refine ⟨⟨hw.1.trans hw1.1, hw.2.trans hw1.2⟩,
        ⟨hlen.1.trans hlen1.1, hlen.2.1.trans hlen1.2.1, hlen.2.2.trans hlen1.2.2⟩, ?_, ?_⟩
      · intro j hj
        obtain ⟨h1, h2, h3⟩ := hfr j (by omega)
        obtain ⟨h4, h5, h6⟩ := hframe1 j hj
        exact ⟨h1.trans h4, h2.trans h5, h3.trans h6⟩
      · intro hnil j h1 h2
        rcases Nat.eq_or_lt_of_le h1 with heq | hlt
        · subst heq
          obtain ⟨h4, h5, h6⟩ := hfr i (by omega)
          rw [productAt_congr _ _ _ _ _ _ _ h4 h5 h6, hs1]
          dsimp only
          rw [productAt_set _ _ _ _ _ _ _ ha hb hc, ← hp, hpass]
        · exact hprod hnil j (by omega) (by omega)
    · subst hs2
      refine ⟨hw1, hlen1, hframe1, ?_⟩
      intro hnil
      rw [herr] at hnil
      cases hnil

/-- The runs of the two loops behind a returning `solveConstraints`. -/
theorem solveConstraints_eq_ok (ids : CoeffIds) (r : R1CS) (s s2 : Buffers)
    (err : Option SolveError) :
    solveConstraints ids r s = .ok (err, s2) ↔
      ∃ err1 s1, solveComputational ids r r.NbCOConstraints.toNat 0 s = .ok (err1, s1) ∧
        ((err1 ≠ none ∧ err = err1 ∧ s2 = s1) ∨
          (err1 = none ∧ 0 ≤ r.NbCOConstraints ∧
            checkAssertions ids r r.NbCOConstraints.toNat
              (r.Constraints.length - r.NbCOConstraints.toNat) r.NbCOConstraints.toNat s1 =
              .ok (err, s2))) := by
  unfold solveConstraints
  cases hc : solveComputational ids r r.NbCOConstraints.toNat 0 s with
  | error e => simp
  | ok v =>
    obtain ⟨err1, s1⟩ := v
    cases err1 with
    | some e =>
      dsimp only
      constructor
      · intro h
        simp only [Except.ok.injEq, Prod.mk.injEq] at h
        exact ⟨some e, s1, rfl, Or.inl ⟨by simp, h.1.symm, h.2.symm⟩⟩
      · rintro ⟨e1, t1, h1, h2⟩
        simp only [Except.ok.injEq, Prod.mk.injEq] at h1
        obtain ⟨rfl, rfl⟩ := h1
        rcases h2 with ⟨-, h3, h4⟩ | ⟨h3, -⟩
        · rw [h3, h4]
        · cases h3
    | none =>
      dsimp only
      by_cases hneg : r.NbCOConstraints < 0
      · rw [if_pos hneg]
        constructor
        · intro h; cases h
        · rintro ⟨e1, t1, h1, h2⟩
          simp only [Except.ok.injEq, Prod.mk.injEq] at h1
          obtain ⟨rfl, rfl⟩ := h1
          rcases h2 with ⟨h3, -⟩ | ⟨-, h3, -⟩
          · exact absurd rfl h3
          · omega
      · rw [if_neg hneg]
        constructor
        · intro h
          exact ⟨none, s1, rfl, Or.inr ⟨rfl, by omega, h⟩⟩
        · rintro ⟨e1, t1, h1, h2⟩
          simp only [Except.ok.injEq, Prod.mk.injEq] at h1
          obtain ⟨rfl, rfl⟩ := h1
          rcases h2 with ⟨h3, -⟩ | ⟨-, -, h3⟩
          · exact absurd rfl h3
          · exact h3

/-- The run behind a call of `Solve` that returns `nil`. -/
theorem Solve_nil (ids : CoeffIds) (r : R1CS) (witness a b c wireValues : List Element)
    (res : SolveResult) (h : Solve ids r witness a b c wireValues = .ok res)
    (hnil : res.err = none) :
    ((witness.length : Int) = expectedWitnessSize r ∧ (a.length : Int) = r.NbConstraints ∧
      (b.length : Int) = r.NbConstraints ∧ (c.length : Int) = r.NbConstraints ∧
      (wireValues.length : Int) = nbWires r) ∧
    ∃ inst0 w0 s logs, initWires r witness wireValues = .ok (inst0, w0) ∧
      solveConstraints ids r
        { a := a, b := b, c := c, wireValues := w0, wireInstantiated := inst0 } =
        .ok (none, s) ∧
      printLogs r s.wireValues s.wireInstantiated = .ok logs ∧
      res = { err := none, a := s.a, b := s.b, c := s.c, wireValues := s.wireValues,
              logs := logs } := by
  unfold Solve at h
  split at h
  · simp only [Except.ok.injEq] at h
    rw [← h] at hnil
    cases hnil
  · rename_i hw
    split at h
    · simp only [Except.ok.injEq] at h
      rw [← h] at hnil
      cases hnil
    · rename_i hbuf
      push_neg at hw hbuf
      refine ⟨⟨hw, hbuf.1, hbuf.2.1, hbuf.2.2.1, hbuf.2.2.2⟩, ?_⟩
      split at h
      · cases h
      · rename_i inst0 w0 hinit
        split at h
        · cases h
        · rename_i err s hsc
          split at h
          · cases h
          · rename_i logs hlogs
            simp only [Except.ok.injEq] at h
            rw [← h] at hnil
            dsimp only at hnil
            subst hnil
            exact ⟨inst0, w0, s, logs, hinit, hsc, hlogs, h.symm⟩

/-- C2: whenever `Solve` returns `nil`, every constraint index `i < len(Constraints)`,
computational or assertion, has `a[i] * b[i] = c[i]` in the returned vectors. -/
theorem Solve_products (ids : CoeffIds) (r : R1CS) (witness a b c wireValues : List Element)
    (res : SolveResult) (h : Solve ids r witness a b c wireValues = .ok res)
    (hnil : res.err = none) (i : Nat) (hi : i < r.Constraints.length) :
    productAt res.a res.b res.c i = true := by
  obtain ⟨-, inst0, w0, s, logs, -, hsc, -, hres⟩ := Solve_nil ids r witness a b c wireValues res h hnil
  rw [solveConstraints_eq_ok] at hsc
  obtain ⟨err1, s1, hcomp, hrest⟩ := hsc
  rcases hrest with ⟨h1, h2, -⟩ | ⟨h1, hpos, hchk⟩
  · exact absurd h2.symm h1
  · subst h1
    obtain ⟨-, -, hprod1⟩ := solveComputational_rows ids r _ _ _ _ _ hcomp
    obtain ⟨-, -, hfr2, hprod2⟩ := checkAssertions_rows ids r _ _ _ _ _ _ hchk
    rw [hres]
    dsimp only
    by_cases hlt : i < r.NbCOConstraints.toNat
    · obtain ⟨h4, h5, h6⟩ := hfr2 i hlt
      rw [productAt_congr _ _ _ _ _ _ _ h4 h5 h6]
      exact hprod1 rfl i (Nat.zero_le _) (by omega)
    · exact hprod2 rfl i (by omega) (by omega)

/-- C2 at a concrete input: the multiplication gate with `x = 3`, `y = 4`. -/
theorem Solve_products_witness : productAt [3] [4] [12] 0 = true :=
  Solve_products gnarkIds (mulGate gnarkIds 1 gnarkPool) [3, 4] [7] [7] [7] [7, 7, 7, 7]
    { err := none, a := [3], b := [4], c := [12], wireValues := [1, 3, 4, 12], logs := [] }
    (by decide!) rfl 0 (by decide)

/-! ## Scenario A: the multiplication gate -/

/-- Go `int` arithmetic is exact on values in range. -/
theorem wrapInt_of_range (x : Int) (h1 : -9223372036854775808 ≤ x)
    (h2 : x < 9223372036854775808) : wrapInt x = x := by
  unfold wrapInt
  omega

/-- Without overflow the expected witness length is `NbPublicVariables - 1 +
NbSecretVariables`. -/
theorem expectedWitnessSize_of_range (r : R1CS)
    (h1 : -9223372036854775808 ≤ r.NbPublicVariables - 1)
    (h2 : r.NbPublicVariables - 1 < 9223372036854775808)
    (h3 : -9223372036854775808 ≤ r.NbPublicVariables - 1 + r.NbSecretVariables)
    (h4 : r.NbPublicVariables - 1 + r.NbSecretVariables < 9223372036854775808) :
    expectedWitnessSize r = r.NbPublicVariables - 1 + r.NbSecretVariables := by
  unfold expectedWitnessSize
  rw [wrapInt_of_range _ h1 h2, wrapInt_of_range _ h3 h4]

/-- Without overflow `nbWires` is `NbPublicVariables + NbSecretVariables +
NbInternalVariables`. -/
theorem nbWires_of_range (r : R1CS)
    (h1 : -9223372036854775808 ≤ r.NbPublicVariables + r.NbSecretVariables)
    (h2 : r.NbPublicVariables + r.NbSecretVariables < 9223372036854775808)
    (h3 : -9223372036854775808 ≤
      r.NbPublicVariables + r.NbSecretVariables + r.NbInternalVariables)
    (h4 : r.NbPublicVariables + r.NbSecretVariables + r.NbInternalVariables <
      9223372036854775808) :
    nbWires r = r.NbPublicVariables + r.NbSecretVariables + r.NbInternalVariables := by
  unfold nbWires
  rw [wrapInt_of_range _ h1 h2, wrapInt_of_range _ h3 h4]

/-- The sizes `Solve` expects for the multiplication gate. -/
theorem mulGate_sizes (ids : CoeffIds) (nbPublic : Int) (pool : List Element)
    (h1 : 1 ≤ nbPublic) (h3 : nbPublic ≤ 3) :
    expectedWitnessSize (mulGate ids nbPublic pool) = 2 ∧
      nbWires (mulGate ids nbPublic pool) = 4 := by
  unfold expectedWitnessSize nbWires mulGate
  simp only
  rw [wrapInt_of_range (nbPublic - 1) (by omega) (by omega),
    wrapInt_of_range (nbPublic + (3 - nbPublic)) (by omega) (by omega),
    wrapInt_of_range _ (by omega) (by omega), wrapInt_of_range _ (by omega) (by omega)]
  constructor <;> omega

/-- C6: on the multiplication gate `x * y = z` (wires `[ONE, x, y, z]`, `z` internal, no
assertion) `Solve` returns `nil` for every pair `x`, `y` with `wireValues = [1, x, y,
x * y]`, `a = [x]`, `b = [y]`, `c = [x * y]`, whatever the buffers held before. -/
theorem Solve_mulGate (ids : CoeffIds) (nbPublic : Int) (pool : List Element)
    (x y a0 b0 c0 w0 w1 w2 w3 : Element) (h1 : 1 ≤ nbPublic) (h3 : nbPublic ≤ 3) :
    Solve ids (mulGate ids nbPublic pool) [x, y] [a0] [b0] [c0] [w0, w1, w2, w3] = .ok
      { err := none, a := [x], b := [y], c := [x * y], wireValues := [1, x, y, x * y],
        logs := [] } := by
  obtain ⟨hw, hn⟩ := mulGate_sizes ids nbPublic pool h1 h3
  unfold Solve
  rw [hw, hn]
  simp [initWires, hn, assign, markWitness, copy, List.replicate]
  simp [mulGate, mulCons, solveConstraints, solveComputational, index, solveR1C,
    solveSingleOutput, isolateWire, processTerms, processTerm, AddTerm, computeWire, mulWireByCoeff, assign,
    instantiateAndCheck, instantiateR1C, addTerms, checkAssertions, printLogs,
    printLogEntries]

/-- C6 at `x = 3`, `y = 4`: `z = 12`, `a = [3]`, `b = [4]`, `c = [12]`. -/
theorem Solve_mulGate_witness :
    Solve gnarkIds (mulGate gnarkIds 1 gnarkPool) [3, 4] [5] [6] [7] [8, 9, 10, 11] = .ok
      { err := none, a := [3], b := [4], c := [12], wireValues := [1, 3, 4, 12],
        logs := [] } := by
  have h := Solve_mulGate gnarkIds 1 gnarkPool 3 4 5 6 7 8 9 10 11 (by decide) (by decide)
  have e : (3 : Element) * 4 = 12 := by norm_num
  rwa [e] at h

/-! ## A coefficient other than one or minus-one on the unknown wire -/

/-- C7 (the code at the failing input): in `(2 * x) * ONE = y` with `y = 4` the solver
isolates `x` as `(4 / 1 - 0)` and then multiplies by the coefficient `2` where the
claim divides: the wire becomes `8`, not `2`; re-evaluating the constraint gives
`a = 16`, `b = 1`, `c = 4`, and `Solve` returns the computational error. -/
theorem solveR1C_halfGate_multiplies :
    solveR1C gnarkIds (halfGate gnarkIds gnarkPool) (halfCons gnarkIds)
        [true, true, false] [1, 4, 0] = .ok ([true, true, true], [1, 4, 8]) ∧
      instantiateR1C gnarkIds (halfCons gnarkIds) (halfGate gnarkIds gnarkPool) [1, 4, 8] =
        .ok (16, 1, 4) ∧
      (16 : Element) * 1 ≠ 4 ∧
      Solve gnarkIds (halfGate gnarkIds gnarkPool) [4] [0] [0] [0] [0, 0, 0] = .ok
        { err := some .unsolvedComputational, a := [16], b := [1], c := [4],
          wireValues := [1, 4, 8], logs := [] } := by
  decide!

/-! ## The single-output solver -/

/-- A term on a known wire joins the known terms. -/
theorem unknownTerms_cons_known (inst : List Bool) (t : Term) (ts : List Term)
    (h : inst[t.VariableID]? = some true) :
    unknownTerms inst (t :: ts) = unknownTerms inst ts ∧
      knownTerms inst (t :: ts) = t :: knownTerms inst ts := by
  simp [unknownTerms, knownTerms, List.filter_cons, h]

/-- A term on an unknown wire joins the unknown terms. -/
theorem unknownTerms_cons_unknown (inst : List Bool) (t : Term) (ts : List Term)
    (h : inst[t.VariableID]? = some false) :
    unknownTerms inst (t :: ts) = t :: unknownTerms inst ts ∧
      knownTerms inst (t :: ts) = knownTerms inst ts := by
  simp [unknownTerms, knownTerms, List.filter_cons, h]

/-- What a returning scan of one side has found: every wire is in range, the known
terms were accumulated, and at most one term sits on an unknown wire. -/
theorem processTerms_ok (ids : CoeffIds) (r : R1CS) (inst : List Bool) (w : List Element)
    (lv : Nat) (hlv : lv ≠ 0) (ts : List Term) :
    ∀ (val : Element) (loc : Nat) (ttc : Term) (val1 : Element) (loc1 : Nat) (ttc1 : Term),
      processTerms ids r inst w lv ts val loc ttc = .ok (val1, loc1, ttc1) →
      (∀ t ∈ ts, t.VariableID < inst.length) ∧
      addTerms ids r w (knownTerms inst ts) val = .ok val1 ∧
      ((unknownTerms inst ts = [] ∧ loc1 = loc ∧ ttc1 = ttc) ∨
        (loc = 0 ∧ unknownTerms inst ts = [ttc1] ∧ loc1 = lv)) := by
  induction ts with
  | nil =>
    intro val loc ttc val1 loc1 ttc1 h
    simp only [processTerms, Except.ok.injEq, Prod.mk.injEq] at h
    obtain ⟨rfl, rfl, rfl⟩ := h
    simp [knownTerms, unknownTerms, addTerms]
  | cons t ts ih =>
    intro val loc ttc val1 loc1 ttc1 h
    unfold processTerms processTerm at h
    cases hi : index inst t.VariableID with
    | error e => rw [hi] at h; cases h
    | ok known =>
      rw [hi] at h
      rw [index_eq_ok] at hi
      have hlt : t.VariableID < inst.length := (List.getElem?_eq_some_iff.mp hi).1
      cases known with
      | true =>
        dsimp only at h
        obtain ⟨hu, hk⟩ := unknownTerms_cons_known inst t ts hi
        cases hv : index w t.VariableID with
        | error e => rw [hv] at h; cases h
        | ok v =>
          rw [hv] at h
          dsimp only at h
          cases ha : AddTerm ids r val t v with
          | error e => rw [ha] at h; cases h
          | ok val2 =>
            rw [ha] at h
            dsimp only at h
            obtain ⟨h1, h2, h3⟩ := ih _ _ _ _ _ _ h
            refine ⟨?_, ?_, ?_⟩
            · intro u hu1
              rcases List.mem_cons.mp hu1 with rfl | hu2
              · exact hlt
              · exact h1 u hu2
            · rw [hk]
              unfold addTerms
              rw [hv]
              dsimp only
              rw [ha]
              exact h2
            · rw [hu]; exact h3
      | false =>
        dsimp only at h
        obtain ⟨hu, hk⟩ := unknownTerms_cons_unknown inst t ts hi
        by_cases hloc : loc = 0
        · rw [if_neg (by simp [hloc])] at h
          dsimp only at h
          obtain ⟨h1, h2, h3⟩ := ih _ _ _ _ _ _ h
          refine ⟨?_, ?_, ?_⟩
          · intro u hu1
            rcases List.mem_cons.mp hu1 with rfl | hu2
            · exact hlt
            · exact h1 u hu2
          · rw [hk]; exact h2
          · rcases h3 with ⟨h4, h5, h6⟩ | ⟨h4, -⟩
            · right
              rw [hu, h4, h6]
              exact ⟨hloc, rfl, h5⟩
            · exact absurd h4 hlv
        · rw [if_pos hloc] at h
          cases h

/-- The unknown terms of a concatenation. -/
theorem unknownTerms_append (inst : List Bool) (xs ys : List Term) :
    unknownTerms inst (xs ++ ys) = unknownTerms inst xs ++ unknownTerms inst ys := by
  simp [unknownTerms]

/-- What a returning `computeWire` has written. -/
theorem computeWire_eq_ok (ids : CoeffIds) (r : R1CS) (w w1 : List Element) (t : Term)
    (v : Element) :
    computeWire ids r w t v = .ok w1 ↔
      ∃ v1, mulWireByCoeff ids r v t = .ok v1 ∧ t.VariableID < w.length ∧
        w1 = w.set t.VariableID v1 := by
  unfold computeWire
  cases hi : index w t.VariableID with
  | error e =>
    rw [index_eq_error] at hi
    constructor
    · intro h; cases h
    · rintro ⟨v1, -, h2, -⟩; omega
  | ok x =>
    rw [index_eq_ok] at hi
    have hlt : t.VariableID < w.length := (List.getElem?_eq_some_iff.mp hi).1
    dsimp only
    cases hm : mulWireByCoeff ids r v t with
    | error e =>
      constructor
      · intro h; cases h
      · rintro ⟨v1, h1, -⟩; cases h1
    | ok v1 =>
      dsimp only
      rw [assign_eq_ok]
      constructor
      · rintro ⟨-, h2⟩; exact ⟨v1, rfl, hlt, h2⟩
      · rintro ⟨v2, h1, -, h3⟩
        simp only [Except.ok.injEq] at h1
        subst h1
        exact ⟨hlt, h3⟩

/-- The full account of a returning single-output solve: the sums `a`, `b`, `c` of the
known terms of each side, and either no unknown term and nothing changed, or exactly
one unknown term `t`, whose wire is marked and, unless the divisor is zero, computed. -/
theorem solveSingleOutput_ok (ids : CoeffIds) (r : R1CS) (cons : R1C) (inst inst1 : List Bool)
    (w w1 : List Element) (h : solveSingleOutput ids r cons inst w = .ok (inst1, w1)) :
    (∀ t ∈ cons.terms, t.VariableID < inst.length) ∧
    ∃ a b c, addTerms ids r w (knownTerms inst cons.L) 0 = .ok a ∧
      addTerms ids r w (knownTerms inst cons.R) 0 = .ok b ∧
      addTerms ids r w (knownTerms inst cons.O) 0 = .ok c ∧
      ((unknownTerms inst cons.terms = [] ∧ inst1 = inst ∧ w1 = w) ∨
        ∃ t, unknownTerms inst cons.terms = [t] ∧ inst1 = inst.set t.VariableID true ∧
          ((unknownTerms inst cons.L = [t] ∧
              ((b ≠ 0 ∧ computeWire ids r w t (ElementDiv c b - a) = .ok w1) ∨
                (b = 0 ∧ w1 = w))) ∨
            (unknownTerms inst cons.R = [t] ∧
              ((a ≠ 0 ∧ computeWire ids r w t (ElementDiv c a - b) = .ok w1) ∨
                (a = 0 ∧ w1 = w))) ∨
            (unknownTerms inst cons.O = [t] ∧
              computeWire ids r w t (a * b - c) = .ok w1))) := by
  unfold solveSingleOutput at h
  cases hL : processTerms ids r inst w 1 cons.L 0 0 ⟨0, 0⟩ with
  | error e => rw [hL] at h; cases h
  | ok vL =>
    obtain ⟨a, loc1, t1⟩ := vL
    rw [hL] at h
    dsimp only at h
    cases hR : processTerms ids r inst w 2 cons.R 0 loc1 t1 with
    | error e => rw [hR] at h; cases h
    | ok vR =>
      obtain ⟨b, loc2, t2⟩ := vR
      rw [hR] at h
      dsimp only at h
      cases hO : processTerms ids r inst w 3 cons.O 0 loc2 t2 with
      | error e => rw [hO] at h; cases h
      | ok vO =>
        obtain ⟨c, loc, ttc⟩ := vO
        rw [hO] at h
        dsimp only at h
        unfold isolateWire at h
        obtain ⟨hrL, haL, hcL⟩ := processTerms_ok ids r inst w 1 (by decide) _ _ _ _ _ _ _ hL
        obtain ⟨hrR, haR, hcR⟩ := processTerms_ok ids r inst w 2 (by decide) _ _ _ _ _ _ _ hR
        obtain ⟨hrO, haO, hcO⟩ := processTerms_ok ids r inst w 3 (by decide) _ _ _ _ _ _ _ hO
        have hterms : unknownTerms inst cons.terms =
            unknownTerms inst cons.L ++ unknownTerms inst cons.R ++ unknownTerms inst cons.O := by
          simp [R1C.terms, unknownTerms_append]
        refine ⟨?_, a, b, c, haL, haR, haO, ?_⟩
        · intro t ht
          simp only [R1C.terms, List.mem_append] at ht
          rcases ht with (ht | ht) | ht
          · exact hrL t ht
          · exact hrR t ht
          · exact hrO t ht
        · rw [hterms]
          rcases hcL with ⟨uL, rfl, rfl⟩ | ⟨-, uL, rfl⟩
          · rcases hcR with ⟨uR, rfl, rfl⟩ | ⟨-, uR, rfl⟩
            · rcases hcO with ⟨uO, rfl, rfl⟩ | ⟨-, uO, rfl⟩
              · left
                simp only [if_true, Except.ok.injEq, Prod.mk.injEq] at h
                rw [uL, uR, uO]
                exact ⟨rfl, h.1.symm, h.2.symm⟩
              · right
                refine ⟨ttc, by rw [uL, uR, uO]; rfl, ?_⟩
                simp only [show (3 : Nat) ≠ 0 by decide, if_false, show (3 : Nat) ≠ 1 by decide,
                  show (3 : Nat) ≠ 2 by decide, if_true] at h
                cases hcw : computeWire ids r w ttc (a * b - c) with
                | error e => rw [hcw] at h; cases h
                | ok w2 =>
                  rw [hcw] at h
                  dsimp only at h
                  rw [assign_of_lt _ _ _ (hrO ttc (by
                    have : ttc ∈ unknownTerms inst cons.O := by rw [uO]; simp
                    exact (List.mem_filter.mp this).1))] at h
                  simp only [Except.ok.injEq, Prod.mk.injEq] at h
                  exact ⟨h.1.symm, Or.inr (Or.inr ⟨uO, by rw [← h.2]⟩)⟩
            · rcases hcO with ⟨uO, rfl, rfl⟩ | ⟨h0, -⟩
              · right
                refine ⟨ttc, by rw [uL, uR, uO]; rfl, ?_⟩
                have hlt : ttc.VariableID < inst.length := hrR ttc (by
                  have : ttc ∈ unknownTerms inst cons.R := by rw [uR]; simp
                  exact (List.mem_filter.mp this).1)
                simp only [show (2 : Nat) ≠ 0 by decide, if_false, show (2 : Nat) ≠ 1 by decide,
                  if_true] at h
                by_cases ha0 : a = 0
                · rw [if_neg (by simp [ha0])] at h
                  dsimp only at h
                  rw [assign_of_lt _ _ _ hlt] at h
                  simp only [Except.ok.injEq, Prod.mk.injEq] at h
                  exact ⟨h.1.symm, Or.inr (Or.inl ⟨uR, Or.inr ⟨ha0, h.2.symm⟩⟩)⟩
                · rw [if_pos ha0] at h
                  cases hcw : computeWire ids r w ttc (ElementDiv c a - b) with
                  | error e => rw [hcw] at h; cases h
                  | ok w2 =>
                    rw [hcw] at h
                    dsimp only at h
                    rw [assign_of_lt _ _ _ hlt] at h
                    simp only [Except.ok.injEq, Prod.mk.injEq] at h
                    exact ⟨h.1.symm, Or.inr (Or.inl ⟨uR, Or.inl ⟨ha0, by rw [← h.2]⟩⟩)⟩
              · cases h0
          · rcases hcR with ⟨uR, rfl, rfl⟩ | ⟨h0, -⟩
            · rcases hcO with ⟨uO, rfl, rfl⟩ | ⟨h0, -⟩
              · right
                refine ⟨ttc, by rw [uL, uR, uO]; rfl, ?_⟩
                have hlt : ttc.VariableID < inst.length := hrL ttc (by
                  have : ttc ∈ unknownTerms inst cons.L := by rw [uL]; simp
                  exact (List.mem_filter.mp this).1)
                simp only [show (1 : Nat) ≠ 0 by decide, if_false, if_true] at h
                by_cases hb0 : b = 0
                · rw [if_neg (by simp [hb0])] at h
                  dsimp only at h
                  rw [assign_of_lt _ _ _ hlt] at h
                  simp only [Except.ok.injEq, Prod.mk.injEq] at h
                  exact ⟨h.1.symm, Or.inl ⟨uL, Or.inr ⟨hb0, h.2.symm⟩⟩⟩
                · rw [if_pos hb0] at h
                  cases hcw : computeWire ids r w ttc (ElementDiv c b - a) with
                  | error e => rw [hcw] at h; cases h
                  | ok w2 =>
                    rw [hcw] at h
                    dsimp only at h
                    rw [assign_of_lt _ _ _ hlt] at h
                    simp only [Except.ok.injEq, Prod.mk.injEq] at h
                    exact ⟨h.1.symm, Or.inl ⟨uL, Or.inl ⟨hb0, by rw [← h.2]⟩⟩⟩
              · cases h0
            · cases h0

/-- A term in range is known or among the unknown terms. -/
theorem known_or_mem_unknownTerms (inst : List Bool) (ts : List Term) (t : Term)
    (ht : t ∈ ts) (hlt : t.VariableID < inst.length) :
    inst[t.VariableID]? = some true ∨ t ∈ unknownTerms inst ts := by
  have hsome : inst[t.VariableID]? = some (inst[t.VariableID]) := List.getElem?_eq_getElem hlt
  cases hb : inst[t.VariableID] with
  | true => left; rw [hsome, hb]
  | false =>
    right
    unfold unknownTerms
    rw [List.mem_filter]
    refine ⟨ht, ?_⟩
    rw [hsome, hb]
    rfl

/-- A member of the unknown terms is a term on a wire flagged unknown. -/
theorem mem_unknownTerms (inst : List Bool) (ts : List Term) (t : Term)
    (ht : t ∈ unknownTerms inst ts) : t ∈ ts ∧ inst[t.VariableID]? = some false := by
  unfold unknownTerms at ht
  rw [List.mem_filter] at ht
  exact ⟨ht.1, by simpa using ht.2⟩

/-- After a returning single-output solve every wire of the constraint is known. -/
theorem solveSingleOutput_known (ids : CoeffIds) (r : R1CS) (cons : R1C)
    (inst inst1 : List Bool) (w w1 : List Element)
    (h : solveSingleOutput ids r cons inst w = .ok (inst1, w1)) :
    ∀ t ∈ cons.terms, inst1[t.VariableID]? = some true := by
  obtain ⟨hr, a, b, c, -, -, -, hcase⟩ := solveSingleOutput_ok ids r cons inst inst1 w w1 h
  intro t ht
  rcases hcase with ⟨hu, hi, -⟩ | ⟨u, hu, hi, -⟩
  · rw [hi]
    rcases known_or_mem_unknownTerms inst cons.terms t ht (hr t ht) with hk | hm
    · exact hk
    · rw [hu] at hm; cases hm
  · rw [hi]
    rcases known_or_mem_unknownTerms inst cons.terms t ht (hr t ht) with hk | hm
    · by_cases heq : u.VariableID = t.VariableID
      · rw [heq, List.getElem?_set_self (hr t ht)]
      · rw [List.getElem?_set_ne heq]; exact hk
    · rw [hu, List.mem_singleton] at hm
      subst hm
      rw [List.getElem?_set_self (hr t ht)]

/-- What a returning single-output solve can change: nothing when every wire of the
constraint is known, else only the value and the flag of the one unknown wire. -/
theorem solveSingleOutput_changes (ids : CoeffIds) (r : R1CS) (cons : R1C)
    (inst inst1 : List Bool) (wv wv1 : List Element)
    (h : solveSingleOutput ids r cons inst wv = .ok (inst1, wv1)) :
    (inst1.length = inst.length ∧ wv1.length = wv.length) ∧
    ((∀ t ∈ cons.terms, inst[t.VariableID]? = some true) → inst1 = inst ∧ wv1 = wv) ∧
    (∀ j : Nat, inst[j]? = some true → inst1[j]? = some true ∧ wv1[j]? = wv[j]?) ∧
    ((inst1 = inst ∧ wv1 = wv) ∨
      ∃ t ∈ cons.terms, inst[t.VariableID]? = some false ∧
        ∀ j : Nat, j ≠ t.VariableID → inst1[j]? = inst[j]? ∧ wv1[j]? = wv[j]?) := by
  obtain ⟨hr, a, b, c, -, -, -, hcase⟩ := solveSingleOutput_ok ids r cons inst inst1 wv wv1 h
  rcases hcase with ⟨hu, hi, hwv⟩ | ⟨u, hu, hi, hw⟩
  · subst hi hwv
    exact ⟨⟨rfl, rfl⟩, fun _ => ⟨rfl, rfl⟩, fun j hj => ⟨hj, rfl⟩, Or.inl ⟨rfl, rfl⟩⟩
  · subst hi
    have hmem : u ∈ unknownTerms inst cons.terms := by rw [hu]; simp
    obtain ⟨hut, huf⟩ := mem_unknownTerms inst cons.terms u hmem
    have hw1 : wv1 = wv ∨ ∃ v, wv1 = wv.set u.VariableID v := by
      rcases hw with ⟨-, ⟨-, hc⟩ | ⟨-, hc⟩⟩ | ⟨-, ⟨-, hc⟩ | ⟨-, hc⟩⟩ | ⟨-, hc⟩
      · rw [computeWire_eq_ok] at hc
        obtain ⟨v1, -, -, hv⟩ := hc
        exact Or.inr ⟨v1, hv⟩
      · exact Or.inl hc
      · rw [computeWire_eq_ok] at hc
        obtain ⟨v1, -, -, hv⟩ := hc
        exact Or.inr ⟨v1, hv⟩
      · exact Or.inl hc
      · rw [computeWire_eq_ok] at hc
        obtain ⟨v1, -, -, hv⟩ := hc
        exact Or.inr ⟨v1, hv⟩
    have hwne : ∀ j, j ≠ u.VariableID → wv1[j]? = wv[j]? := by
      intro j hj
      rcases hw1 with rfl | ⟨v, rfl⟩
      · rfl
      · exact List.getElem?_set_ne (Ne.symm hj)
    refine ⟨⟨by simp, ?_⟩, ?_, ?_, ?_⟩
    · rcases hw1 with rfl | ⟨v, rfl⟩ <;> simp
    · intro hall
      rw [hall u hut] at huf
      cases huf
    · intro j hj
      have hne : j ≠ u.VariableID := by
        intro heq
        rw [heq, huf] at hj
        cases hj
      exact ⟨by rw [List.getElem?_set_ne (Ne.symm hne)]; exact hj, hwne j hne⟩
    · right
      refine ⟨u, hut, huf, ?_⟩
      intro j hj
      exact ⟨List.getElem?_set_ne (Ne.symm hj), hwne j hj⟩

/-- With a resolvable coefficient `AddTerm` returns. -/
theorem AddTerm_total (ids : CoeffIds) (r : R1CS) (res : Element) (t : Term) (v : Element)
    (hc : coeffInRange ids r t = true) : ∃ x, AddTerm ids r res t v = .ok x := by
  unfold AddTerm
  by_cases h1 : t.CoeffID = ids.CoeffIdOne
  · exact ⟨_, if_pos h1⟩
  rw [if_neg h1]
  by_cases h2 : t.CoeffID = ids.CoeffIdMinusOne
  · exact ⟨_, if_pos h2⟩
  rw [if_neg h2]
  by_cases h3 : t.CoeffID = ids.CoeffIdZero
  · exact ⟨_, if_pos h3⟩
  rw [if_neg h3]
  by_cases h4 : t.CoeffID = ids.CoeffIdTwo
  · exact ⟨_, if_pos h4⟩
  rw [if_neg h4]
  have hlt : t.CoeffID < r.Coefficients.length := by
    simpa [coeffInRange, h1, h2, h3, h4] using hc
  have : index r.Coefficients t.CoeffID = .ok (r.Coefficients[t.CoeffID]) := by
    rw [index_eq_ok]; exact List.getElem?_eq_getElem hlt
  rw [this]
  exact ⟨_, rfl⟩

/-- With a resolvable coefficient `mulWireByCoeff` returns. -/
theorem mulWireByCoeff_total (ids : CoeffIds) (r : R1CS) (res : Element) (t : Term)
    (hc : coeffInRange ids r t = true) : ∃ x, mulWireByCoeff ids r res t = .ok x := by
  unfold mulWireByCoeff
  by_cases h1 : t.CoeffID = ids.CoeffIdOne
  · exact ⟨_, if_pos h1⟩
  rw [if_neg h1]
  by_cases h2 : t.CoeffID = ids.CoeffIdMinusOne
  · exact ⟨_, if_pos h2⟩
  rw [if_neg h2]
  by_cases h3 : t.CoeffID = ids.CoeffIdZero
  · exact ⟨_, if_pos h3⟩
  rw [if_neg h3]
  by_cases h4 : t.CoeffID = ids.CoeffIdTwo
  · exact ⟨_, if_pos h4⟩
  rw [if_neg h4]
  have hlt : t.CoeffID < r.Coefficients.length := by
    simpa [coeffInRange, h1, h2, h3, h4] using hc
  have : index r.Coefficients t.CoeffID = .ok (r.Coefficients[t.CoeffID]) := by
    rw [index_eq_ok]; exact List.getElem?_eq_getElem hlt
  rw [this]
  exact ⟨_, rfl⟩

/-- The meaning of `termsInRange`. -/
theorem termsInRange_iff (ids : CoeffIds) (r : R1CS) (n : Nat) (ts : List Term) :
    termsInRange ids r n ts = true ↔
      ∀ t ∈ ts, t.VariableID < n ∧ coeffInRange ids r t = true := by
  simp [termsInRange, List.all_eq_true]

/-- With wires and coefficients in range `computeWire` returns. -/
theorem computeWire_total (ids : CoeffIds) (r : R1CS) (wv : List Element) (t : Term)
    (v : Element) (hlt : t.VariableID < wv.length) (hc : coeffInRange ids r t = true) :
    ∃ wv1, computeWire ids r wv t v = .ok wv1 := by
  obtain ⟨x, hx⟩ := mulWireByCoeff_total ids r v t hc
  exact ⟨_, (computeWire_eq_ok ids r wv _ t v).mpr ⟨x, hx, hlt, rfl⟩⟩

/-- With wires and coefficients in range, the scan of one side aborts exactly when it
meets a term on an unknown wire after another one, and then with the fatal signal. -/
theorem processTerms_total (ids : CoeffIds) (r : R1CS) (inst : List Bool) (wv : List Element)
    (lv : Nat) (hlv : lv ≠ 0) (hlen : inst.length = wv.length) (ts : List Term)
    (hwf : ∀ t ∈ ts, t.VariableID < wv.length ∧ coeffInRange ids r t = true) :
    ∀ (val : Element) (loc : Nat) (ttc : Term),
      (((loc ≠ 0 ∧ unknownTerms inst ts ≠ []) ∨ 2 ≤ (unknownTerms inst ts).length) →
        processTerms ids r inst wv lv ts val loc ttc = .error .moreThanOneWire) ∧
      (¬ ((loc ≠ 0 ∧ unknownTerms inst ts ≠ []) ∨ 2 ≤ (unknownTerms inst ts).length) →
        ∃ v, processTerms ids r inst wv lv ts val loc ttc = .ok v) := by
  induction ts with
  | nil =>
    intro val loc ttc
    simp [unknownTerms, processTerms]
  | cons t ts ih =>
    intro val loc ttc
    have hwft := hwf t (List.mem_cons_self _ _)
    have hwf1 : ∀ u ∈ ts, u.VariableID < wv.length ∧ coeffInRange ids r u = true :=
      fun u hu => hwf u (List.mem_cons_of_mem _ hu)
    have hlt : t.VariableID < inst.length := by rw [hlen]; exact hwft.1
    have hsome : inst[t.VariableID]? = some (inst[t.VariableID]) := List.getElem?_eq_getElem hlt
    unfold processTerms processTerm
    have hidx : index inst t.VariableID = .ok (inst[t.VariableID]) := by
      rw [index_eq_ok]; exact hsome
    rw [hidx]
    cases hb : inst[t.VariableID] with
    | true =>
      rw [hb] at hsome
      obtain ⟨hu, -⟩ := unknownTerms_cons_known inst t ts hsome
      have hv : index wv t.VariableID = .ok (wv[t.VariableID]) := by
        rw [index_eq_ok]; exact List.getElem?_eq_getElem hwft.1
      obtain ⟨x, hx⟩ := AddTerm_total ids r val t (wv[t.VariableID]) hwft.2
      dsimp only
      rw [hv]
      dsimp only
      rw [hx, hu]
      exact ih hwf1 x loc ttc
    | false =>
      rw [hb] at hsome
      obtain ⟨hu, -⟩ := unknownTerms_cons_unknown inst t ts hsome
      dsimp only
      rw [hu]
      by_cases hloc : loc = 0
      · rw [if_neg (by simp [hloc])]
        dsimp only
        obtain ⟨h1, h2⟩ := ih hwf1 val lv t
        constructor
        · intro hcond
          apply h1
          rcases hcond with ⟨h3, -⟩ | h3
          · exact absurd hloc h3
          · left
            refine ⟨hlv, ?_⟩
            intro hnil
            rw [hnil] at h3
            simp at h3
        · intro hcond
          apply h2
          intro hc2
          apply hcond
          right
          rcases hc2 with ⟨-, h3⟩ | h3
          · have : 0 < (unknownTerms inst ts).length := List.length_pos.mpr h3
            simp only [List.length_cons]; omega
          · simp only [List.length_cons]; omega
      · rw [if_pos hloc]
        constructor
        · intro _; rfl
        · intro hcond
          exfalso
          apply hcond
          left
          exact ⟨hloc, by simp⟩

/-- With the term to compute in range, the part after the scans returns. -/
theorem isolateWire_total (ids : CoeffIds) (r : R1CS) (inst : List Bool) (wv : List Element)
    (a b c : Element) (loc : Nat) (ttc : Term)
    (h : loc ≠ 0 → ttc.VariableID < inst.length ∧ ttc.VariableID < wv.length ∧
      coeffInRange ids r ttc = true) :
    ∃ inst1 wv1, isolateWire ids r inst wv a b c loc ttc = .ok (inst1, wv1) := by
  unfold isolateWire
  by_cases hloc : loc = 0
  · rw [if_pos hloc]; exact ⟨_, _, rfl⟩
  · rw [if_neg hloc]
    obtain ⟨h1, h2, h3⟩ := h hloc
    have hcomp : ∀ v, ∃ wv1, computeWire ids r wv ttc v = .ok wv1 :=
      fun v => computeWire_total ids r wv ttc v h2 h3
    have hcomputed : ∃ wv1,
        (if loc = 1 then
          if b ≠ 0 then computeWire ids r wv ttc (ElementDiv c b - a) else .ok wv
        else if loc = 2 then
          if a ≠ 0 then computeWire ids r wv ttc (ElementDiv c a - b) else .ok wv
        else if loc = 3 then computeWire ids r wv ttc (a * b - c)
        else .ok wv) = Except.ok wv1 := by
      split
      · split
        · exact hcomp _
        · exact ⟨_, rfl⟩
      · split
        · split
          · exact hcomp _
          · exact ⟨_, rfl⟩
        · split
          · exact hcomp _
          · exact ⟨_, rfl⟩
    obtain ⟨wv1, hwv1⟩ := hcomputed
    dsimp only
    rw [hwv1]
    dsimp only
    rw [assign_of_lt _ _ _ h1]
    exact ⟨_, _, rfl⟩

/-- With wires and coefficients in range, the single-output solver aborts with the
fatal signal when two or more terms sit on unknown wires, and returns otherwise. -/
theorem solveSingleOutput_total (ids : CoeffIds) (r : R1CS) (cons : R1C) (inst : List Bool)
    (wv : List Element) (hlen : inst.length = wv.length)
    (hwf : termsInRange ids r wv.length cons.terms = true) :
    (2 ≤ (unknownTerms inst cons.terms).length →
      solveSingleOutput ids r cons inst wv = .error .moreThanOneWire) ∧
    ((unknownTerms inst cons.terms).length ≤ 1 →
      ∃ inst1 wv1, solveSingleOutput ids r cons inst wv = .ok (inst1, wv1)) := by
  rw [termsInRange_iff] at hwf
  have hwfL : ∀ t ∈ cons.L, t.VariableID < wv.length ∧ coeffInRange ids r t = true :=
    fun t ht => hwf t (by simp [R1C.terms, ht])
  have hwfR : ∀ t ∈ cons.R, t.VariableID < wv.length ∧ coeffInRange ids r t = true :=
    fun t ht => hwf t (by simp [R1C.terms, ht])
  have hwfO : ∀ t ∈ cons.O, t.VariableID < wv.length ∧ coeffInRange ids r t = true :=
    fun t ht => hwf t (by simp [R1C.terms, ht])
  have hn : (unknownTerms inst cons.terms).length =
      (unknownTerms inst cons.L).length + (unknownTerms inst cons.R).length +
        (unknownTerms inst cons.O).length := by
    simp only [R1C.terms, unknownTerms_append, List.length_append]
  have hin : ∀ (ts : List Term) (t : Term), (∀ u ∈ ts, u.VariableID < wv.length ∧
      coeffInRange ids r u = true) → unknownTerms inst ts = [t] →
      (t.VariableID < inst.length ∧ t.VariableID < wv.length ∧ coeffInRange ids r t = true) := by
    intro ts t hts hu
    have : t ∈ unknownTerms inst ts := by rw [hu]; simp
    obtain ⟨hmem, -⟩ := mem_unknownTerms inst ts t this
    exact ⟨by rw [hlen]; exact (hts t hmem).1, (hts t hmem).1, (hts t hmem).2⟩
  unfold solveSingleOutput
  obtain ⟨TL1, TL2⟩ := processTerms_total ids r inst wv 1 (by decide) hlen cons.L hwfL 0 0 ⟨0, 0⟩
  by_cases cL : (((0 : Nat) ≠ 0 ∧ unknownTerms inst cons.L ≠ []) ∨
      2 ≤ (unknownTerms inst cons.L).length)
  · rw [TL1 cL]
    have : 2 ≤ (unknownTerms inst cons.L).length := by
      rcases cL with ⟨h0, -⟩ | h2
      · exact absurd rfl h0
      · exact h2
    exact ⟨fun _ => rfl, fun h1 => by omega⟩
  obtain ⟨⟨a, loc1, t1⟩, hL⟩ := TL2 cL
  rw [hL]
  dsimp only
  obtain ⟨-, -, hcL⟩ := processTerms_ok ids r inst wv 1 (by decide) _ _ _ _ _ _ _ hL
  obtain ⟨TR1, TR2⟩ := processTerms_total ids r inst wv 2 (by decide) hlen cons.R hwfR 0 loc1 t1
  by_cases cR : ((loc1 ≠ 0 ∧ unknownTerms inst cons.R ≠ []) ∨
      2 ≤ (unknownTerms inst cons.R).length)
  · rw [TR1 cR]
    refine ⟨fun _ => rfl, fun h1 => ?_⟩
    exfalso
    rcases cR with ⟨h0, hne⟩ | h2
    · have hpos : 0 < (unknownTerms inst cons.R).length := List.length_pos.mpr hne
      rcases hcL with ⟨-, h3, -⟩ | ⟨-, h3, -⟩
      · exact h0 h3
      · rw [h3] at hn; simp only [List.length_singleton] at hn; omega
    · omega
  obtain ⟨⟨b, loc2, t2⟩, hR⟩ := TR2 cR
  rw [hR]
  dsimp only
  obtain ⟨-, -, hcR⟩ := processTerms_ok ids r inst wv 2 (by decide) _ _ _ _ _ _ _ hR
  obtain ⟨TO1, TO2⟩ := processTerms_total ids r inst wv 3 (by decide) hlen cons.O hwfO 0 loc2 t2
  by_cases cO : ((loc2 ≠ 0 ∧ unknownTerms inst cons.O ≠ []) ∨
      2 ≤ (unknownTerms inst cons.O).length)
  · rw [TO1 cO]
    refine ⟨fun _ => rfl, fun h1 => ?_⟩
    exfalso
    rcases cO with ⟨h0, hne⟩ | h2
    · have hpos : 0 < (unknownTerms inst cons.O).length := List.length_pos.mpr hne
      rcases hcR with ⟨-, h3, -⟩ | ⟨-, h3, -⟩
      · rw [h3] at h0
        rcases hcL with ⟨-, h4, -⟩ | ⟨-, h4, -⟩
        · exact h0 h4
        · rw [h4] at hn; simp only [List.length_singleton] at hn; omega
      · rw [h3] at hn; simp only [List.length_singleton] at hn; omega
    · omega
  obtain ⟨⟨c, loc, ttc⟩, hO⟩ := TO2 cO
  rw [hO]
  dsimp only
  obtain ⟨-, -, hcO⟩ := processTerms_ok ids r inst wv 3 (by decide) _ _ _ _ _ _ _ hO
  have hfin : ∃ inst1 wv1, isolateWire ids r inst wv a b c loc ttc = .ok (inst1, wv1) := by
    apply isolateWire_total
    intro hloc
    rcases hcO with ⟨-, h3, h4⟩ | ⟨-, h3, -⟩
    · rw [h3] at hloc
      rw [h4]
      rcases hcR with ⟨-, h5, h6⟩ | ⟨-, h5, -⟩
      · rw [h5] at hloc
        rw [h6]
        rcases hcL with ⟨-, h7, -⟩ | ⟨-, h7, -⟩
        · exact absurd h7 hloc
        · exact hin _ _ hwfL h7
      · exact hin _ _ hwfR h5
    · exact hin _ _ hwfO h3
  have hle : (unknownTerms inst cons.terms).length ≤ 1 := by
    rw [hn]
    push_neg at cL cR cO
    rcases hcL with ⟨h1, h2, -⟩ | ⟨-, h1, h2⟩
    · rcases hcR with ⟨h3, h4, -⟩ | ⟨-, h3, h4⟩
      · rw [h1, h3]
        have := cO.2
        simp only [List.length_nil]; omega
      · have h5 := cO.1 (by rw [h4]; decide)
        rw [h1, h3, h5]; simp
    · have h5 := cR.1 (by rw [h2]; decide)
      rcases hcR with ⟨h3, h4, -⟩ | ⟨h3, -⟩
      · have h6 := cO.1 (by rw [h4, h2]; decide)
        rw [h1, h5, h6]; simp
      · rw [h2] at h3; cases h3
  exact ⟨fun h2 => by omega, fun _ => hfin⟩

/-- C9: a returning single-output solve never alters a wire that is already known.  If
every wire the constraint refers to is known, `wireValues` and `wireInstantiated`
come back unchanged; otherwise the only entry of `wireValues` and the only flag that
can differ afterwards are those of the one unknown wire. -/
theorem solveSingleOutput_frame (ids : CoeffIds) (r : R1CS) (cons : R1C)
    (inst inst1 : List Bool) (wv wv1 : List Element)
    (h : solveSingleOutput ids r cons inst wv = .ok (inst1, wv1)) :
    (inst1.length = inst.length ∧ wv1.length = wv.length) ∧
    ((∀ t ∈ cons.terms, inst[t.VariableID]? = some true) → inst1 = inst ∧ wv1 = wv) ∧
    (∀ j : Nat, inst[j]? = some true → inst1[j]? = some true ∧ wv1[j]? = wv[j]?) ∧
    ((inst1 = inst ∧ wv1 = wv) ∨
      ∃ t ∈ cons.terms, inst[t.VariableID]? = some false ∧
        ∀ j : Nat, j ≠ t.VariableID → inst1[j]? = inst[j]? ∧ wv1[j]? = wv[j]?) :=
  solveSingleOutput_changes ids r cons inst inst1 wv wv1 h

/-- C9 at a concrete input: `x * y = z` with `x = 3`, `y = 4` known and `z` unknown. -/
theorem solveSingleOutput_frame_witness :
    (([true, true, true, true] : List Bool).length = [true, true, true, false].length ∧
      ([1, 3, 4, 12] : List Element).length = ([1, 3, 4, 9] : List Element).length) ∧
    ((∀ t ∈ (mulCons gnarkIds).terms,
        ([true, true, true, false] : List Bool)[t.VariableID]? = some true) →
      ([true, true, true, true] : List Bool) = [true, true, true, false] ∧
        ([1, 3, 4, 12] : List Element) = [1, 3, 4, 9]) ∧
    (∀ j : Nat, ([true, true, true, false] : List Bool)[j]? = some true →
      ([true, true, true, true] : List Bool)[j]? = some true ∧
        ([1, 3, 4, 12] : List Element)[j]? = ([1, 3, 4, 9] : List Element)[j]?) ∧
    ((([true, true, true, true] : List Bool) = [true, true, true, false] ∧
        ([1, 3, 4, 12] : List Element) = [1, 3, 4, 9]) ∨
      ∃ t ∈ (mulCons gnarkIds).terms,
        ([true, true, true, false] : List Bool)[t.VariableID]? = some false ∧
        ∀ j : Nat, j ≠ t.VariableID →
          ([true, true, true, true] : List Bool)[j]? =
              ([true, true, true, false] : List Bool)[j]? ∧
            ([1, 3, 4, 12] : List Element)[j]? = ([1, 3, 4, 9] : List Element)[j]?) :=
  solveSingleOutput_frame gnarkIds (mulGate gnarkIds 1 gnarkPool) (mulCons gnarkIds)
    [true, true, true, false] [true, true, true, true] [1, 3, 4, 9] [1, 3, 4, 12] (by decide!)

/-- C8 as stated fails: in `x * x = y` with only the wire `x` unknown, a single wire is
unknown, yet the solver aborts with the fatal signal, because two terms mention it. -/
theorem solveSingleOutput_aborts_on_one_wire :
    unknownWires [true, true, false] (squareCons gnarkIds) = [2] ∧
      solveSingleOutput gnarkIds (halfGate gnarkIds gnarkPool) (squareCons gnarkIds)
        [true, true, false] [1, 4, 0] = .error .moreThanOneWire := by
  decide!

/-- C8, amended: on a constraint whose wires and coefficient identifiers are in range,
the single-output solver aborts with the fatal signal `found more than one wire to
instantiate` exactly when more than one term of `L`, `R`, `O` sits on an unknown
wire; with at most one such term it returns, and every wire of the constraint, the one
of that term included, is marked known afterwards. -/
theorem solveSingleOutput_abort_iff (ids : CoeffIds) (r : R1CS) (cons : R1C)
    (inst : List Bool) (wv : List Element) (hlen : inst.length = wv.length)
    (hwf : termsInRange ids r wv.length cons.terms = true) :
    (solveSingleOutput ids r cons inst wv = .error .moreThanOneWire ↔
      2 ≤ (unknownTerms inst cons.terms).length) ∧
    ((unknownTerms inst cons.terms).length ≤ 1 →
      ∃ inst1 wv1, solveSingleOutput ids r cons inst wv = .ok (inst1, wv1) ∧
        ∀ t ∈ cons.terms, inst1[t.VariableID]? = some true) := by
  obtain ⟨h1, h2⟩ := solveSingleOutput_total ids r cons inst wv hlen hwf
  refine ⟨⟨?_, h1⟩, ?_⟩
  · intro herr
    by_contra hlt
    obtain ⟨inst1, wv1, hok⟩ := h2 (by omega)
    rw [hok] at herr
    cases herr
  · intro hle
    obtain ⟨inst1, wv1, hok⟩ := h2 hle
    exact ⟨inst1, wv1, hok, solveSingleOutput_known ids r cons inst inst1 wv wv1 hok⟩

/-- C8, amended, at concrete inputs: `x * y = z` with only `z` unknown returns and
marks `z`; it is not the abort case. -/
theorem solveSingleOutput_abort_iff_witness :
    (solveSingleOutput gnarkIds (mulGate gnarkIds 1 gnarkPool) (mulCons gnarkIds)
        [true, true, true, false] [1, 3, 4, 9] = .error .moreThanOneWire ↔
      2 ≤ (unknownTerms [true, true, true, false] (mulCons gnarkIds).terms).length) ∧
    ((unknownTerms [true, true, true, false] (mulCons gnarkIds).terms).length ≤ 1 →
      ∃ inst1 wv1, solveSingleOutput gnarkIds (mulGate gnarkIds 1 gnarkPool)
          (mulCons gnarkIds) [true, true, true, false] [1, 3, 4, 9] = .ok (inst1, wv1) ∧
        ∀ t ∈ (mulCons gnarkIds).terms, inst1[t.VariableID]? = some true) :=
  solveSingleOutput_abort_iff gnarkIds (mulGate gnarkIds 1 gnarkPool) (mulCons gnarkIds)
    [true, true, true, false] [1, 3, 4, 9] (by decide) (by decide)

/-! ## The final wire vector -/

/-- A linear combination depends only on the wires of its terms. -/
theorem addTerms_congr (ids : CoeffIds) (r : R1CS) (wv wv1 : List Element) (ts : List Term)
    (h : ∀ t ∈ ts, wv1[t.VariableID]? = wv[t.VariableID]?) :
    ∀ acc : Element, addTerms ids r wv1 ts acc = addTerms ids r wv ts acc := by
  induction ts with
  | nil => intro acc; rfl
  | cons t ts ih =>
    intro acc
    have h1 : index wv1 t.VariableID = index wv t.VariableID := by
      unfold index
      rw [h t (List.mem_cons_self _ _)]
    unfold addTerms
    rw [h1]
    cases index wv t.VariableID with
    | error e => rfl
    | ok v =>
      dsimp only
      cases AddTerm ids r acc t v with
      | error e => rfl
      | ok acc1 => exact ih (fun u hu => h u (List.mem_cons_of_mem _ hu)) acc1

/-- The values of a constraint depend only on the wires of its terms. -/
theorem instantiateR1C_congr (ids : CoeffIds) (r : R1CS) (cons : R1C) (wv wv1 : List Element)
    (h : ∀ t ∈ cons.terms, wv1[t.VariableID]? = wv[t.VariableID]?) :
    instantiateR1C ids cons r wv1 = instantiateR1C ids cons r wv := by
  unfold instantiateR1C
  rw [addTerms_congr ids r wv wv1 cons.L (fun t ht => h t (by simp [R1C.terms, ht])),
    addTerms_congr ids r wv wv1 cons.R (fun t ht => h t (by simp [R1C.terms, ht])),
    addTerms_congr ids r wv wv1 cons.O (fun t ht => h t (by simp [R1C.terms, ht]))]

/-- From a constraint on, a run of the computational loop that uses only the
single-output solver keeps every known wire, and each constraint it went over is
satisfied by the wire values at the end of the loop, with `a[j]`, `b[j]`, `c[j]` its
values there. -/
theorem solveComputational_singleOutput (ids : CoeffIds) (r : R1CS) (m : Nat) (steps : Nat) :
    ∀ (i : Nat) (s s2 : Buffers),
      solveComputational ids r steps i s = .ok (none, s2) →
      (∀ j cj, m ≤ j → j < i + steps → r.Constraints[j]? = some cj →
        cj.Solver = .SingleOutput) →
      (m ≤ i → ∀ j : Nat, s.wireInstantiated[j]? = some true →
        s2.wireInstantiated[j]? = some true ∧ s2.wireValues[j]? = s.wireValues[j]?) ∧
      (∀ j cj, m ≤ j → i ≤ j → j < i + steps → r.Constraints[j]? = some cj →
        (∀ t ∈ cj.terms, s2.wireInstantiated[t.VariableID]? = some true) ∧
        ∃ x y z, instantiateR1C ids cj r s2.wireValues = .ok (x, y, z) ∧
          s2.a[j]? = some x ∧ s2.b[j]? = some y ∧ s2.c[j]? = some z ∧ x * y = z) := by
  induction steps with
  | zero =>
    intro i s s2 h hso
    simp only [solveComputational, Except.ok.injEq, Prod.mk.injEq] at h
    obtain ⟨-, rfl⟩ := h
    exact ⟨fun _ j hj => ⟨hj, rfl⟩, fun j cj _ h1 h2 => by omega⟩
  | succ k ih =>
    intro i s s2 h hso
    have hrows := solveComputational_rows ids r _ _ _ _ _ h
    rw [solveComputational_succ] at h
    obtain ⟨cons, inst1, wv1, s1, passed, hcons, hsolve, hi, hrest⟩ := h
    rw [instantiateAndCheck_eq_ok] at hi
    obtain ⟨av, bv, cv, hinst, ha, hb, hc, hs1, hp⟩ := hi
    dsimp only at hinst ha hb hc
    rcases hrest with ⟨hpass, hrec⟩ | ⟨-, herr, -⟩
    swap
    · cases herr
    have hrows1 := solveComputational_rows ids r _ _ _ _ _ hrec
    obtain ⟨hext, hsat⟩ := ih (i + 1) s1 s2 hrec
      (fun j cj h1 h2 h3 => hso j cj h1 (by omega) h3)
    have hs1w : s1.wireValues = wv1 := by rw [hs1]
    have hs1i : s1.wireInstantiated = inst1 := by rw [hs1]
    by_cases hmi : m ≤ i
    · have hso_i : cons.Solver = .SingleOutput := hso i cons hmi (by omega) hcons
      have hsolve1 : solveSingleOutput ids r cons s.wireInstantiated s.wireValues =
          .ok (inst1, wv1) := by
        unfold solveR1C at hsolve
        rw [hso_i] at hsolve
        exact hsolve
      obtain ⟨-, -, hkeep, -⟩ := solveSingleOutput_changes ids r cons _ _ _ _ hsolve1
      have hknown := solveSingleOutput_known ids r cons _ _ _ _ hsolve1
      have hext1 := hext (by omega)
      rw [hs1w, hs1i] at hext1
      constructor
      · intro _ j hj
        obtain ⟨h1, h2⟩ := hkeep j hj
        obtain ⟨h3, h4⟩ := hext1 j h1
        exact ⟨h3, h4.trans h2⟩
      · intro j cj h1 h2 h3 h4
        rcases Nat.eq_or_lt_of_le h2 with heq | hlt
        · subst heq
          rw [hcons] at h4
          cases h4
          refine ⟨fun t ht => (hext1 _ (hknown t ht)).1, av, bv, cv, ?_, ?_, ?_, ?_, ?_⟩
          · rw [instantiateR1C_congr ids r cons wv1 s2.wireValues
              (fun t ht => (hext1 _ (hknown t ht)).2)]
            exact hinst
          · rw [(hrows1.2.1 i (by omega)).1, hs1]
            exact List.getElem?_set_self ha
          · rw [(hrows1.2.1 i (by omega)).2.1, hs1]
            exact List.getElem?_set_self hb
          · rw [(hrows1.2.1 i (by omega)).2.2, hs1]
            exact List.getElem?_set_self hc
          · rw [hpass] at hp
            exact of_decide_eq_true hp.symm
        · exact hsat j cj h1 (by omega) (by omega) h4
    · constructor
      · intro h; exact absurd h hmi
      · intro j cj h1 h2 h3 h4
        exact hsat j cj h1 (by omega) (by omega) h4

/-- On `nil` every assertion the loop went over is satisfied by the wire values, with
`a[j]`, `b[j]`, `c[j]` its values. -/
theorem checkAssertions_eval (ids : CoeffIds) (r : R1CS) (nbCO steps : Nat) :
    ∀ (i : Nat) (s s2 : Buffers),
      checkAssertions ids r nbCO steps i s = .ok (none, s2) →
      ∀ j cj, i ≤ j → j < i + steps → r.Constraints[j]? = some cj →
        ∃ x y z, instantiateR1C ids cj r s.wireValues = .ok (x, y, z) ∧
          s2.a[j]? = some x ∧ s2.b[j]? = some y ∧ s2.c[j]? = some z ∧ x * y = z := by
  induction steps with
  | zero =>
    intro i s s2 h j cj h1 h2
    omega
  | succ k ih =>
    intro i s s2 h j cj h1 h2 h4
    rw [checkAssertions_succ] at h
    obtain ⟨cons, s1, passed, hcons, hi, hrest⟩ := h
    rw [instantiateAndCheck_eq_ok] at hi
    obtain ⟨av, bv, cv, hinst, ha, hb, hc, hs1, hp⟩ := hi
    rcases hrest with ⟨hpass, hrec⟩ | ⟨-, d, msg, -, -, herr, -⟩
    swap
    · cases herr
    have hrows1 := checkAssertions_rows ids r _ _ _ _ _ _ hrec
    have hs1w : s1.wireValues = s.wireValues := by rw [hs1]
    rcases Nat.eq_or_lt_of_le h1 with heq | hlt
    · subst heq
      rw [hcons] at h4
      cases h4
      refine ⟨av, bv, cv, hinst, ?_, ?_, ?_, ?_⟩
      · rw [(hrows1.2.2.1 i (by omega)).1, hs1]
        exact List.getElem?_set_self ha
      · rw [(hrows1.2.2.1 i (by omega)).2.1, hs1]
        exact List.getElem?_set_self hb
      · rw [(hrows1.2.2.1 i (by omega)).2.2, hs1]
        exact List.getElem?_set_self hc
      · rw [hpass] at hp
        exact of_decide_eq_true hp.symm
    · have := ih (i + 1) s1 s2 hrec j cj (by omega) (by omega) h4
      rw [hs1w] at this
      exact this

/-- C1 as stated fails: `x = 2` passes the check of `x * ONE = 2 * ONE`, then the
bit-decomposition constraint assigns `x = 1`; `Solve` returns `nil` with `a[0] = 2`,
`c[0] = 2`, while on the final wire vector `[1, 1]` the first constraint evaluates to
`1 * 1` against `2`. -/
theorem Solve_nil_overwritten :
    Solve gnarkIds (overwriteCircuit gnarkIds gnarkPool) [2] [0, 0] [0, 0] [0, 0] [0, 0] = .ok
        { err := none, a := [2, 1], b := [1, 1], c := [2, 1], wireValues := [1, 1],
          logs := [] } ∧
      instantiateR1C gnarkIds (equalsTwoCons gnarkIds) (overwriteCircuit gnarkIds gnarkPool)
        [1, 1] = .ok (1, 1, 2) ∧
      (1 : Element) * 1 ≠ 2 := by
  decide!

/-! ## The assertion pass -/

/-- What `satisfiedAt` says of a constraint. -/
theorem satisfiedAt_iff (ids : CoeffIds) (r : R1CS) (wv : List Element) (j : Nat) :
    satisfiedAt ids r wv j = true ↔
      ∃ cons x y z, r.Constraints[j]? = some cons ∧
        instantiateR1C ids cons r wv = .ok (x, y, z) ∧ x * y = z := by
  unfold satisfiedAt
  constructor
  · intro h
    cases hc : r.Constraints[j]? with
    | none => rw [hc] at h; cases h
    | some cons =>
      rw [hc] at h
      dsimp only at h
      cases hi : instantiateR1C ids cons r wv with
      | error e => rw [hi] at h; cases h
      | ok v =>
        obtain ⟨x, y, z⟩ := v
        rw [hi] at h
        exact ⟨cons, x, y, z, rfl, hi, of_decide_eq_true h⟩
  · rintro ⟨cons, x, y, z, hc, hi, hxyz⟩
    rw [hc]
    dsimp only
    rw [hi]
    exact decide_eq_true hxyz

/-- What `violatedAt` says of a constraint. -/
theorem violatedAt_iff (ids : CoeffIds) (r : R1CS) (wv : List Element) (j : Nat) :
    violatedAt ids r wv j = true ↔
      ∃ cons x y z, r.Constraints[j]? = some cons ∧
        instantiateR1C ids cons r wv = .ok (x, y, z) ∧ x * y ≠ z := by
  unfold violatedAt
  constructor
  · intro h
    cases hc : r.Constraints[j]? with
    | none => rw [hc] at h; cases h
    | some cons =>
      rw [hc] at h
      dsimp only at h
      cases hi : instantiateR1C ids cons r wv with
      | error e => rw [hi] at h; cases h
      | ok v =>
        obtain ⟨x, y, z⟩ := v
        rw [hi] at h
        exact ⟨cons, x, y, z, rfl, hi, of_decide_eq_true h⟩
  · rintro ⟨cons, x, y, z, hc, hi, hxyz⟩
    rw [hc]
    dsimp only
    rw [hi]
    exact decide_eq_true hxyz

/-- The assertion loop returns `nil` when every assertion it goes over is satisfied. -/
theorem checkAssertions_pass (ids : CoeffIds) (r : R1CS) (nbCO steps : Nat) :
    ∀ (i : Nat) (s : Buffers),
      (∀ j, i ≤ j → j < i + steps → satisfiedAt ids r s.wireValues j = true) →
      i + steps ≤ s.a.length → i + steps ≤ s.b.length → i + steps ≤ s.c.length →
      ∃ s2, checkAssertions ids r nbCO steps i s = .ok (none, s2) ∧
        s2.wireValues = s.wireValues ∧ s2.wireInstantiated = s.wireInstantiated := by
  induction steps with
  | zero =>
    intro i s _ _ _ _
    exact ⟨s, rfl, rfl, rfl⟩
  | succ k ih =>
    intro i s hsat ha hb hc
    obtain ⟨cons, x, y, z, hcons, hinst, hxyz⟩ :=
      (satisfiedAt_iff ids r s.wireValues i).mp (hsat i (le_refl _) (by omega))
    obtain ⟨s2, h1, h2, h3⟩ := ih (i + 1)
      { s with a := s.a.set i x, b := s.b.set i y, c := s.c.set i z }
      (fun j h1 h2 => hsat j (by omega) (by omega))
      (by simp only [List.length_set]; omega) (by simp only [List.length_set]; omega)
      (by simp only [List.length_set]; omega)
    refine ⟨s2, ?_, h2, h3⟩
    rw [checkAssertions_succ]
    refine ⟨cons, { s with a := s.a.set i x, b := s.b.set i y, c := s.c.set i z }, true,
      hcons, ?_, Or.inl ⟨rfl, h1⟩⟩
    rw [instantiateAndCheck_eq_ok]
    exact ⟨x, y, z, hinst, by omega, by omega, by omega, rfl, by simp [hxyz]⟩

/-- The assertion loop stops at the first violated assertion with its debug message. -/
theorem checkAssertions_fail (ids : CoeffIds) (r : R1CS) (nbCO steps : Nat)
    (k : Nat) (debugInfo : LogEntry) (msg : Formatted)
    (hd : r.DebugInfoAssertion[k - nbCO]? = some debugInfo) :
    ∀ (i : Nat) (s : Buffers), i ≤ k → k < i + steps →
      (∀ j, i ≤ j → j < k → satisfiedAt ids r s.wireValues j = true) →
      violatedAt ids r s.wireValues k = true →
      logValue debugInfo s.wireValues s.wireInstantiated = .ok msg →
      k < s.a.length → k < s.b.length → k < s.c.length →
      ∃ s2, checkAssertions ids r nbCO steps i s = .ok (some (.unsatisfiedAssertion msg), s2) ∧
        s2.wireValues = s.wireValues ∧ s2.wireInstantiated = s.wireInstantiated := by
  induction steps with
  | zero =>
    intro i s h1 h2
    omega
  | succ n ih =>
    intro i s hik hk hsat hviol hlog ha hb hc
    rcases Nat.eq_or_lt_of_le hik with heq | hlt
    · subst heq
      obtain ⟨cons, x, y, z, hcons, hinst, hxyz⟩ := (violatedAt_iff ids r s.wireValues i).mp hviol
      refine ⟨{ s with a := s.a.set i x, b := s.b.set i y, c := s.c.set i z }, ?_, rfl, rfl⟩
      rw [checkAssertions_succ]
      refine ⟨cons, { s with a := s.a.set i x, b := s.b.set i y, c := s.c.set i z }, false,
        hcons, ?_, Or.inr ⟨rfl, debugInfo, msg, hd, hlog, rfl, rfl⟩⟩
      rw [instantiateAndCheck_eq_ok]
      exact ⟨x, y, z, hinst, ha, hb, hc, rfl, by simp [hxyz]⟩
    · obtain ⟨cons, x, y, z, hcons, hinst, hxyz⟩ :=
        (satisfiedAt_iff ids r s.wireValues i).mp (hsat i (le_refl _) hlt)
      obtain ⟨s2, h1, h2, h3⟩ := ih (i + 1)
        { s with a := s.a.set i x, b := s.b.set i y, c := s.c.set i z }
        (by omega) (by omega) (fun j h1 h2 => hsat j (by omega) h2) hviol hlog
        (by simp only [List.length_set]; omega) (by simp only [List.length_set]; omega)
        (by simp only [List.length_set]; omega)
      refine ⟨s2, ?_, h2, h3⟩
      rw [checkAssertions_succ]
      refine ⟨cons, { s with a := s.a.set i x, b := s.b.set i y, c := s.c.set i z }, true,
      hcons, ?_, Or.inl ⟨rfl, h1⟩⟩
      rw [instantiateAndCheck_eq_ok]
      exact ⟨x, y, z, hinst, by omega, by omega, by omega, rfl, by simp [hxyz]⟩

/-- The result of `Solve` on inputs of the right sizes, from the runs of its parts. -/
theorem Solve_of_parts (ids : CoeffIds) (r : R1CS) (witness a b c wireValues : List Element)
    (inst0 : List Bool) (w0 : List Element) (err : Option SolveError) (s : Buffers)
    (logs : List Formatted)
    (hw : (witness.length : Int) = expectedWitnessSize r)
    (ha : (a.length : Int) = r.NbConstraints) (hb : (b.length : Int) = r.NbConstraints)
    (hc : (c.length : Int) = r.NbConstraints) (hwv : (wireValues.length : Int) = nbWires r)
    (hinit : initWires r witness wireValues = .ok (inst0, w0))
    (hsc : solveConstraints ids r
      { a := a, b := b, c := c, wireValues := w0, wireInstantiated := inst0 } = .ok (err, s))
    (hlogs : printLogs r s.wireValues s.wireInstantiated = .ok logs) :
    Solve ids r witness a b c wireValues = .ok
      { err := err, a := s.a, b := s.b, c := s.c, wireValues := s.wireValues, logs := logs } := by
  unfold Solve
  rw [if_neg (by simp [hw]), if_neg (by simp [ha, hb, hc, hwv]), hinit]
  dsimp only
  rw [hsc]
  dsimp only
  rw [hlogs]

/-- A computational loop that runs to its end has found a constraint at every index. -/
theorem solveComputational_bound (ids : CoeffIds) (r : R1CS) (steps : Nat) :
    ∀ (i : Nat) (s s2 : Buffers), solveComputational ids r steps i s = .ok (none, s2) →
      steps = 0 ∨ i + steps ≤ r.Constraints.length := by
  induction steps with
  | zero => intro i s s2 _; exact Or.inl rfl
  | succ k ih =>
    intro i s s2 h
    rw [solveComputational_succ] at h
    obtain ⟨cons, inst1, wv1, s1, passed, hcons, -, -, hrest⟩ := h
    have hlt : i < r.Constraints.length := (List.getElem?_eq_some_iff.mp hcons).1
    rcases hrest with ⟨-, hrec⟩ | ⟨-, herr, -⟩
    · rcases ih _ _ _ hrec with h0 | h1
      · right; omega
      · right; omega
    · cases herr

/-- C5 as stated fails: `Solve` does not return on every circuit.  On scenario B
without its debug entry, with the witness `x = 3`, `y = 5`, the computational
constraint passes and the assertion evaluates to `15 * 1` against `12`, and the call
aborts when it reads `DebugInfoAssertion[0]`; on scenario B with a log entry on the
wire `9`, which does not exist, and the witness `x = 3`, `y = 4`, the assertion
evaluates to `12 * 1 = 12` and the call aborts in the deferred `printLogs`. -/
theorem Solve_assertions_aborts :
    violatedAt gnarkIds { assertGate gnarkIds with DebugInfoAssertion := [] }
        [1, 3, 5, 15] 1 = true ∧
      Solve gnarkIds { assertGate gnarkIds with DebugInfoAssertion := [] }
        [3, 5] [0, 0] [0, 0] [0, 0] [0, 0, 0, 0] = .error .indexOutOfRange ∧
      satisfiedAt gnarkIds { assertGate gnarkIds with Logs := [⟨goString "%s", [9]⟩] }
        [1, 3, 4, 12] 1 = true ∧
      Solve gnarkIds { assertGate gnarkIds with Logs := [⟨goString "%s", [9]⟩] }
        [3, 4] [0, 0] [0, 0] [0, 0] [0, 0, 0, 0] = .error .indexOutOfRange := by
  decide!

/-- C5, amended: on a circuit with `0 ≤ NbCOConstraints` and
`len(Constraints) ≤ NbConstraints`, and inputs of the right sizes, on which the
initialisation and the computational pass complete with every check passed (leaving
the buffers `s1`) and every entry of `Logs` resolves on the solved wires: if some
assertion evaluates on the solved wire values to `a * b ≠ c`, and for the lowest such
index `i` the entry `DebugInfoAssertion[i - NbCOConstraints]` exists and resolves,
then the call returns the error that wraps `ErrUnsatisfiedConstraint` and carries
`logValue` of that entry on the solved wires; if every assertion evaluates to
`a * b = c`, the call returns `nil`. -/
theorem Solve_assertions (ids : CoeffIds) (r : R1CS) (witness a b c wireValues : List Element)
    (inst0 : List Bool) (w0 : List Element) (s1 : Buffers) (logs : List Formatted)
    (hw : (witness.length : Int) = expectedWitnessSize r)
    (ha : (a.length : Int) = r.NbConstraints) (hb : (b.length : Int) = r.NbConstraints)
    (hc : (c.length : Int) = r.NbConstraints) (hwv : (wireValues.length : Int) = nbWires r)
    (hnb : (r.Constraints.length : Int) ≤ r.NbConstraints) (hco : 0 ≤ r.NbCOConstraints)
    (hinit : initWires r witness wireValues = .ok (inst0, w0))
    (hcomp : solveComputational ids r r.NbCOConstraints.toNat 0
      { a := a, b := b, c := c, wireValues := w0, wireInstantiated := inst0 } = .ok (none, s1))
    (hlogs : printLogs r s1.wireValues s1.wireInstantiated = .ok logs) :
    (∀ (i : Nat) (debugInfo : LogEntry) (msg : Formatted),
      r.NbCOConstraints.toNat ≤ i → violatedAt ids r s1.wireValues i = true →
      (∀ j, r.NbCOConstraints.toNat ≤ j → j < i → satisfiedAt ids r s1.wireValues j = true) →
      r.DebugInfoAssertion[i - r.NbCOConstraints.toNat]? = some debugInfo →
      logValue debugInfo s1.wireValues s1.wireInstantiated = .ok msg →
      ∃ res, Solve ids r witness a b c wireValues = .ok res ∧
        res.err = some (.unsatisfiedAssertion msg) ∧
        (SolveError.unsatisfiedAssertion msg).wrapsErrUnsatisfiedConstraint = true ∧
        res.wireValues = s1.wireValues ∧ res.logs = logs) ∧
    ((∀ j, r.NbCOConstraints.toNat ≤ j → j < r.Constraints.length →
        satisfiedAt ids r s1.wireValues j = true) →
      ∃ res, Solve ids r witness a b c wireValues = .ok res ∧ res.err = none ∧
        res.wireValues = s1.wireValues ∧ res.logs = logs) := by
  obtain ⟨⟨hla, hlb, hlc⟩, -, -⟩ := solveComputational_rows ids r _ _ _ _ _ hcomp
  dsimp only at hla hlb hlc
  have hbound := solveComputational_bound ids r _ _ _ _ hcomp
  have hlen : r.Constraints.length ≤ a.length ∧ r.Constraints.length ≤ b.length ∧
      r.Constraints.length ≤ c.length := by
    refine ⟨?_, ?_, ?_⟩ <;> omega
  constructor
  · intro i debugInfo msg hi hviol hsat hd hlog
    have hilt : i < r.Constraints.length := by
      obtain ⟨cons, x, y, z, hcons, -, -⟩ := (violatedAt_iff ids r _ i).mp hviol
      exact (List.getElem?_eq_some_iff.mp hcons).1
    obtain ⟨s2, hchk, hs2w, hs2i⟩ := checkAssertions_fail ids r r.NbCOConstraints.toNat
      (r.Constraints.length - r.NbCOConstraints.toNat) i debugInfo msg hd
      r.NbCOConstraints.toNat s1 hi (by omega) hsat hviol hlog (by omega) (by omega) (by omega)
    have hsc : solveConstraints ids r
        { a := a, b := b, c := c, wireValues := w0, wireInstantiated := inst0 } =
        .ok (some (.unsatisfiedAssertion msg), s2) := by
      rw [solveConstraints_eq_ok]
      exact ⟨none, s1, hcomp, Or.inr ⟨rfl, hco, hchk⟩⟩
    refine ⟨_, Solve_of_parts ids r witness a b c wireValues inst0 w0 _ s2 logs hw ha hb hc hwv
      hinit hsc (by rw [hs2w, hs2i]; exact hlogs), rfl, rfl, hs2w, rfl⟩
  · intro hsat
    obtain ⟨s2, hchk, hs2w, hs2i⟩ := checkAssertions_pass ids r r.NbCOConstraints.toNat
      (r.Constraints.length - r.NbCOConstraints.toNat) r.NbCOConstraints.toNat s1
      (fun j h1 h2 => hsat j h1 (by omega)) (by omega) (by omega) (by omega)
    have hsc : solveConstraints ids r
        { a := a, b := b, c := c, wireValues := w0, wireInstantiated := inst0 } =
        .ok (none, s2) := by
      rw [solveConstraints_eq_ok]
      exact ⟨none, s1, hcomp, Or.inr ⟨rfl, hco, hchk⟩⟩
    refine ⟨_, Solve_of_parts ids r witness a b c wireValues inst0 w0 _ s2 logs hw ha hb hc hwv
      hinit hsc (by rw [hs2w, hs2i]; exact hlogs), rfl, hs2w, rfl⟩

/-- C5, amended, at scenario B: the gate `x * y = z` with the assertion `z == 12` and the witness
`x = 3`, `y = 5` fails with the debug text resolved with `3`, `5`, `15`. -/
theorem Solve_assertions_witness :
    ∃ res, Solve gnarkIds (assertGate gnarkIds) [3, 5] [0, 0] [0, 0] [0, 0] [0, 0, 0, 0] =
        .ok res ∧
      res.err = some (.unsatisfiedAssertion
        ⟨goString "%s * %s = %s, expected 12", ["3", "5", "15"]⟩) ∧
      (SolveError.unsatisfiedAssertion ⟨goString "%s * %s = %s, expected 12",
        ["3", "5", "15"]⟩).wrapsErrUnsatisfiedConstraint = true ∧
      res.wireValues = [1, 3, 5, 15] ∧ res.logs = [] :=
  (Solve_assertions gnarkIds (assertGate gnarkIds) [3, 5] [0, 0] [0, 0] [0, 0] [0, 0, 0, 0]
    [true, true, true, false] [1, 3, 5, 0]
    { a := [3, 0], b := [5, 0], c := [15, 0], wireValues := [1, 3, 5, 15],
      wireInstantiated := [true, true, true, true] } []
    (by decide) (by decide) (by decide) (by decide) (by decide) (by decide) (by decide)
    (by decide!) (by decide!) (by decide!)).1 1
    ⟨goString "%s * %s = %s, expected 12", [1, 2, 3]⟩
    ⟨goString "%s * %s = %s, expected 12", ["3", "5", "15"]⟩
    (by decide) (by decide!) (fun j h1 h2 => absurd h1 (by
      have : (assertGate gnarkIds).NbCOConstraints.toNat = 1 := by decide
      omega))
    (by decide) (by decide!)

/-! ## Bit decomposition -/

/-- With at least `n` iterations allowed, `shiftCount` is the bit length of `n`: the
loop of `quickLog` has come to its end. -/
theorem shiftCount_spec (fuel : Nat) :
    ∀ n : Nat, n ≤ fuel →
      n < 2 ^ shiftCount fuel n ∧ (n ≠ 0 → 2 ^ (shiftCount fuel n - 1) ≤ n) := by
  induction fuel with
  | zero =>
    intro n h
    have h0 : n = 0 := by omega
    subst h0
    simp [shiftCount]
  | succ f ih =>
    intro n h
    by_cases h0 : n = 0
    · subst h0
      simp [shiftCount]
    · obtain ⟨h1, h2⟩ := ih (n / 2) (by omega)
      simp only [shiftCount, h0, if_false, Nat.add_sub_cancel]
      constructor
      · rw [pow_succ]
        omega
      · intro _
        by_cases h3 : n / 2 = 0
        · have hs : shiftCount f (n / 2) = 0 := by
            rw [h3]
            cases f <;> simp [shiftCount]
          rw [hs]
          simp only [pow_zero]
          omega
        · have h4 := h2 h3
          have h5 : 1 ≤ shiftCount f (n / 2) := by
            by_contra hc
            have : shiftCount f (n / 2) = 0 := by omega
            rw [this] at h1
            simp only [pow_zero] at h1
            omega
          have h6 : 2 ^ shiftCount f (n / 2) = 2 * 2 ^ (shiftCount f (n / 2) - 1) := by
            conv_lhs => rw [show shiftCount f (n / 2) = (shiftCount f (n / 2) - 1) + 1 by omega]
            rw [pow_succ, mul_comm]
          rw [h6]
          omega

/-- The number `bitLen n` is the bit length of `n`. -/
theorem bitLen_spec (n : Nat) : n < 2 ^ bitLen n ∧ (n ≠ 0 → 2 ^ (bitLen n - 1) ≤ n) :=
  shiftCount_spec n n (le_refl n)

/-- A power of two takes one shift more than its exponent to reach zero. -/
theorem shiftCount_two_pow (k : Nat) : ∀ fuel : Nat, k < fuel → shiftCount fuel (2 ^ k) = k + 1 := by
  induction k with
  | zero =>
    intro fuel h
    obtain ⟨f, rfl⟩ : ∃ f, fuel = f + 1 := ⟨fuel - 1, by omega⟩
    cases f <;> simp [shiftCount]
  | succ k ih =>
    intro fuel h
    obtain ⟨f, rfl⟩ : ∃ f, fuel = f + 1 := ⟨fuel - 1, by omega⟩
    have h2 : 2 ^ (k + 1) / 2 = 2 ^ k := by
      rw [pow_succ]; exact Nat.mul_div_cancel _ (by decide)
    have h3 : (2 : Nat) ^ (k + 1) ≠ 0 := by positivity
    simp only [shiftCount, h3, if_false, h2]
    rw [ih f (by omega)]

/-- The bit length of a power of two. -/
theorem bitLen_two_pow (k : Nat) : bitLen (2 ^ k) = k + 1 :=
  shiftCount_two_pow k _ (Nat.lt_two_pow k)

/-- A positive integer has a positive bit length. -/
theorem bitLen_pos (n : Nat) (h : n ≠ 0) : 1 ≤ bitLen n := by
  obtain ⟨m, rfl⟩ : ∃ m, n = m + 1 := ⟨n - 1, by omega⟩
  unfold bitLen
  simp [shiftCount]

/-- On a power of two `quickLog` returns the exponent. -/
theorem quickLog_two_pow (nbBits k : Nat) : quickLog nbBits (2 ^ k) = .ok (k : Int) := by
  unfold quickLog
  rw [bitLen_two_pow]
  simp

/-- On a positive integer `quickLog` returns the exponent of a power of two, or the
last bit position. -/
theorem quickLog_pos (nbBits n : Nat) (h : n ≠ 0) :
    (∃ k : Nat, n = 2 ^ k ∧ quickLog nbBits n = .ok (k : Int)) ∨
      quickLog nbBits n = .ok ((nbBits : Int) - 1) := by
  have h1 := bitLen_pos n h
  by_cases hp : 2 ^ (bitLen n - 1) = n
  · left
    refine ⟨bitLen n - 1, hp.symm, ?_⟩
    conv_lhs => rw [← hp]
    exact quickLog_two_pow _ _
  · right
    unfold quickLog
    have hres : ¬ ((bitLen n : Int) - 1 < 0) := by omega
    have hnat : ((bitLen n : Int) - 1).toNat = bitLen n - 1 := by omega
    simp only [hres, if_false, hnat]
    rw [if_pos hp]

/-- The entries of `bitSlice`. -/
theorem bitSlice_getElem? (bigN nbBits k : Nat) (h : k < nbBits) :
    (bitSlice bigN nbBits)[k]? = some (Nat.testBit bigN k).toNat := by
  simp [bitSlice, List.getElem?_map, List.getElem?_range h]

/-- On a positive integer whose exponent, when it is a power of two, is below
`nbBits`, `quickLog` returns a position of `bitSlice`. -/
theorem quickLog_in_range (nbBits n : Nat) (h : n ≠ 0) (hk : ∀ k, n = 2 ^ k → k < nbBits)
    (hnb : 0 < nbBits) : ∃ i : Nat, i < nbBits ∧ quickLog nbBits n = .ok (i : Int) := by
  rcases quickLog_pos nbBits n h with ⟨k, h1, h2⟩ | h2
  · exact ⟨k, hk k h1, h2⟩
  · refine ⟨nbBits - 1, by omega, ?_⟩
    rw [h2]
    congr 1
    omega

/-- The loop that assigns the bits returns when every term has its wire in range and
a positive pooled coefficient that selects a position of `bitSlice`; a wire no term
mentions is untouched, and a term whose pooled coefficient is `2 ^ k` leaves bit `k`
on its wire unless a later term writes the same wire. -/
theorem assignBits_spec (r : R1CS) (bigN nbBits : Nat) (ts : List Term) :
    ∀ (inst : List Bool) (wv : List Element), inst.length = wv.length →
      (∀ t ∈ ts, t.VariableID < wv.length ∧ ∃ coef, r.Coefficients[t.CoeffID]? = some coef ∧
        ToBigIntRegular coef ≠ 0 ∧ ∀ k, ToBigIntRegular coef = 2 ^ k → k < nbBits) →
      (ts ≠ [] → 0 < nbBits) →
      ∃ inst1 wv1, assignBits r (bitSlice bigN nbBits) nbBits ts inst wv = .ok (inst1, wv1) ∧
        inst1.length = inst.length ∧ wv1.length = wv.length ∧
        (∀ id : Nat, (∀ t ∈ ts, t.VariableID ≠ id) →
          wv1[id]? = wv[id]? ∧ inst1[id]? = inst[id]?) ∧
        (∀ (j k : Nat) (t : Term) (coef : Element), ts[j]? = some t →
          r.Coefficients[t.CoeffID]? = some coef → ToBigIntRegular coef = 2 ^ k →
          (∀ (j1 : Nat) (t1 : Term), j < j1 → ts[j1]? = some t1 →
            t1.VariableID ≠ t.VariableID) →
          wv1[t.VariableID]? = some (((Nat.testBit bigN k).toNat : Nat) : Element) ∧
            inst1[t.VariableID]? = some true) := by
  induction ts with
  | nil =>
    intro inst wv _ _ _
    refine ⟨inst, wv, rfl, rfl, rfl, fun id _ => ⟨rfl, rfl⟩, ?_⟩
    intro j k t coef h
    simp at h
  | cons t ts ih =>
    intro inst wv hlen hL hnb
    obtain ⟨hlt, coef, hcoef, hne, hpow⟩ := hL t (List.mem_cons_self _ _)
    have hnb0 : 0 < nbBits := hnb (by simp)
    obtain ⟨i, hi, hq⟩ := quickLog_in_range nbBits (ToBigIntRegular coef) hne hpow hnb0
    have hidx : index r.Coefficients t.CoeffID = .ok coef := (index_eq_ok _ _ _).mpr hcoef
    have hbit : indexInt (bitSlice bigN nbBits) (i : Int) = .ok (Nat.testBit bigN i).toNat := by
      unfold indexInt
      rw [if_neg (by omega), index_eq_ok, Int.toNat_ofNat]
      exact bitSlice_getElem? bigN nbBits i hi
    have hlti : t.VariableID < inst.length := by rw [hlen]; exact hlt
    obtain ⟨inst1, wv1, hrec, hl1, hl2, hframe, hbits⟩ := ih
      (inst.set t.VariableID true) (wv.set t.VariableID (((Nat.testBit bigN i).toNat : Nat) : Element))
      (by simp [hlen])
      (fun u hu => by
        have := hL u (List.mem_cons_of_mem _ hu)
        simpa using this)
      (fun _ => hnb0)
    refine ⟨inst1, wv1, ?_, by simpa using hl1, by simpa using hl2, ?_, ?_⟩
    · unfold assignBits
      rw [hidx]
      dsimp only
      rw [hq]
      dsimp only
      rw [hbit]
      dsimp only
      rw [assign_of_lt _ _ _ hlt]
      dsimp only
      rw [assign_of_lt _ _ _ hlti]
      exact hrec
    · intro id hid
      have hne1 : t.VariableID ≠ id := hid t (List.mem_cons_self _ _)
      obtain ⟨h1, h2⟩ := hframe id (fun u hu => hid u (List.mem_cons_of_mem _ hu))
      rw [h1, h2, List.getElem?_set_ne hne1, List.getElem?_set_ne hne1]
      exact ⟨rfl, rfl⟩
    · intro j k u ucoef hj hucoef hupow hlast
      cases j with
      | zero =>
        simp only [List.getElem?_cons_zero, Option.some.injEq] at hj
        subst hj
        rw [hcoef] at hucoef
        cases hucoef
        have hik : i = k := by
          have h1 := quickLog_two_pow nbBits k
          rw [← hupow, hq] at h1
          simp only [Except.ok.injEq] at h1
          exact_mod_cast h1
        subst hik
        obtain ⟨h1, h2⟩ := hframe t.VariableID (by
          intro v hv
          obtain ⟨j1, hj1⟩ := List.getElem?_of_mem hv
          exact hlast (j1 + 1) v (by omega) (by simpa using hj1))
        rw [h1, h2, List.getElem?_set_self hlt, List.getElem?_set_self hlti]
        exact ⟨rfl, rfl⟩
      | succ j =>
        simp only [List.getElem?_cons_succ] at hj
        exact hbits j k u ucoef hj hucoef hupow (fun j1 t1 h1 h2 =>
          hlast (j1 + 1) t1 (by omega) (by simpa using h2))

/-- C10 as stated fails: with a pool that holds `2` at the identifier reserved for
one, the evaluator reads the coefficient of the first term of `L` as `1 = 2 ^ 0`
(`AddTerm` adds the value itself), but the solver reads the pooled `2` and gives the
wire bit 1 of `n = 2`, which is `1`, where bit 0 of `n` is `0`. -/
theorem solveR1C_binaryDec_reads_pool :
    solveR1C gnarkIds (bitsGate gnarkIds swappedPool) (bitsCons gnarkIds)
        [true, true, false, false] [1, 2, 0, 0] =
        .ok ([true, true, true, true], [1, 2, 1, 0]) ∧
      addTerms gnarkIds (bitsGate gnarkIds swappedPool) [1, 2, 0, 0]
        (bitsCons gnarkIds).O 0 = .ok 2 ∧
      AddTerm gnarkIds (bitsGate gnarkIds swappedPool) 0 ⟨gnarkIds.CoeffIdOne, 2⟩ 1 =
        .ok ((2 : Element) ^ 0) ∧
      ([1, 2, 1, 0] : List Element)[2]? ≠
        some (((Nat.testBit (ToBigIntRegular (2 : Element)) 0).toNat : Nat) : Element) := by
  decide!

/-- C10, amended: for a bit-decomposition constraint whose `O` evaluates to `n` and
whose terms of `L` all have their wire in range and a pooled coefficient
`Coefficients[CoeffID]` (the pool entry, also for a reserved identifier) that is
nonzero and, when it is a power `2 ^ k`, has `k < len(L)`: the solver returns, and
every term of `L` whose pooled coefficient is `2 ^ k` has its wire marked known and set
to bit `k` of the canonical integer of `n`, unless a later term of `L` writes the same
wire. -/
theorem solveR1C_binaryDec_bits (ids : CoeffIds) (r : R1CS) (cons : R1C) (inst : List Bool)
    (wv : List Element) (n : Element) (hS : cons.Solver = .BinaryDec)
    (hlen : inst.length = wv.length) (hO : addTerms ids r wv cons.O 0 = .ok n)
    (hL : ∀ t ∈ cons.L, t.VariableID < wv.length ∧
      ∃ coef, r.Coefficients[t.CoeffID]? = some coef ∧ ToBigIntRegular coef ≠ 0 ∧
        ∀ k, ToBigIntRegular coef = 2 ^ k → k < cons.L.length) :
    ∃ inst1 wv1, solveR1C ids r cons inst wv = .ok (inst1, wv1) ∧
      ∀ (j k : Nat) (t : Term) (coef : Element), cons.L[j]? = some t →
        r.Coefficients[t.CoeffID]? = some coef → ToBigIntRegular coef = 2 ^ k →
        (∀ (j1 : Nat) (t1 : Term), j < j1 → cons.L[j1]? = some t1 →
          t1.VariableID ≠ t.VariableID) →
        wv1[t.VariableID]? =
            some (((Nat.testBit (ToBigIntRegular n) k).toNat : Nat) : Element) ∧
          inst1[t.VariableID]? = some true := by
  obtain ⟨inst1, wv1, h, -, -, -, hbits⟩ := assignBits_spec r (ToBigIntRegular n)
    cons.L.length cons.L inst wv hlen hL (fun h => List.length_pos.mpr h)
  refine ⟨inst1, wv1, ?_, hbits⟩
  unfold solveR1C
  rw [hS]
  dsimp only
  unfold solveBinaryDec
  rw [hO]
  exact h

/-- The only exponent of the power of two `1`. -/
theorem one_eq_two_pow (k : Nat) (h : 1 = 2 ^ k) : k = 0 := by
  by_contra hk
  have : 2 ^ 1 ≤ 2 ^ k := Nat.pow_le_pow_right (by decide) (by omega)
  omega

/-- The only exponent of the power of two `2`. -/
theorem two_eq_two_pow (k : Nat) (h : 2 = 2 ^ k) : k = 1 := by
  rcases Nat.lt_or_ge k 2 with h1 | h1
  · interval_cases k
    · simp at h
    · rfl
  · have : 2 ^ 2 ≤ 2 ^ k := Nat.pow_le_pow_right (by decide) h1
    omega

/-- C10, amended, at scenario C: coefficients one and two with `O = 3` give the
bit-wires `[1, 1]`. -/
theorem solveR1C_binaryDec_bits_witness :
    ∃ inst1 wv1, solveR1C gnarkIds (bitsGate gnarkIds gnarkPool) (bitsCons gnarkIds)
        [true, true, false, false] [1, 3, 0, 0] = .ok (inst1, wv1) ∧
      wv1[2]? = some 1 ∧ wv1[3]? = some 1 ∧ inst1[2]? = some true ∧
      inst1[3]? = some true := by
  have h1 : ToBigIntRegular (1 : Element) = 1 := by decide!
  have h2 : ToBigIntRegular (2 : Element) = 2 := by decide!
  obtain ⟨inst1, wv1, h, hb⟩ := solveR1C_binaryDec_bits gnarkIds (bitsGate gnarkIds gnarkPool)
    (bitsCons gnarkIds) [true, true, false, false] [1, 3, 0, 0] 3 rfl rfl (by decide!)
    (by
      intro t ht
      simp only [bitsCons, List.mem_cons, List.mem_singleton, List.not_mem_nil, or_false] at ht
      rcases ht with rfl | rfl
      · refine ⟨by decide, 1, by decide, by rw [h1]; decide, ?_⟩
        intro k hk
        rw [h1] at hk
        rw [one_eq_two_pow k hk]
        decide
      · refine ⟨by decide, 2, by decide, by rw [h2]; decide, ?_⟩
        intro k hk
        rw [h2] at hk
        rw [two_eq_two_pow k hk]
        decide)
  have e0 : (((Nat.testBit (ToBigIntRegular (3 : Element)) 0).toNat : Nat) : Element) = 1 := by
    decide!
  have e1 : (((Nat.testBit (ToBigIntRegular (3 : Element)) 1).toNat : Nat) : Element) = 1 := by
    decide!
  obtain ⟨b0, i0⟩ := hb 0 0 ⟨gnarkIds.CoeffIdOne, 2⟩ 1 rfl (by decide) (by rw [h1]; decide)
    (by
      intro j1 t1 hj ht
      have hj1 : j1 = 1 := by
        have := (List.getElem?_eq_some_iff.mp ht).1
        simp only [bitsCons, List.length_cons, List.length_nil] at this
        omega
      subst hj1
      simp only [bitsCons, List.getElem?_cons_succ, List.getElem?_cons_zero,
        Option.some.injEq] at ht
      subst ht
      decide)
  obtain ⟨b1, i1⟩ := hb 1 1 ⟨gnarkIds.CoeffIdTwo, 3⟩ 2 rfl (by decide) (by rw [h2]; decide)
    (by
      intro j1 t1 hj ht
      have := (List.getElem?_eq_some_iff.mp ht).1
      simp only [bitsCons, List.length_cons, List.length_nil] at this
      omega)
  rw [e0] at b0
  rw [e1] at b1
  exact ⟨inst1, wv1, h, b0, b1, i0, i1⟩

/-- Scenario C evaluated: with coefficients one and two, `O = 3` gives the bit-wires
`[1, 1]` and `O = 2` gives `[0, 1]`. -/
theorem solveR1C_scenarioC :
    solveR1C gnarkIds (bitsGate gnarkIds gnarkPool) (bitsCons gnarkIds)
        [true, true, false, false] [1, 3, 0, 0] =
        .ok ([true, true, true, true], [1, 3, 1, 1]) ∧
      solveR1C gnarkIds (bitsGate gnarkIds gnarkPool) (bitsCons gnarkIds)
        [true, true, false, false] [1, 2, 0, 0] =
        .ok ([true, true, true, true], [1, 2, 0, 1]) := by
  decide!

/-! ## Coefficient fast paths -/

/-- The method `AddTerm` adds the coefficient of the term times the value. -/
theorem AddTerm_eq_coef (ids : CoeffIds) (r : R1CS) (res v : Element) (t : Term) :
    AddTerm ids r res t v =
      match coef ids r t with
      | .ok k => .ok (res + k * v)
      | .error e => .error e := by
  unfold AddTerm coef
  by_cases h1 : t.CoeffID = ids.CoeffIdOne
  · simp only [if_pos h1, one_mul]
  by_cases h2 : t.CoeffID = ids.CoeffIdMinusOne
  · simp only [if_neg h1, if_pos h2, neg_mul, one_mul, sub_eq_add_neg]
  by_cases h3 : t.CoeffID = ids.CoeffIdZero
  · simp only [if_neg h1, if_neg h2, if_pos h3, zero_mul, add_zero]
  by_cases h4 : t.CoeffID = ids.CoeffIdTwo
  · simp only [if_neg h1, if_neg h2, if_neg h3, if_pos h4]
  simp only [if_neg h1, if_neg h2, if_neg h3, if_neg h4]

/-- The method `mulWireByCoeff` multiplies by the coefficient of the term. -/
theorem mulWireByCoeff_eq_coef (ids : CoeffIds) (r : R1CS) (res : Element) (t : Term) :
    mulWireByCoeff ids r res t =
      match coef ids r t with
      | .ok k => .ok (res * k)
      | .error e => .error e := by
  unfold mulWireByCoeff coef
  by_cases h1 : t.CoeffID = ids.CoeffIdOne
  · simp only [if_pos h1, mul_one]
  by_cases h2 : t.CoeffID = ids.CoeffIdMinusOne
  · simp only [if_neg h1, if_pos h2, mul_neg, mul_one]
  by_cases h3 : t.CoeffID = ids.CoeffIdZero
  · simp only [if_neg h1, if_neg h2, if_pos h3, mul_zero]
  by_cases h4 : t.CoeffID = ids.CoeffIdTwo
  · simp only [if_neg h1, if_neg h2, if_neg h3, if_pos h4, mul_comm]
  simp only [if_neg h1, if_neg h2, if_neg h3, if_neg h4]

/-- When the pool stores the reserved constants at the reserved identifiers, the
coefficient of every term is its pool entry. -/
theorem coef_eq_index (ids : CoeffIds) (r : R1CS) (t : Term)
    (p1 : r.Coefficients[ids.CoeffIdOne]? = some 1)
    (p2 : r.Coefficients[ids.CoeffIdMinusOne]? = some (-1))
    (p3 : r.Coefficients[ids.CoeffIdZero]? = some 0)
    (p4 : r.Coefficients[ids.CoeffIdTwo]? = some 2) :
    coef ids r t = index r.Coefficients t.CoeffID := by
  unfold coef
  by_cases h1 : t.CoeffID = ids.CoeffIdOne
  · rw [if_pos h1, h1]; exact ((index_eq_ok _ _ _).mpr p1).symm
  rw [if_neg h1]
  by_cases h2 : t.CoeffID = ids.CoeffIdMinusOne
  · rw [if_pos h2, h2]; exact ((index_eq_ok _ _ _).mpr p2).symm
  rw [if_neg h2]
  by_cases h3 : t.CoeffID = ids.CoeffIdZero
  · rw [if_pos h3, h3]; exact ((index_eq_ok _ _ _).mpr p3).symm
  rw [if_neg h3]
  by_cases h4 : t.CoeffID = ids.CoeffIdTwo
  · rw [if_pos h4, h4]; exact ((index_eq_ok _ _ _).mpr p4).symm
  rw [if_neg h4]

/-- C13: for every accumulator `res`, value `v` and term `t`, `AddTerm` yields
`res + coef(t) * v` and `mulWireByCoeff` yields `res * coef(t)`, where `coef(t)` is one,
minus-one, zero, two for the reserved identifiers and `Coefficients[id]` otherwise;
hence, when the pool stores the reserved constants at the reserved identifiers, both
are the general multiply against `Coefficients[id]` for every identifier. -/
theorem AddTerm_mulWireByCoeff_coef (ids : CoeffIds) (r : R1CS) (res v : Element) (t : Term) :
    (AddTerm ids r res t v =
      match coef ids r t with
      | .ok k => .ok (res + k * v)
      | .error e => .error e) ∧
    (mulWireByCoeff ids r res t =
      match coef ids r t with
      | .ok k => .ok (res * k)
      | .error e => .error e) ∧
    (r.Coefficients[ids.CoeffIdOne]? = some 1 →
      r.Coefficients[ids.CoeffIdMinusOne]? = some (-1) →
      r.Coefficients[ids.CoeffIdZero]? = some 0 →
      r.Coefficients[ids.CoeffIdTwo]? = some 2 →
      (AddTerm ids r res t v =
        match index r.Coefficients t.CoeffID with
        | .ok k => .ok (res + k * v)
        | .error e => .error e) ∧
      (mulWireByCoeff ids r res t =
        match index r.Coefficients t.CoeffID with
        | .ok k => .ok (res * k)
        | .error e => .error e)) := by
  refine ⟨AddTerm_eq_coef ids r res v t, mulWireByCoeff_eq_coef ids r res t, ?_⟩
  intro p1 p2 p3 p4
  rw [← coef_eq_index ids r t p1 p2 p3 p4]
  exact ⟨AddTerm_eq_coef ids r res v t, mulWireByCoeff_eq_coef ids r res t⟩

/-- C13 at the pool of gnark: the reserved identifier for two multiplies by the pooled
`2`, as any pooled identifier does. -/
theorem AddTerm_mulWireByCoeff_coef_witness :
    (AddTerm gnarkIds (mulGate gnarkIds 1 gnarkPool) 5 ⟨2, 0⟩ 7 =
      match index gnarkPool 2 with
      | .ok k => .ok (5 + k * 7)
      | .error e => .error e) ∧
    (mulWireByCoeff gnarkIds (mulGate gnarkIds 1 gnarkPool) 5 ⟨2, 0⟩ =
      match index gnarkPool 2 with
      | .ok k => .ok (5 * k)
      | .error e => .error e) :=
  (AddTerm_mulWireByCoeff_coef gnarkIds (mulGate gnarkIds 1 gnarkPool) 5 7 ⟨2, 0⟩).2.2
    (by decide) (by decide) (by decide) (by decide)

/-! ## Debug messages -/

/-- The argument list of `logValue` on valid wires: one argument per wire, in order. -/
theorem resolveArgs_spec (wv : List Element) (inst : List Bool) (ids : List Nat)
    (h : ∀ id ∈ ids, id < inst.length ∧ id < wv.length) :
    ∃ args, resolveArgs wv inst ids = .ok args ∧ args.length = ids.length ∧
      ∀ (j id : Nat), ids[j]? = some id →
        (inst[id]? = some false → args[j]? = some "???") ∧
        (∀ v, inst[id]? = some true → wv[id]? = some v →
          args[j]? = some (ElementString v)) := by
  induction ids with
  | nil => exact ⟨[], rfl, rfl, fun j id hj => by simp at hj⟩
  | cons id0 rest ih =>
    obtain ⟨args, hargs, hlen, hspec⟩ := ih (fun id hid => h id (List.mem_cons_of_mem _ hid))
    obtain ⟨hi, hw⟩ := h id0 (List.mem_cons_self _ _)
    have hidx : index inst id0 = .ok (inst[id0]) := by
      rw [index_eq_ok]; exact List.getElem?_eq_getElem hi
    have hwv : index wv id0 = .ok (wv[id0]) := by
      rw [index_eq_ok]; exact List.getElem?_eq_getElem hw
    have hsome : inst[id0]? = some (inst[id0]) := List.getElem?_eq_getElem hi
    have hwsome : wv[id0]? = some (wv[id0]) := List.getElem?_eq_getElem hw
    unfold resolveArgs
    rw [hidx]
    cases hb : inst[id0] with
    | false =>
      dsimp only
      rw [hargs]
      refine ⟨"???" :: args, rfl, by simp [hlen], ?_⟩
      intro j id hj
      cases j with
      | zero =>
        simp only [List.getElem?_cons_zero, Option.some.injEq] at hj
        subst hj
        rw [hsome, hb]
        exact ⟨fun _ => by simp, fun v hv => by cases hv⟩
      | succ j =>
        simp only [List.getElem?_cons_succ] at hj ⊢
        exact hspec j id hj
    | true =>
      dsimp only
      rw [hwv]
      dsimp only
      rw [hargs]
      refine ⟨ElementString (wv[id0]) :: args, rfl, by simp [hlen], ?_⟩
      intro j id hj
      cases j with
      | zero =>
        simp only [List.getElem?_cons_zero, Option.some.injEq] at hj
        subst hj
        rw [hsome, hb, hwsome]
        constructor
        · intro hf; cases hf
        · intro v _ hv
          simp only [Option.some.injEq] at hv
          rw [hv]
          simp
      | succ j =>
        simp only [List.getElem?_cons_succ] at hj ⊢
        exact hspec j id hj

/-- C15: for an entry whose `ToResolve` holds valid wire indices, `logValue` passes
to the template one argument per wire, in order: the placeholder `???` for a wire not
marked known, the text of `wireValues[w]` for a known one.  (It returns the formatted
text only; the two slices are read, never written.) -/
theorem logValue_args (entry : LogEntry) (wv : List Element) (inst : List Bool)
    (h : ∀ id ∈ entry.ToResolve, id < inst.length ∧ id < wv.length) :
    ∃ args, logValue entry wv inst = .ok ⟨entry.Format, args⟩ ∧
      args.length = entry.ToResolve.length ∧
      ∀ (j id : Nat), entry.ToResolve[j]? = some id →
        (inst[id]? = some false → args[j]? = some "???") ∧
        (∀ v, inst[id]? = some true → wv[id]? = some v →
          args[j]? = some (ElementString v)) := by
  obtain ⟨args, hargs, hlen, hspec⟩ := resolveArgs_spec wv inst entry.ToResolve h
  refine ⟨args, ?_, hlen, hspec⟩
  unfold logValue
  rw [hargs]

/-- C15 at a concrete entry: wires `x = 3` known and `z` unknown. -/
theorem logValue_args_witness :
    ∃ args, logValue ⟨goString "%s and %s", [1, 3]⟩ [1, 3, 5, 0] [true, true, true, false] =
        .ok ⟨goString "%s and %s", args⟩ ∧
      args.length = 2 ∧ args[0]? = some "3" ∧ args[1]? = some "???" := by
  obtain ⟨args, h1, h2, h3⟩ := logValue_args ⟨goString "%s and %s", [1, 3]⟩ [1, 3, 5, 0]
    [true, true, true, false] (by decide)
  refine ⟨args, h1, h2, ?_, ?_⟩
  · have := (h3 0 1 rfl).2 3 rfl rfl
    rw [this]
    decide!
  · exact (h3 1 3 rfl).1 rfl

/-! ## Isolating the unknown wire -/

/-- A resolvable coefficient identifier has a coefficient. -/
theorem coef_total (ids : CoeffIds) (r : R1CS) (t : Term)
    (hc : coeffInRange ids r t = true) : ∃ k, coef ids r t = .ok k := by
  obtain ⟨x, hx⟩ := AddTerm_total ids r 0 t 1 hc
  rw [AddTerm_eq_coef] at hx
  cases hk : coef ids r t with
  | ok k => exact ⟨k, rfl⟩
  | error e => rw [hk] at hx; cases hx

/-- Adding to the accumulator adds to the sum. -/
theorem addTerms_shift (ids : CoeffIds) (r : R1CS) (wv : List Element) (d : Element)
    (ts : List Term) : ∀ acc a : Element, addTerms ids r wv ts acc = .ok a →
      addTerms ids r wv ts (acc + d) = .ok (a + d) := by
  induction ts with
  | nil =>
    intro acc a h
    simp only [addTerms, Except.ok.injEq] at h ⊢
    rw [h]
  | cons t ts ih =>
    intro acc a h
    unfold addTerms at h ⊢
    cases hv : index wv t.VariableID with
    | error e => rw [hv] at h; cases h
    | ok v =>
      rw [hv] at h
      dsimp only at h ⊢
      rw [AddTerm_eq_coef] at h ⊢
      cases hk : coef ids r t with
      | error e => rw [hk] at h; cases h
      | ok k =>
        rw [hk] at h
        dsimp only at h ⊢
        have := ih _ _ h
        rw [show acc + d + k * v = acc + k * v + d by ring]
        exact this

/-- With no unknown term, the known terms are all the terms. -/
theorem knownTerms_eq_self (inst : List Bool) (ts : List Term)
    (hr : ∀ t ∈ ts, t.VariableID < inst.length) (hu : unknownTerms inst ts = []) :
    knownTerms inst ts = ts := by
  unfold knownTerms
  rw [List.filter_eq_self]
  intro t ht
  rcases known_or_mem_unknownTerms inst ts t ht (hr t ht) with hk | hm
  · simp [hk]
  · rw [hu] at hm; cases hm

/-- A side without unknown term evaluates the same after a write to an unknown wire. -/
theorem addTerms_set_known (ids : CoeffIds) (r : R1CS) (inst : List Bool) (wv : List Element)
    (ts : List Term) (vid : Nat) (x acc : Element)
    (hr : ∀ t ∈ ts, t.VariableID < inst.length) (hu : unknownTerms inst ts = [])
    (hvid : inst[vid]? = some false) :
    addTerms ids r (wv.set vid x) ts acc = addTerms ids r wv ts acc := by
  apply addTerms_congr
  intro t ht
  rcases known_or_mem_unknownTerms inst ts t ht (hr t ht) with hk | hm
  · have hne : vid ≠ t.VariableID := by
      intro heq
      rw [heq, hk] at hvid
      cases hvid
    exact List.getElem?_set_ne hne
  · rw [hu] at hm; cases hm

/-- The side that holds the one unknown term `t` evaluates, after `x` was written to
its wire, to the sum of the known terms plus the coefficient of `t` times `x`. -/
theorem addTerms_set_unknown (ids : CoeffIds) (r : R1CS) (inst : List Bool) (wv : List Element)
    (t : Term) (k x : Element) (hk : coef ids r t = .ok k) (hlt : t.VariableID < wv.length)
    (ts : List Term) :
    ∀ acc a : Element, (∀ u ∈ ts, u.VariableID < inst.length) →
      unknownTerms inst ts = [t] → addTerms ids r wv (knownTerms inst ts) acc = .ok a →
      addTerms ids r (wv.set t.VariableID x) ts acc = .ok (a + k * x) := by
  induction ts with
  | nil =>
    intro acc a _ hu
    simp [unknownTerms] at hu
  | cons u ts ih =>
    intro acc a hr hu ha
    have hru : u.VariableID < inst.length := hr u (List.mem_cons_self _ _)
    have hr1 : ∀ v ∈ ts, v.VariableID < inst.length :=
      fun v hv => hr v (List.mem_cons_of_mem _ hv)
    have hsome : inst[u.VariableID]? = some (inst[u.VariableID]) := List.getElem?_eq_getElem hru
    have htf : inst[t.VariableID]? = some false :=
      (mem_unknownTerms inst (u :: ts) t (by rw [hu]; simp)).2
    cases hb : inst[u.VariableID] with
    | true =>
      rw [hb] at hsome
      obtain ⟨hu1, hk1⟩ := unknownTerms_cons_known inst u ts hsome
      rw [hu1] at hu
      rw [hk1] at ha
      unfold addTerms at ha ⊢
      have hne : t.VariableID ≠ u.VariableID := by
        intro heq
        rw [heq, hsome] at htf
        cases htf
      have hidx : index (wv.set t.VariableID x) u.VariableID = index wv u.VariableID := by
        unfold index
        rw [List.getElem?_set_ne hne]
      rw [hidx]
      cases hv : index wv u.VariableID with
      | error e => rw [hv] at ha; cases ha
      | ok v =>
        rw [hv] at ha
        dsimp only at ha ⊢
        cases hA : AddTerm ids r acc u v with
        | error e => rw [hA] at ha; cases ha
        | ok acc1 =>
          rw [hA] at ha
          dsimp only at ha ⊢
          exact ih acc1 a hr1 hu ha
    | false =>
      rw [hb] at hsome
      obtain ⟨hu1, hk1⟩ := unknownTerms_cons_unknown inst u ts hsome
      rw [hu1] at hu
      rw [hk1] at ha
      simp only [List.cons.injEq] at hu
      obtain ⟨hut, hnil⟩ := hu
      subst hut
      rw [knownTerms_eq_self inst ts hr1 hnil] at ha
      unfold addTerms
      have hidx : index (wv.set u.VariableID x) u.VariableID = .ok x := by
        rw [index_eq_ok]
        exact List.getElem?_set_self hlt
      rw [hidx]
      dsimp only
      rw [AddTerm_eq_coef, hk]
      dsimp only
      rw [addTerms_set_known ids r inst wv ts u.VariableID x _ hr1 hnil hsome]
      exact addTerms_shift ids r wv (k * x) ts acc a ha

/-- The three sides of a constraint with exactly one unknown term. -/
theorem unknownTerms_sides (inst : List Bool) (cons : R1C) (t : Term)
    (hu : unknownTerms inst cons.terms = [t]) :
    (unknownTerms inst cons.L = [t] ∧ unknownTerms inst cons.R = [] ∧
        unknownTerms inst cons.O = []) ∨
      (unknownTerms inst cons.L = [] ∧ unknownTerms inst cons.R = [t] ∧
        unknownTerms inst cons.O = []) ∨
      (unknownTerms inst cons.L = [] ∧ unknownTerms inst cons.R = [] ∧
        unknownTerms inst cons.O = [t]) := by
  simp only [R1C.terms, unknownTerms_append] at hu
  rcases hL : unknownTerms inst cons.L with _ | ⟨x, xs⟩
  · rw [hL] at hu
    rcases hR : unknownTerms inst cons.R with _ | ⟨y, ys⟩
    · rw [hR] at hu
      right; right
      exact ⟨rfl, rfl, by simpa using hu⟩
    · rw [hR] at hu
      simp only [List.nil_append, List.cons_append, List.cons.injEq, List.append_eq_nil] at hu
      obtain ⟨rfl, rfl, hO⟩ := hu
      right; left
      exact ⟨rfl, rfl, hO⟩
  · rw [hL] at hu
    simp only [List.cons_append, List.cons.injEq, List.append_eq_nil, List.append_assoc] at hu
    obtain ⟨rfl, rfl, hR, hO⟩ := hu
    left
    exact ⟨rfl, hR, hO⟩

/-- The run of the single-output solver on a constraint with exactly one unknown
term `t`, wires and coefficients in range: it returns, marks the wire of `t`, and
either computes it from the sums `a`, `b`, `c` of the known terms or, on a zero
divisor, leaves the values as they are. -/
theorem solveSingleOutput_one (ids : CoeffIds) (r : R1CS) (cons : R1C) (inst : List Bool)
    (wv : List Element) (t : Term) (hlen : inst.length = wv.length)
    (hwf : termsInRange ids r wv.length cons.terms = true)
    (hu : unknownTerms inst cons.terms = [t]) :
    ∃ wv1 a b c, solveSingleOutput ids r cons inst wv =
        .ok (inst.set t.VariableID true, wv1) ∧
      addTerms ids r wv (knownTerms inst cons.L) 0 = .ok a ∧
      addTerms ids r wv (knownTerms inst cons.R) 0 = .ok b ∧
      addTerms ids r wv (knownTerms inst cons.O) 0 = .ok c ∧
      ((unknownTerms inst cons.L = [t] ∧
          ((b ≠ 0 ∧ computeWire ids r wv t (ElementDiv c b - a) = .ok wv1) ∨
            (b = 0 ∧ wv1 = wv))) ∨
        (unknownTerms inst cons.R = [t] ∧
          ((a ≠ 0 ∧ computeWire ids r wv t (ElementDiv c a - b) = .ok wv1) ∨
            (a = 0 ∧ wv1 = wv))) ∨
        (unknownTerms inst cons.O = [t] ∧
          computeWire ids r wv t (a * b - c) = .ok wv1)) := by
  obtain ⟨-, htot⟩ := solveSingleOutput_total ids r cons inst wv hlen hwf
  obtain ⟨inst1, wv1, hok⟩ := htot (by rw [hu]; simp)
  obtain ⟨-, a, b, c, ha, hb, hc, hcase⟩ := solveSingleOutput_ok ids r cons inst inst1 wv wv1 hok
  rcases hcase with ⟨hnil, -, -⟩ | ⟨t1, ht1, hinst, hw⟩
  · rw [hu] at hnil; cases hnil
  · rw [hu] at ht1
    simp only [List.cons.injEq, and_true] at ht1
    subst ht1
    rw [hinst] at hok
    exact ⟨wv1, a, b, c, hok, ha, hb, hc, hw⟩

/-- The wires of every side of a constraint in range are in range. -/
theorem termsInRange_sides (ids : CoeffIds) (r : R1CS) (n : Nat) (cons : R1C)
    (hwf : termsInRange ids r n cons.terms = true) :
    (∀ t ∈ cons.L, t.VariableID < n ∧ coeffInRange ids r t = true) ∧
      (∀ t ∈ cons.R, t.VariableID < n ∧ coeffInRange ids r t = true) ∧
      (∀ t ∈ cons.O, t.VariableID < n ∧ coeffInRange ids r t = true) := by
  rw [termsInRange_iff] at hwf
  exact ⟨fun t ht => hwf t (by simp [R1C.terms, ht]), fun t ht => hwf t (by simp [R1C.terms, ht]),
    fun t ht => hwf t (by simp [R1C.terms, ht])⟩

/-- C17 as stated fails: in `x * y = y` with `y = 0` and `x` unknown the divisor is zero;
the solver leaves the value `5` of the wire `x` but marks it known, and a later
constraint `x * ONE = ONE` in which `x` would be the only unknown wire leaves it at
`5`. -/
theorem solveSingleOutput_skip_marks_known :
    solveSingleOutput gnarkIds (skipGate gnarkIds gnarkPool) (skipCons gnarkIds)
        [true, true, false] [1, 0, 5] = .ok ([true, true, true], [1, 0, 5]) ∧
      solveSingleOutput gnarkIds (skipGate gnarkIds gnarkPool) (isOneCons gnarkIds)
        [true, true, true] [1, 0, 5] = .ok ([true, true, true], [1, 0, 5]) := by
  decide!

/-- C17, amended: when the one unknown term `t` of a single-output constraint (wires
and coefficients in range) is on `L` and `R` evaluates to zero, or on `R` and `L`
evaluates to zero, the solver raises no failure and leaves every wire value as it
was, but it marks the wire of `t` known; a later single-output solve therefore never
computes it: the wire keeps the value it had. -/
theorem solveSingleOutput_zero_divisor (ids : CoeffIds) (r : R1CS) (cons : R1C)
    (inst : List Bool) (wv : List Element) (t : Term) (hlen : inst.length = wv.length)
    (hwf : termsInRange ids r wv.length cons.terms = true)
    (hu : unknownTerms inst cons.terms = [t])
    (hside : (unknownTerms inst cons.L = [t] ∧ addTerms ids r wv cons.R 0 = .ok 0) ∨
      (unknownTerms inst cons.R = [t] ∧ addTerms ids r wv cons.L 0 = .ok 0)) :
    solveSingleOutput ids r cons inst wv = .ok (inst.set t.VariableID true, wv) ∧
      (inst.set t.VariableID true)[t.VariableID]? = some true ∧
      ∀ (cons2 : R1C) (inst2 : List Bool) (wv2 : List Element),
        solveSingleOutput ids r cons2 (inst.set t.VariableID true) wv = .ok (inst2, wv2) →
        wv2[t.VariableID]? = wv[t.VariableID]? := by
  obtain ⟨hrL, hrR, hrO⟩ := termsInRange_sides ids r wv.length cons hwf
  have hlt : t.VariableID < inst.length := by
    have hm : t ∈ unknownTerms inst cons.terms := by rw [hu]; simp
    have := (mem_unknownTerms inst cons.terms t hm).2
    exact (List.getElem?_eq_some_iff.mp this).1
  have hmark : (inst.set t.VariableID true)[t.VariableID]? = some true :=
    List.getElem?_set_self hlt
  obtain ⟨wv1, a, b, c, hok, ha, hb, hc, hcase⟩ :=
    solveSingleOutput_one ids r cons inst wv t hlen hwf hu
  have hwv : wv1 = wv := by
    rcases unknownTerms_sides inst cons t hu with ⟨hL, hR, hO⟩ | ⟨hL, hR, hO⟩ | ⟨hL, hR, hO⟩
    · rcases hside with ⟨-, hzero⟩ | ⟨hR1, -⟩
      · rw [knownTerms_eq_self inst cons.R (fun u hu1 => by rw [hlen]; exact (hrR u hu1).1) hR,
          hzero] at hb
        simp only [Except.ok.injEq] at hb
        rcases hcase with ⟨-, ⟨hb0, -⟩ | ⟨-, h⟩⟩ | ⟨hR2, -⟩ | ⟨hO2, -⟩
        · exact absurd hb.symm hb0
        · exact h
        · rw [hR] at hR2; cases hR2
        · rw [hO] at hO2; cases hO2
      · rw [hR] at hR1; cases hR1
    · rcases hside with ⟨hL1, -⟩ | ⟨-, hzero⟩
      · rw [hL] at hL1; cases hL1
      · rw [knownTerms_eq_self inst cons.L (fun u hu1 => by rw [hlen]; exact (hrL u hu1).1) hL,
          hzero] at ha
        simp only [Except.ok.injEq] at ha
        rcases hcase with ⟨hL2, -⟩ | ⟨-, ⟨ha0, -⟩ | ⟨-, h⟩⟩ | ⟨hO2, -⟩
        · rw [hL] at hL2; cases hL2
        · exact absurd ha.symm ha0
        · exact h
        · rw [hO] at hO2; cases hO2
    · rcases hside with ⟨hL1, -⟩ | ⟨hR1, -⟩
      · rw [hL] at hL1; cases hL1
      · rw [hR] at hR1; cases hR1
  rw [hwv] at hok
  refine ⟨hok, hmark, ?_⟩
  intro cons2 inst2 wv2 h2
  obtain ⟨-, -, hkeep, -⟩ := solveSingleOutput_changes ids r cons2 _ _ _ _ h2
  exact (hkeep t.VariableID hmark).2

/-- C17, amended, at a concrete input: `x * y = y` with `y = 0` and `x` unknown. -/
theorem solveSingleOutput_zero_divisor_witness :
    solveSingleOutput gnarkIds (skipGate gnarkIds gnarkPool) (skipCons gnarkIds)
        [true, true, false] [1, 0, 5] = .ok ([true, true, true], [1, 0, 5]) ∧
      ([true, true, true] : List Bool)[2]? = some true ∧
      ∀ (cons2 : R1C) (inst2 : List Bool) (wv2 : List Element),
        solveSingleOutput gnarkIds (skipGate gnarkIds gnarkPool) cons2 [true, true, true]
          [1, 0, 5] = .ok (inst2, wv2) →
        wv2[2]? = ([1, 0, 5] : List Element)[2]? :=
  solveSingleOutput_zero_divisor gnarkIds (skipGate gnarkIds gnarkPool) (skipCons gnarkIds)
    [true, true, false] [1, 0, 5] ⟨gnarkIds.CoeffIdOne, 2⟩ (by decide) (by decide) (by decide)
    (Or.inl ⟨by decide, by decide!⟩)

/-- What `computeWire` writes: the value times the coefficient of the term. -/
theorem computeWire_coef (ids : CoeffIds) (r : R1CS) (wv wv1 : List Element) (t : Term)
    (v k : Element) (hk : coef ids r t = .ok k) (h : computeWire ids r wv t v = .ok wv1) :
    wv1 = wv.set t.VariableID (v * k) ∧ t.VariableID < wv.length := by
  rw [computeWire_eq_ok] at h
  obtain ⟨v1, hm, hlt, hw⟩ := h
  rw [mulWireByCoeff_eq_coef, hk] at hm
  simp only [Except.ok.injEq] at hm
  rw [← hm] at hw
  exact ⟨hw, hlt⟩

/-- C18: for a single-output constraint (wires and coefficients in range) with exactly
one term `t` on an unknown wire, the coefficient of `t` being one or minus-one and the
divisor side nonzero when `t` is in `L` or `R`: the solver returns, the wire of `t`
is marked known, and the constraint holds on the new wire values, `(L.w) * (R.w) =
O.w`, whatever the slot of the wire held before. -/
theorem solveSingleOutput_solves (ids : CoeffIds) (r : R1CS) (cons : R1C) (inst : List Bool)
    (wv : List Element) (t : Term) (hlen : inst.length = wv.length)
    (hwf : termsInRange ids r wv.length cons.terms = true)
    (hu : unknownTerms inst cons.terms = [t])
    (hk : coef ids r t = .ok 1 ∨ coef ids r t = .ok (-1))
    (hdivL : unknownTerms inst cons.L = [t] →
      ∀ b, addTerms ids r wv cons.R 0 = .ok b → b ≠ 0)
    (hdivR : unknownTerms inst cons.R = [t] →
      ∀ a, addTerms ids r wv cons.L 0 = .ok a → a ≠ 0) :
    ∃ inst1 wv1, solveSingleOutput ids r cons inst wv = .ok (inst1, wv1) ∧
      inst1[t.VariableID]? = some true ∧
      ∃ x y z, instantiateR1C ids cons r wv1 = .ok (x, y, z) ∧ x * y = z := by
  obtain ⟨hrL, hrR, hrO⟩ := termsInRange_sides ids r wv.length cons hwf
  have hiL : ∀ u ∈ cons.L, u.VariableID < inst.length :=
    fun u hu1 => by rw [hlen]; exact (hrL u hu1).1
  have hiR : ∀ u ∈ cons.R, u.VariableID < inst.length :=
    fun u hu1 => by rw [hlen]; exact (hrR u hu1).1
  have hiO : ∀ u ∈ cons.O, u.VariableID < inst.length :=
    fun u hu1 => by rw [hlen]; exact (hrO u hu1).1
  have htf : inst[t.VariableID]? = some false :=
    (mem_unknownTerms inst cons.terms t (by rw [hu]; simp)).2
  have hlt : t.VariableID < inst.length := (List.getElem?_eq_some_iff.mp htf).1
  obtain ⟨k, hkk, hk2⟩ : ∃ k, coef ids r t = .ok k ∧ k * k = 1 := by
    rcases hk with h | h
    · exact ⟨1, h, by ring⟩
    · exact ⟨-1, h, by ring⟩
  obtain ⟨wv1, a, b, c, hok, ha, hb, hc, hcase⟩ :=
    solveSingleOutput_one ids r cons inst wv t hlen hwf hu
  refine ⟨_, wv1, hok, List.getElem?_set_self hlt, ?_⟩
  unfold instantiateR1C
  rcases unknownTerms_sides inst cons t hu with ⟨hL, hR, hO⟩ | ⟨hL, hR, hO⟩ | ⟨hL, hR, hO⟩
  · have hbR : addTerms ids r wv cons.R 0 = .ok b := by
      rw [knownTerms_eq_self inst cons.R hiR hR] at hb; exact hb
    have hcO : addTerms ids r wv cons.O 0 = .ok c := by
      rw [knownTerms_eq_self inst cons.O hiO hO] at hc; exact hc
    have hb0 : b ≠ 0 := hdivL hL b hbR
    rcases hcase with ⟨-, ⟨-, hcw⟩ | ⟨hz, -⟩⟩ | ⟨hR2, -⟩ | ⟨hO2, -⟩
    · obtain ⟨hw1, hltw⟩ := computeWire_coef ids r wv wv1 t _ k hkk hcw
      rw [hw1, addTerms_set_unknown ids r inst wv t k _ hkk hltw cons.L 0 a hiL hL ha]
      dsimp only
      rw [addTerms_set_known ids r inst wv cons.R _ _ _ hiR hR htf, hbR]
      dsimp only
      rw [addTerms_set_known ids r inst wv cons.O _ _ _ hiO hO htf, hcO]
      refine ⟨_, _, _, rfl, ?_⟩
      unfold ElementDiv
      have e : a + k * ((c * b⁻¹ - a) * k) = c * b⁻¹ := by
        have : k * ((c * b⁻¹ - a) * k) = (k * k) * (c * b⁻¹ - a) := by ring
        rw [this, hk2]; ring
      rw [e, mul_assoc, inv_mul_cancel₀ hb0, mul_one]
    · exact absurd hz hb0
    · rw [hR] at hR2; cases hR2
    · rw [hO] at hO2; cases hO2
  · have haL : addTerms ids r wv cons.L 0 = .ok a := by
      rw [knownTerms_eq_self inst cons.L hiL hL] at ha; exact ha
    have hcO : addTerms ids r wv cons.O 0 = .ok c := by
      rw [knownTerms_eq_self inst cons.O hiO hO] at hc; exact hc
    have ha0 : a ≠ 0 := hdivR hR a haL
    rcases hcase with ⟨hL2, -⟩ | ⟨-, ⟨-, hcw⟩ | ⟨hz, -⟩⟩ | ⟨hO2, -⟩
    · rw [hL] at hL2; cases hL2
    · obtain ⟨hw1, hltw⟩ := computeWire_coef ids r wv wv1 t _ k hkk hcw
      rw [hw1, addTerms_set_known ids r inst wv cons.L _ _ _ hiL hL htf, haL]
      dsimp only
      rw [addTerms_set_unknown ids r inst wv t k _ hkk hltw cons.R 0 b hiR hR hb]
      dsimp only
      rw [addTerms_set_known ids r inst wv cons.O _ _ _ hiO hO htf, hcO]
      refine ⟨_, _, _, rfl, ?_⟩
      unfold ElementDiv
      have e : b + k * ((c * a⁻¹ - b) * k) = c * a⁻¹ := by
        have : k * ((c * a⁻¹ - b) * k) = (k * k) * (c * a⁻¹ - b) := by ring
        rw [this, hk2]; ring
      rw [e, mul_comm a, mul_assoc, inv_mul_cancel₀ ha0, mul_one]
    · exact absurd hz ha0
    · rw [hO] at hO2; cases hO2
  · have haL : addTerms ids r wv cons.L 0 = .ok a := by
      rw [knownTerms_eq_self inst cons.L hiL hL] at ha; exact ha
    have hbR : addTerms ids r wv cons.R 0 = .ok b := by
      rw [knownTerms_eq_self inst cons.R hiR hR] at hb; exact hb
    rcases hcase with ⟨hL2, -⟩ | ⟨hR2, -⟩ | ⟨-, hcw⟩
    · rw [hL] at hL2; cases hL2
    · rw [hR] at hR2; cases hR2
    · obtain ⟨hw1, hltw⟩ := computeWire_coef ids r wv wv1 t _ k hkk hcw
      rw [hw1, addTerms_set_known ids r inst wv cons.L _ _ _ hiL hL htf, haL]
      dsimp only
      rw [addTerms_set_known ids r inst wv cons.R _ _ _ hiR hR htf, hbR]
      dsimp only
      rw [addTerms_set_unknown ids r inst wv t k _ hkk hltw cons.O 0 c hiO hO hc]
      refine ⟨_, _, _, rfl, ?_⟩
      have : k * ((a * b - c) * k) = (k * k) * (a * b - c) := by ring
      rw [this, hk2]; ring

/-- C18 at a concrete input: `x * ONE = ONE` with `x` unknown on `L`, the slot of `x`
holding `5`. -/
theorem solveSingleOutput_solves_witness :
    ∃ inst1 wv1, solveSingleOutput gnarkIds (skipGate gnarkIds gnarkPool) (isOneCons gnarkIds)
        [true, true, false] [1, 0, 5] = .ok (inst1, wv1) ∧
      inst1[2]? = some true ∧
      ∃ x y z, instantiateR1C gnarkIds (isOneCons gnarkIds) (skipGate gnarkIds gnarkPool) wv1 =
        .ok (x, y, z) ∧ x * y = z :=
  solveSingleOutput_solves gnarkIds (skipGate gnarkIds gnarkPool) (isOneCons gnarkIds)
    [true, true, false] [1, 0, 5] ⟨gnarkIds.CoeffIdOne, 2⟩ (by decide) (by decide)
    (by decide) (Or.inl (by decide))
    (fun _ b hb => by
      have h1 : addTerms gnarkIds (skipGate gnarkIds gnarkPool) [1, 0, 5]
          (isOneCons gnarkIds).R 0 = .ok 1 := by decide!
      rw [h1] at hb
      simp only [Except.ok.injEq] at hb
      rw [← hb]
      decide!)
    (fun h => absurd h (by decide))

/-! ## The last bit and the recomposition of the bits -/

/-- C11 (the code at the failing inputs): with the single coefficient `3`, not a power
of two, `quickLog` returns the last position `0` of `bitSlice`, and the wire gets bit
`0` of `n = 1`, which is `1`, not `0`; with the coefficient `0` the solver aborts in
`quickLog`. -/
theorem solveR1C_binaryDec_last_bit :
    quickLog 1 (ToBigIntRegular (3 : Element)) = .ok 0 ∧
      solveR1C gnarkIds (pooledBitGate gnarkIds (gnarkPool ++ [3])) (pooledBitCons gnarkIds)
        [true, false] [1, 0] = .ok ([true, true], [1, 1]) ∧
      solveR1C gnarkIds (pooledBitGate gnarkIds (gnarkPool ++ [0])) (pooledBitCons gnarkIds)
        [true, false] [1, 0] = .error .shiftOutOfRange := by
  decide!

/-- The low bits of an integer, weighted by the powers of two, sum to its residue. -/
theorem sum_bits (bigN : Nat) (m : Nat) :
    ((List.range m).map fun k => 2 ^ k * (Nat.testBit bigN k).toNat).sum = bigN % 2 ^ m := by
  induction m with
  | zero => simp [Nat.mod_one]
  | succ m ih =>
    rw [List.range_succ, List.map_append, List.sum_append, ih, Nat.mod_pow_succ]
    simp [Nat.toNat_testBit]

/-- A linear combination is the accumulator plus the sum of the values of its terms. -/
theorem addTerms_eq_sum (ids : CoeffIds) (r : R1CS) (wv : List Element) (F : Term → Element)
    (ts : List Term) :
    ∀ acc : Element,
      (∀ t ∈ ts, ∃ k v, coef ids r t = .ok k ∧ wv[t.VariableID]? = some v ∧ k * v = F t) →
      addTerms ids r wv ts acc = .ok (acc + (ts.map F).sum) := by
  induction ts with
  | nil => intro acc _; simp [addTerms]
  | cons t ts ih =>
    intro acc h
    obtain ⟨k, v, hk, hv, hF⟩ := h t (List.mem_cons_self _ _)
    unfold addTerms
    rw [(index_eq_ok _ _ _).mpr hv]
    dsimp only
    rw [AddTerm_eq_coef, hk]
    dsimp only
    rw [ih _ (fun u hu => h u (List.mem_cons_of_mem _ hu)), hF, List.map_cons, List.sum_cons,
      add_assoc]

/-- A term whose coefficient integer is a power of two has a coefficient. -/
theorem coef_of_coefInt (ids : CoeffIds) (r : R1CS) (t : Term) (k : Nat)
    (h : coefInt ids r t = 2 ^ k) : ∃ c, coef ids r t = .ok c ∧ ToBigIntRegular c = 2 ^ k := by
  unfold coefInt at h
  cases hc : coef ids r t with
  | ok c => rw [hc] at h; exact ⟨c, rfl, h⟩
  | error e =>
    rw [hc] at h
    have : (2 : Nat) ^ k ≠ 0 := by positivity
    exact absurd h.symm this

/-- C12 as stated fails: with a pool that holds `2` at the identifier reserved for one
and `1` at the identifier reserved for two, the two terms of `L` have the coefficients
`1` and `2` on distinct wires outside `O`, and `n = 2 < 4`; the solver writes the bits
`[1, 0]`, on which `L` evaluates to `1` and `O` to `2`. -/
theorem solveR1C_binaryDec_not_recomposed :
    (bitsCons gnarkIds).L.map (coefInt gnarkIds (bitsGate gnarkIds swappedPool)) = [1, 2] ∧
      solveR1C gnarkIds (bitsGate gnarkIds swappedPool) (bitsCons gnarkIds)
        [true, true, false, false] [1, 2, 0, 0] =
        .ok ([true, true, true, true], [1, 2, 1, 0]) ∧
      addTerms gnarkIds (bitsGate gnarkIds swappedPool) [1, 2, 1, 0]
        (bitsCons gnarkIds).L 0 = .ok 1 ∧
      addTerms gnarkIds (bitsGate gnarkIds swappedPool) [1, 2, 1, 0]
        (bitsCons gnarkIds).O 0 = .ok 2 ∧
      (1 : Element) ≠ 2 := by
  decide!

/-- C12, amended: for a bit-decomposition constraint with `m = len(L)` terms on
pairwise distinct wires in range, none of which occurs in `O`, whose coefficients are
exactly the powers `2 ^ 0, ..., 2 ^ (m - 1)` in any order and are the pool entries of
their identifiers, and with `O` evaluating to `n` of canonical integer below `2 ^ m`:
the solver returns, every wire of `L` is `0` or `1`, and `L` evaluates on the new wire
values to `n`, as `O` does. -/
theorem solveR1C_binaryDec_recomposes (ids : CoeffIds) (r : R1CS) (cons : R1C)
    (inst : List Bool) (wv : List Element) (n : Element) (hS : cons.Solver = .BinaryDec)
    (hlen : inst.length = wv.length) (hO : addTerms ids r wv cons.O 0 = .ok n)
    (hrange : ∀ t ∈ cons.L, t.VariableID < wv.length)
    (hdistinct : (cons.L.map Term.VariableID).Nodup)
    (hnotO : ∀ t ∈ cons.L, ∀ u ∈ cons.O, u.VariableID ≠ t.VariableID)
    (hpool : ∀ t ∈ cons.L, coef ids r t = index r.Coefficients t.CoeffID)
    (hpow : (cons.L.map (coefInt ids r)).Perm ((List.range cons.L.length).map (2 ^ ·)))
    (hn : ToBigIntRegular n < 2 ^ cons.L.length) :
    ∃ inst1 wv1, solveR1C ids r cons inst wv = .ok (inst1, wv1) ∧
      (∀ t ∈ cons.L, wv1[t.VariableID]? = some 0 ∨ wv1[t.VariableID]? = some 1) ∧
      addTerms ids r wv1 cons.L 0 = .ok n ∧ addTerms ids r wv1 cons.O 0 = .ok n := by
  have hexp : ∀ t ∈ cons.L, ∃ k c, k < cons.L.length ∧ coefInt ids r t = 2 ^ k ∧
      coef ids r t = .ok c ∧ ToBigIntRegular c = 2 ^ k := by
    intro t ht
    have hm : coefInt ids r t ∈ (List.range cons.L.length).map (2 ^ ·) :=
      hpow.mem_iff.mp (List.mem_map_of_mem _ ht)
    obtain ⟨k, hk, hk2⟩ := List.mem_map.mp hm
    obtain ⟨c, hc, hv⟩ := coef_of_coefInt ids r t k hk2.symm
    exact ⟨k, c, List.mem_range.mp hk, hk2.symm, hc, hv⟩
  have hL : ∀ t ∈ cons.L, t.VariableID < wv.length ∧
      ∃ c, r.Coefficients[t.CoeffID]? = some c ∧ ToBigIntRegular c ≠ 0 ∧
        ∀ k, ToBigIntRegular c = 2 ^ k → k < cons.L.length := by
    intro t ht
    obtain ⟨k, c, hk, -, hc, hv⟩ := hexp t ht
    refine ⟨hrange t ht, c, ?_, ?_, ?_⟩
    · rw [hpool t ht] at hc
      exact (index_eq_ok _ _ _).mp hc
    · rw [hv]; positivity
    · intro k1 hk1
      rw [hv] at hk1
      have := Nat.pow_right_injective (le_refl 2) hk1
      omega
  obtain ⟨inst1, wv1, h, -, -, hframe, hbits⟩ := assignBits_spec r (ToBigIntRegular n)
    cons.L.length cons.L inst wv hlen hL (fun h => List.length_pos.mpr h)
  have hval : ∀ t ∈ cons.L, ∀ (c : Element) (k : Nat), coef ids r t = .ok c →
      ToBigIntRegular c = 2 ^ k →
      wv1[t.VariableID]? =
        some (((Nat.testBit (ToBigIntRegular n) k).toNat : Nat) : Element) := by
    intro t ht c k hc hv
    obtain ⟨j, hj⟩ := List.mem_iff_getElem?.mp ht
    have hjlt : j < cons.L.length := (List.getElem?_eq_some_iff.mp hj).1
    rw [hpool t ht] at hc
    refine (hbits j k t c hj ((index_eq_ok _ _ _).mp hc) hv ?_).1
    intro j1 t1 hjj1 hj1 heq
    have hj1lt : j1 < cons.L.length := (List.getElem?_eq_some_iff.mp hj1).1
    have hne := (List.nodup_iff_getElem?_ne_getElem?.mp hdistinct) j j1 hjj1
      (by simpa using hj1lt)
    apply hne
    rw [List.getElem?_map, List.getElem?_map, hj, hj1, Option.map_some', Option.map_some', heq]
  refine ⟨inst1, wv1, ?_, ?_, ?_, ?_⟩
  · unfold solveR1C
    rw [hS]
    dsimp only
    unfold solveBinaryDec
    rw [hO]
    exact h
  · intro t ht
    obtain ⟨k, c, -, -, hc, hv⟩ := hexp t ht
    rw [hval t ht c k hc hv]
    cases Nat.testBit (ToBigIntRegular n) k
    · left; simp
    · right; simp
  · rw [addTerms_eq_sum ids r wv1 (fun t => ((coefInt ids r t : Nat) : Element) *
        (((Nat.testBit (ToBigIntRegular n) (Nat.log 2 (coefInt ids r t))).toNat : Nat) :
          Element)) cons.L 0 ?_]
    · have hmap : cons.L.map (fun t => ((coefInt ids r t : Nat) : Element) *
          (((Nat.testBit (ToBigIntRegular n) (Nat.log 2 (coefInt ids r t))).toNat : Nat) :
            Element)) =
          (cons.L.map (coefInt ids r)).map (fun v => ((v : Nat) : Element) *
            (((Nat.testBit (ToBigIntRegular n) (Nat.log 2 v)).toNat : Nat) : Element)) := by
        rw [List.map_map]; rfl
      rw [hmap, (hpow.map _).sum_eq, List.map_map]
      have hcast : (List.range cons.L.length).map
          ((fun v => ((v : Nat) : Element) *
            (((Nat.testBit (ToBigIntRegular n) (Nat.log 2 v)).toNat : Nat) : Element)) ∘
            (2 ^ ·)) =
          ((List.range cons.L.length).map
            fun k => 2 ^ k * (Nat.testBit (ToBigIntRegular n) k).toNat).map
            (Nat.cast : Nat → Element) := by
        rw [List.map_map]
        apply List.map_congr_left
        intro k _
        simp only [Function.comp, Nat.log_pow (by decide : 1 < 2), Nat.cast_mul]
      rw [hcast, ← Nat.cast_list_sum, sum_bits, Nat.mod_eq_of_lt hn, zero_add]
      congr 1
      exact ZMod.natCast_zmod_val n
    · intro t ht
      obtain ⟨k, c, -, hci, hc, hv⟩ := hexp t ht
      refine ⟨c, _, hc, hval t ht c k hc hv, ?_⟩
      dsimp only
      rw [hci, Nat.log_pow (by decide : 1 < 2), ← hv]
      congr 1
      exact (ZMod.natCast_zmod_val c).symm
  · rw [addTerms_congr ids r wv wv1 cons.O ?_ 0]
    · exact hO
    · intro u hu
      exact (hframe u.VariableID (fun t ht => (hnotO t ht u hu).symm)).1

/-- C12, amended, at scenario C: with coefficients one and two and `O = 3` the solver
writes bits on which `L` evaluates to `3`, as `O` does. -/
theorem solveR1C_binaryDec_recomposes_witness :
    ∃ inst1 wv1, solveR1C gnarkIds (bitsGate gnarkIds gnarkPool) (bitsCons gnarkIds)
        [true, true, false, false] [1, 3, 0, 0] = .ok (inst1, wv1) ∧
      (∀ t ∈ (bitsCons gnarkIds).L, wv1[t.VariableID]? = some 0 ∨
        wv1[t.VariableID]? = some 1) ∧
      addTerms gnarkIds (bitsGate gnarkIds gnarkPool) wv1 (bitsCons gnarkIds).L 0 = .ok 3 ∧
      addTerms gnarkIds (bitsGate gnarkIds gnarkPool) wv1 (bitsCons gnarkIds).O 0 = .ok 3 :=
  solveR1C_binaryDec_recomposes gnarkIds (bitsGate gnarkIds gnarkPool) (bitsCons gnarkIds)
    [true, true, false, false] [1, 3, 0, 0] 3 rfl rfl (by decide!) (by decide!) (by decide!)
    (by decide!) (by decide!) (by decide!) (by decide!)

/-! ## The input wires -/

/-- The marking loop keeps the length, keeps every flag that is set, and sets the
flags `i + 1, ..., i + steps`, which are all in range. -/
theorem markWitness_spec (steps : Nat) : ∀ (i : Nat) (inst inst2 : List Bool),
    markWitness steps i inst = .ok inst2 →
    inst2.length = inst.length ∧ (steps = 0 ∨ i + steps < inst.length) ∧
    ∀ j : Nat, (inst[j]? = some true ∨ (i < j ∧ j ≤ i + steps)) → inst2[j]? = some true := by
  induction steps with
  | zero =>
    intro i inst inst2 h
    simp only [markWitness, Except.ok.injEq] at h
    subst h
    refine ⟨rfl, Or.inl rfl, ?_⟩
    rintro j (hj | hj)
    · exact hj
    · omega
  | succ k ih =>
    intro i inst inst2 h
    unfold markWitness at h
    cases ha : assign inst (i + 1) true with
    | error e => rw [ha] at h; cases h
    | ok inst1 =>
      rw [ha] at h
      dsimp only at h
      obtain ⟨hlt, hset⟩ := (assign_eq_ok _ _ _ _).mp ha
      obtain ⟨hl, hb, hflags⟩ := ih _ _ _ h
      have hl1 : inst1.length = inst.length := by rw [hset, List.length_set]
      refine ⟨hl.trans hl1, Or.inr (by omega), ?_⟩
      intro j hj
      apply hflags
      by_cases hji : j = i + 1
      · left
        subst hji
        rw [hset, List.getElem?_set_self hlt]
      · rcases hj with hj | hj
        · left
          rw [hset, List.getElem?_set_ne (Ne.symm hji)]
          exact hj
        · right; omega

/-- The initialisation of `Solve` on a wire vector of `nbWires` entries: the ONE wire
holds `1`, the witness follows it, and the flags of these wires are set. -/
theorem initWires_spec (r : R1CS) (witness wv : List Element) (inst0 : List Bool)
    (w0 : List Element) (h : initWires r witness wv = .ok (inst0, w0))
    (hlen : (wv.length : Int) = nbWires r) :
    w0.length = wv.length ∧ inst0.length = wv.length ∧ w0[0]? = some 1 ∧
      (∀ i : Nat, i < witness.length → w0[1 + i]? = witness[i]?) ∧
      (∀ j : Nat, j ≤ witness.length → inst0[j]? = some true) := by
  unfold initWires at h
  have hn : (nbWires r).toNat = wv.length := by omega
  rw [hn] at h
  cases h1 : assign (List.replicate wv.length false) 0 true with
  | error e => rw [h1] at h; cases h
  | ok inst1 =>
    rw [h1] at h
    dsimp only at h
    obtain ⟨hpos, hinst1⟩ := (assign_eq_ok _ _ _ _).mp h1
    rw [List.length_replicate] at hpos
    cases h2 : assign wv 0 (1 : Element) with
    | error e => rw [h2] at h; cases h
    | ok wv1 =>
      rw [h2] at h
      dsimp only at h
      obtain ⟨-, hwv1⟩ := (assign_eq_ok _ _ _ _).mp h2
      cases h3 : markWitness witness.length 0 inst1 with
      | error e => rw [h3] at h; cases h
      | ok inst2 =>
        rw [h3] at h
        simp only [Except.ok.injEq, Prod.mk.injEq] at h
        obtain ⟨hi, hw⟩ := h
        obtain ⟨hl, hb, hflags⟩ := markWitness_spec _ _ _ _ h3
        have hl1 : inst1.length = wv.length := by
          rw [hinst1, List.length_set, List.length_replicate]
        have hfit : witness.length + 1 ≤ wv.length := by omega
        subst hi
        cases wv with
        | nil => simp at hpos
        | cons x xs =>
          have hfit1 : witness.length ≤ xs.length := by
            simp only [List.length_cons] at hfit; omega
          have hw0 : w0 = 1 :: (witness ++ xs.drop witness.length) := by
            rw [← hw, hwv1]
            simp only [List.set_cons_zero, copy, List.take_succ_cons, List.take_zero,
              List.drop_succ_cons, List.drop_zero, List.singleton_append,
              List.take_of_length_le hfit1]
          refine ⟨?_, hl.trans hl1, ?_, ?_, ?_⟩
          · rw [hw0]
            simp only [List.length_cons, List.length_append, List.length_drop]
            omega
          · rw [hw0]; simp
          · intro i hi
            rw [hw0, Nat.add_comm, List.getElem?_cons_succ, List.getElem?_append_left hi]
          · intro j hj
            apply hflags
            rcases Nat.eq_zero_or_pos j with h0 | h0
            · left
              subst h0
              rw [hinst1, List.getElem?_set_self (by simp)]
            · right; omega

/-- A returning bit assignment leaves every wire outside its terms as it was. -/
theorem assignBits_frame (r : R1CS) (bits : List Nat) (nbBits : Nat) (ts : List Term) :
    ∀ (inst : List Bool) (wv : List Element) (inst1 : List Bool) (wv1 : List Element),
      assignBits r bits nbBits ts inst wv = .ok (inst1, wv1) →
      ∀ id : Nat, (∀ t ∈ ts, t.VariableID ≠ id) →
        wv1[id]? = wv[id]? ∧ inst1[id]? = inst[id]? := by
  induction ts with
  | nil =>
    intro inst wv inst1 wv1 h id _
    simp only [assignBits, Except.ok.injEq, Prod.mk.injEq] at h
    obtain ⟨rfl, rfl⟩ := h
    exact ⟨rfl, rfl⟩
  | cons t ts ih =>
    intro inst wv inst1 wv1 h id hid
    unfold assignBits at h
    cases h1 : index r.Coefficients t.CoeffID with
    | error e => rw [h1] at h; cases h
    | ok k =>
      rw [h1] at h
      dsimp only at h
      cases h2 : quickLog nbBits (ToBigIntRegular k) with
      | error e => rw [h2] at h; cases h
      | ok ithBit =>
        rw [h2] at h
        dsimp only at h
        cases h3 : indexInt bits ithBit with
        | error e => rw [h3] at h; cases h
        | ok bit =>
          rw [h3] at h
          dsimp only at h
          cases h4 : assign wv t.VariableID (bit : Element) with
          | error e => rw [h4] at h; cases h
          | ok wv2 =>
            rw [h4] at h
            dsimp only at h
            cases h5 : assign inst t.VariableID true with
            | error e => rw [h5] at h; cases h
            | ok inst2 =>
              rw [h5] at h
              dsimp only at h
              obtain ⟨-, hwv2⟩ := (assign_eq_ok _ _ _ _).mp h4
              obtain ⟨-, hinst2⟩ := (assign_eq_ok _ _ _ _).mp h5
              obtain ⟨e1, e2⟩ := ih _ _ _ _ h id
                (fun u hu => hid u (List.mem_cons_of_mem _ hu))
              have hne : t.VariableID ≠ id := hid t (List.mem_cons_self _ _)
              rw [e1, e2, hwv2, hinst2, List.getElem?_set_ne hne, List.getElem?_set_ne hne]
              exact ⟨rfl, rfl⟩

/-- A returning `solveR1C` keeps the wires `0, ..., n` known and unchanged when they
are known before, unless it is a bit decomposition with a term of `L` on one of them. -/
theorem solveR1C_keeps (ids : CoeffIds) (r : R1CS) (cons : R1C) (inst inst1 : List Bool)
    (wv wv1 : List Element) (n : Nat)
    (h : solveR1C ids r cons inst wv = .ok (inst1, wv1))
    (hbd : cons.Solver = .BinaryDec → ∀ t ∈ cons.L, n < t.VariableID)
    (hk : ∀ j : Nat, j ≤ n → inst[j]? = some true) :
    ∀ j : Nat, j ≤ n → inst1[j]? = some true ∧ wv1[j]? = wv[j]? := by
  intro j hj
  unfold solveR1C at h
  cases hS : cons.Solver with
  | SingleOutput =>
    rw [hS] at h
    dsimp only at h
    exact (solveSingleOutput_changes ids r cons inst inst1 wv wv1 h).2.2.1 j (hk j hj)
  | BinaryDec =>
    rw [hS] at h
    dsimp only at h
    unfold solveBinaryDec at h
    cases hO : addTerms ids r wv cons.O 0 with
    | error e => rw [hO] at h; cases h
    | ok v =>
      rw [hO] at h
      dsimp only at h
      obtain ⟨e1, e2⟩ := assignBits_frame r _ _ _ _ _ _ _ h j
        (fun t ht heq => by have := hbd hS t ht; omega)
      exact ⟨e2.trans (hk j hj), e1⟩
  | other m =>
    rw [hS] at h
    cases h

/-- The computational loop keeps the wires `0, ..., n` known and unchanged when they
are known before and no bit decomposition it runs has a term of `L` on one of them. -/
theorem solveComputational_keeps (ids : CoeffIds) (r : R1CS) (n : Nat) (steps : Nat) :
    ∀ (i : Nat) (s s2 : Buffers) (err : Option SolveError),
      solveComputational ids r steps i s = .ok (err, s2) →
      (∀ j cj, i ≤ j → j < i + steps → r.Constraints[j]? = some cj →
        cj.Solver = .BinaryDec → ∀ t ∈ cj.L, n < t.VariableID) →
      (∀ j : Nat, j ≤ n → s.wireInstantiated[j]? = some true) →
      ∀ j : Nat, j ≤ n →
        s2.wireInstantiated[j]? = some true ∧ s2.wireValues[j]? = s.wireValues[j]? := by
  induction steps with
  | zero =>
    intro i s s2 err h _ hk j hj
    simp only [solveComputational, Except.ok.injEq, Prod.mk.injEq] at h
    obtain ⟨-, rfl⟩ := h
    exact ⟨hk j hj, rfl⟩
  | succ k ih =>
    intro i s s2 err h hbd hk j hj
    rw [solveComputational_succ] at h
    obtain ⟨cons, inst1, w1, s1, passed, hcons, hsolve, hi, hrest⟩ := h
    rw [instantiateAndCheck_eq_ok] at hi
    obtain ⟨av, bv, cv, -, -, -, -, hs1, -⟩ := hi
    have hstep := solveR1C_keeps ids r cons _ _ _ _ n hsolve
      (hbd i cons (le_refl _) (by omega) hcons) hk
    have hw1 : s1.wireValues = w1 := by rw [hs1]
    have hi1 : s1.wireInstantiated = inst1 := by rw [hs1]
    rcases hrest with ⟨-, hrec⟩ | ⟨-, -, hs2⟩
    · have := ih _ _ _ _ hrec (fun j cj h1 h2 => hbd j cj (by omega) (by omega))
        (fun j hj => by rw [hi1]; exact (hstep j hj).1) j hj
      rw [hw1] at this
      exact ⟨this.1, this.2.trans (hstep j hj).2⟩
    · rw [hs2, hi1, hw1]
      exact hstep j hj

/-- C14 as stated fails: a bit decomposition writes the wires of its `L` whatever they
are.  On the circuit `x * 1 = 2`, then the bit decomposition of `1` into `x`, with
witness `x = 2`, `Solve` returns `nil` with `wireValues[1] = 1`; on the circuit whose
only constraint decomposes `0` into the ONE wire, `Solve` returns `nil` with
`wireValues[0] = 0`. -/
theorem Solve_nil_inputs_overwritten :
    Solve gnarkIds (overwriteCircuit gnarkIds gnarkPool) [2] [0, 0] [0, 0] [0, 0] [0, 0] = .ok
        { err := none, a := [2, 1], b := [1, 1], c := [2, 1], wireValues := [1, 1],
          logs := [] } ∧
      ([1, 1] : List Element)[1 + 0]? ≠ ([2] : List Element)[0]? ∧
      Solve gnarkIds (zeroOneCircuit gnarkIds gnarkPool) [] [5] [5] [5] [5] = .ok
        { err := none, a := [0], b := [0], c := [0], wireValues := [0], logs := [] } ∧
      ([0] : List Element)[0]? ≠ some 1 := by
  decide!

/-- C14, amended: if `Solve` returns `nil` and no computational constraint solved by
bit decomposition has a term of `L` on the ONE wire or on a witness wire, then
`wireValues[0] = 1` and `wireValues[1 + i] = witness[i]` for every `i < len(witness)`. -/
theorem Solve_keeps_inputs (ids : CoeffIds) (r : R1CS) (witness a b c wireValues : List Element)
    (res : SolveResult) (h : Solve ids r witness a b c wireValues = .ok res)
    (hnil : res.err = none)
    (hbd : ∀ (j : Nat) (cj : R1C), (j : Int) < r.NbCOConstraints → r.Constraints[j]? = some cj →
      cj.Solver = .BinaryDec → ∀ t ∈ cj.L, witness.length < t.VariableID) :
    res.wireValues[0]? = some 1 ∧
      ∀ i : Nat, i < witness.length → res.wireValues[1 + i]? = witness[i]? := by
  obtain ⟨⟨-, -, -, -, hlw⟩, inst0, w0, s, logs, hinit, hsc, -, hres⟩ :=
    Solve_nil ids r witness a b c wireValues res h hnil
  obtain ⟨-, -, h0, hwit, hflags⟩ := initWires_spec r witness wireValues inst0 w0 hinit hlw
  rw [solveConstraints_eq_ok] at hsc
  obtain ⟨err1, s1, hcomp, hrest⟩ := hsc
  rcases hrest with ⟨h1, h2, -⟩ | ⟨h1, hpos, hchk⟩
  · exact absurd h2.symm h1
  obtain ⟨⟨hwv, -⟩, -⟩ := checkAssertions_rows ids r _ _ _ _ _ _ hchk
  have hkeep := solveComputational_keeps ids r witness.length _ _ _ _ _ hcomp
    (fun j cj _ h2 => hbd j cj (by omega)) hflags
  rw [hres]
  dsimp only
  rw [hwv]
  refine ⟨(hkeep 0 (Nat.zero_le _)).2.trans h0, ?_⟩
  intro i hi
  exact ((hkeep (1 + i) (by omega)).2).trans (hwit i hi)

/-- C14, amended, at scenario C: the bits of `v = 3` go to the internal wires, and the
returned wire vector starts with `1` and the witness. -/
theorem Solve_keeps_inputs_witness :
    ([1, 3, 1, 1] : List Element)[0]? = some 1 ∧
      ∀ i : Nat, i < ([3] : List Element).length →
        ([1, 3, 1, 1] : List Element)[1 + i]? = ([3] : List Element)[i]? :=
  Solve_keeps_inputs gnarkIds (bitsGate gnarkIds gnarkPool) [3] [0] [0] [0] [0, 0, 0, 0]
    { err := none, a := [3], b := [1], c := [3], wireValues := [1, 3, 1, 1], logs := [] }
    (by decide!) rfl
    (by
      intro j cj h1 h2 _ t ht
      have hj : j = 0 := by
        have : (j : Int) < 1 := h1
        omega
      subst hj
      simp only [bitsGate, List.getElem?_cons_zero, Option.some.injEq] at h2
      subst h2
      simp only [bitsCons, List.mem_cons, List.mem_singleton, List.not_mem_nil, or_false] at ht
      rcases ht with rfl | rfl <;> decide)

/-! ## The initial contents of the buffers -/

/-- The initialisation of `Solve` reads the wire vector only above the witness. -/
theorem initWires_congr (r : R1CS) (witness wv wv2 : List Element)
    (hlen : wv2.length = wv.length)
    (hrest : ∀ j : Nat, witness.length < j → wv2[j]? = wv[j]?) :
    initWires r witness wv2 = initWires r witness wv := by
  unfold initWires
  cases assign (List.replicate (nbWires r).toNat false) 0 true with
  | error e => rfl
  | ok inst1 =>
    dsimp only
    cases wv with
    | nil =>
      have : wv2 = [] := List.length_eq_zero.mp hlen
      rw [this]
    | cons x xs =>
      cases wv2 with
      | nil => simp at hlen
      | cons y ys =>
        have hl : ys.length = xs.length := by simpa using hlen
        have hdrop : ys.drop witness.length = xs.drop witness.length := by
          apply List.ext_getElem?
          intro k
          rw [List.getElem?_drop, List.getElem?_drop]
          have := hrest (witness.length + k + 1) (by omega)
          simpa using this
        simp only [assign, List.length_cons, Nat.zero_lt_succ, if_true, List.set_cons_zero,
          List.take_succ_cons, List.take_zero, List.drop_succ_cons, List.drop_zero, copy, hl,
          hdrop]

/-- Two calls of `instantiateAndCheck` on buffers with the same wires and the same
lengths: the second returns when the first does, with the same verdict, and the rows
of `a`, `b`, `c` agree at the written index and wherever they agreed before. -/
theorem instantiateAndCheck_buffers (ids : CoeffIds) (r : R1CS) (cons : R1C) (i : Nat)
    (s t s1 : Buffers) (passed : Bool)
    (hwv : t.wireValues = s.wireValues) (hinst : t.wireInstantiated = s.wireInstantiated)
    (ha : t.a.length = s.a.length) (hb : t.b.length = s.b.length)
    (hc : t.c.length = s.c.length)
    (h : instantiateAndCheck ids r cons i s = .ok (s1, passed)) :
    ∃ t1, instantiateAndCheck ids r cons i t = .ok (t1, passed) ∧
      t1.wireValues = s1.wireValues ∧ t1.wireInstantiated = s1.wireInstantiated ∧
      t1.a.length = s1.a.length ∧ t1.b.length = s1.b.length ∧ t1.c.length = s1.c.length ∧
      ∀ j : Nat, (j = i ∨ (t.a[j]? = s.a[j]? ∧ t.b[j]? = s.b[j]? ∧ t.c[j]? = s.c[j]?)) →
        t1.a[j]? = s1.a[j]? ∧ t1.b[j]? = s1.b[j]? ∧ t1.c[j]? = s1.c[j]? := by
  rw [instantiateAndCheck_eq_ok] at h
  obtain ⟨av, bv, cv, hi, hia, hib, hic, hs1, hp⟩ := h
  refine ⟨{ t with a := t.a.set i av, b := t.b.set i bv, c := t.c.set i cv }, ?_, ?_⟩
  · rw [instantiateAndCheck_eq_ok]
    exact ⟨av, bv, cv, by rw [hwv]; exact hi, by omega, by omega, by omega, rfl, hp⟩
  · subst hs1
    refine ⟨hwv, hinst, ?_, ?_, ?_, ?_⟩
    · simp only [List.length_set]; exact ha
    · simp only [List.length_set]; exact hb
    · simp only [List.length_set]; exact hc
    · intro j hj
      dsimp only
      by_cases hji : j = i
      · subst hji
        rw [List.getElem?_set_self hia, List.getElem?_set_self hib, List.getElem?_set_self hic,
          List.getElem?_set_self (by omega), List.getElem?_set_self (by omega),
          List.getElem?_set_self (by omega)]
        exact ⟨rfl, rfl, rfl⟩
      · rcases hj with hj | hj
        · exact absurd hj hji
        · simp only [List.getElem?_set_ne (Ne.symm hji)]
          exact hj

/-- Two runs of the computational loop on buffers with the same wires and the same
lengths: the second returns when the first does, with the same error and the same
wires, and the rows of `a`, `b`, `c` agree wherever they agreed before and, on `nil`,
at every index the loop went over. -/
theorem solveComputational_buffers (ids : CoeffIds) (r : R1CS) (steps : Nat) :
    ∀ (i : Nat) (s t s2 : Buffers) (err : Option SolveError),
      t.wireValues = s.wireValues → t.wireInstantiated = s.wireInstantiated →
      t.a.length = s.a.length → t.b.length = s.b.length → t.c.length = s.c.length →
      solveComputational ids r steps i s = .ok (err, s2) →
      ∃ t2, solveComputational ids r steps i t = .ok (err, t2) ∧
        t2.wireValues = s2.wireValues ∧ t2.wireInstantiated = s2.wireInstantiated ∧
        t2.a.length = s2.a.length ∧ t2.b.length = s2.b.length ∧ t2.c.length = s2.c.length ∧
        ∀ j : Nat, ((err = none ∧ i ≤ j ∧ j < i + steps) ∨
            (t.a[j]? = s.a[j]? ∧ t.b[j]? = s.b[j]? ∧ t.c[j]? = s.c[j]?)) →
          t2.a[j]? = s2.a[j]? ∧ t2.b[j]? = s2.b[j]? ∧ t2.c[j]? = s2.c[j]? := by
  induction steps with
  | zero =>
    intro i s t s2 err hwv hinst ha hb hc h
    simp only [solveComputational, Except.ok.injEq, Prod.mk.injEq] at h
    obtain ⟨rfl, rfl⟩ := h
    refine ⟨t, rfl, hwv, hinst, ha, hb, hc, ?_⟩
    rintro j (hj | hj)
    · omega
    · exact hj
  | succ k ih =>
    intro i s t s2 err hwv hinst ha hb hc h
    rw [solveComputational_succ] at h
    obtain ⟨cons, inst1, w1, s1, passed, hcons, hsolve, hi, hrest⟩ := h
    obtain ⟨t1, ht1, e1, e2, e3, e4, e5, hrows⟩ := instantiateAndCheck_buffers ids r cons i
      { s with wireInstantiated := inst1, wireValues := w1 }
      { t with wireInstantiated := inst1, wireValues := w1 } s1 passed rfl rfl ha hb hc hi
    dsimp only at hrows
    rcases hrest with ⟨hp, hrec⟩ | ⟨hp, herr, hs2⟩
    · obtain ⟨t2, ht2, f1, f2, f3, f4, f5, hrows2⟩ := ih (i + 1) s1 t1 s2 err e1 e2 e3 e4 e5 hrec
      refine ⟨t2, ?_, f1, f2, f3, f4, f5, ?_⟩
      · rw [solveComputational_succ]
        exact ⟨cons, inst1, w1, t1, passed, hcons, by rw [hwv, hinst]; exact hsolve, ht1,
          Or.inl ⟨hp, ht2⟩⟩
      · intro j hj
        apply hrows2
        rcases hj with ⟨hn, h1, h2⟩ | hj
        · by_cases hji : j = i
          · exact Or.inr (hrows j (Or.inl hji))
          · exact Or.inl ⟨hn, by omega, by omega⟩
        · exact Or.inr (hrows j (Or.inr hj))
    · subst hs2
      refine ⟨t1, ?_, e1, e2, e3, e4, e5, ?_⟩
      · rw [solveComputational_succ]
        exact ⟨cons, inst1, w1, t1, passed, hcons, by rw [hwv, hinst]; exact hsolve, ht1,
          Or.inr ⟨hp, herr, rfl⟩⟩
      · intro j hj
        rcases hj with ⟨hn, -, -⟩ | hj
        · rw [herr] at hn; cases hn
        · exact hrows j (Or.inr hj)

/-- Two runs of the assertion loop on buffers with the same wires and the same
lengths: the second returns when the first does, with the same error and the same
wires, and the rows of `a`, `b`, `c` agree wherever they agreed before and, on `nil`,
at every index the loop went over. -/
theorem checkAssertions_buffers (ids : CoeffIds) (r : R1CS) (nbCO steps : Nat) :
    ∀ (i : Nat) (s t s2 : Buffers) (err : Option SolveError),
      t.wireValues = s.wireValues → t.wireInstantiated = s.wireInstantiated →
      t.a.length = s.a.length → t.b.length = s.b.length → t.c.length = s.c.length →
      checkAssertions ids r nbCO steps i s = .ok (err, s2) →
      ∃ t2, checkAssertions ids r nbCO steps i t = .ok (err, t2) ∧
        t2.wireValues = s2.wireValues ∧ t2.wireInstantiated = s2.wireInstantiated ∧
        t2.a.length = s2.a.length ∧ t2.b.length = s2.b.length ∧ t2.c.length = s2.c.length ∧
        ∀ j : Nat, ((err = none ∧ i ≤ j ∧ j < i + steps) ∨
            (t.a[j]? = s.a[j]? ∧ t.b[j]? = s.b[j]? ∧ t.c[j]? = s.c[j]?)) →
          t2.a[j]? = s2.a[j]? ∧ t2.b[j]? = s2.b[j]? ∧ t2.c[j]? = s2.c[j]? := by
  induction steps with
  | zero =>
    intro i s t s2 err hwv hinst ha hb hc h
    simp only [checkAssertions, Except.ok.injEq, Prod.mk.injEq] at h
    obtain ⟨rfl, rfl⟩ := h
    refine ⟨t, rfl, hwv, hinst, ha, hb, hc, ?_⟩
    rintro j (hj | hj)
    · omega
    · exact hj
  | succ k ih =>
    intro i s t s2 err hwv hinst ha hb hc h
    rw [checkAssertions_succ] at h
    obtain ⟨cons, s1, passed, hcons, hi, hrest⟩ := h
    obtain ⟨t1, ht1, e1, e2, e3, e4, e5, hrows⟩ := instantiateAndCheck_buffers ids r cons i
      s t s1 passed hwv hinst ha hb hc hi
    rcases hrest with ⟨hp, hrec⟩ | ⟨hp, debugInfo, debugInfoStr, hd, hl, herr, hs2⟩
    · obtain ⟨t2, ht2, f1, f2, f3, f4, f5, hrows2⟩ := ih (i + 1) s1 t1 s2 err e1 e2 e3 e4 e5 hrec
      refine ⟨t2, ?_, f1, f2, f3, f4, f5, ?_⟩
      · rw [checkAssertions_succ]
        exact ⟨cons, t1, passed, hcons, ht1, Or.inl ⟨hp, ht2⟩⟩
      · intro j hj
        apply hrows2
        rcases hj with ⟨hn, h1, h2⟩ | hj
        · by_cases hji : j = i
          · exact Or.inr (hrows j (Or.inl hji))
          · exact Or.inl ⟨hn, by omega, by omega⟩
        · exact Or.inr (hrows j (Or.inr hj))
    · subst hs2
      refine ⟨t1, ?_, e1, e2, e3, e4, e5, ?_⟩
      · rw [checkAssertions_succ]
        exact ⟨cons, t1, passed, hcons, ht1,
          Or.inr ⟨hp, debugInfo, debugInfoStr, hd, by rw [e1, e2]; exact hl, herr, rfl⟩⟩
      · intro j hj
        rcases hj with ⟨hn, -, -⟩ | hj
        · rw [herr] at hn; cases hn
        · exact hrows j (Or.inr hj)

/-- Two runs of the two loops of `Solve` on buffers with the same wires and the same
lengths: the second returns when the first does, with the same error and the same
wires, and on `nil` the rows of `a`, `b`, `c` agree below `len(Constraints)`. -/
theorem solveConstraints_buffers (ids : CoeffIds) (r : R1CS) (s t s2 : Buffers)
    (err : Option SolveError)
    (hwv : t.wireValues = s.wireValues) (hinst : t.wireInstantiated = s.wireInstantiated)
    (ha : t.a.length = s.a.length) (hb : t.b.length = s.b.length)
    (hc : t.c.length = s.c.length)
    (h : solveConstraints ids r s = .ok (err, s2)) :
    ∃ t2, solveConstraints ids r t = .ok (err, t2) ∧
      t2.wireValues = s2.wireValues ∧ t2.wireInstantiated = s2.wireInstantiated ∧
      t2.a.length = s2.a.length ∧ t2.b.length = s2.b.length ∧ t2.c.length = s2.c.length ∧
      (err = none → ∀ j : Nat, j < r.Constraints.length →
        t2.a[j]? = s2.a[j]? ∧ t2.b[j]? = s2.b[j]? ∧ t2.c[j]? = s2.c[j]?) := by
  rw [solveConstraints_eq_ok] at h
  obtain ⟨err1, s1, hcomp, hrest⟩ := h
  obtain ⟨t1, ht1, e1, e2, e3, e4, e5, hrows⟩ :=
    solveComputational_buffers ids r _ 0 s t s1 err1 hwv hinst ha hb hc hcomp
  rcases hrest with ⟨hne, herr, hs2⟩ | ⟨hnil, hpos, hchk⟩
  · subst hs2
    refine ⟨t1, ?_, e1, e2, e3, e4, e5, ?_⟩
    · rw [solveConstraints_eq_ok]
      exact ⟨err1, t1, ht1, Or.inl ⟨hne, herr, rfl⟩⟩
    · intro hn
      rw [herr] at hn
      exact absurd hn hne
  · obtain ⟨t2, ht2, f1, f2, f3, f4, f5, hrows2⟩ :=
      checkAssertions_buffers ids r _ _ _ s1 t1 s2 err e1 e2 e3 e4 e5 hchk
    refine ⟨t2, ?_, f1, f2, f3, f4, f5, ?_⟩
    · rw [solveConstraints_eq_ok]
      exact ⟨err1, t1, ht1, Or.inr ⟨hnil, hpos, ht2⟩⟩
    · intro hn j hj
      apply hrows2
      by_cases hlt : j < r.NbCOConstraints.toNat
      · exact Or.inr (hrows j (Or.inl ⟨hnil, Nat.zero_le _, by omega⟩))
      · exact Or.inl ⟨hn, by omega, by omega⟩

/-- Two calls of `Solve` on the same circuit and witness, with buffers of the same
lengths and wire vectors that agree above the witness: the second returns when the
first does, with the same error and the same log lines, and on `nil` with the same
wire values and the same rows of `a`, `b`, `c` below `len(Constraints)`. -/
theorem Solve_buffers (ids : CoeffIds) (r : R1CS)
    (witness a b c wireValues a2 b2 c2 wireValues2 : List Element)
    (ha : a2.length = a.length) (hb : b2.length = b.length) (hc : c2.length = c.length)
    (hw : wireValues2.length = wireValues.length)
    (hrest : ∀ j : Nat, witness.length < j → wireValues2[j]? = wireValues[j]?)
    (res : SolveResult) (h : Solve ids r witness a b c wireValues = .ok res) :
    ∃ res2, Solve ids r witness a2 b2 c2 wireValues2 = .ok res2 ∧ res2.err = res.err ∧
      res2.logs = res.logs ∧ res2.a.length = res.a.length ∧ res2.b.length = res.b.length ∧
      res2.c.length = res.c.length ∧
      (res.err = none → res2.wireValues = res.wireValues ∧
        ∀ j : Nat, j < r.Constraints.length →
          res2.a[j]? = res.a[j]? ∧ res2.b[j]? = res.b[j]? ∧ res2.c[j]? = res.c[j]?) := by
  unfold Solve at h ⊢
  rw [ha, hb, hc, hw, initWires_congr r witness wireValues wireValues2 hw hrest]
  split at h
  · rename_i h1
    rw [if_pos h1]
    simp only [Except.ok.injEq] at h
    subst h
    exact ⟨_, rfl, rfl, rfl, ha, hb, hc, fun hn => by cases hn⟩
  · rename_i h1
    rw [if_neg h1]
    split at h
    · rename_i h2
      rw [if_pos h2]
      simp only [Except.ok.injEq] at h
      subst h
      exact ⟨_, rfl, rfl, rfl, ha, hb, hc, fun hn => by cases hn⟩
    · rename_i h2
      rw [if_neg h2]
      cases hinit : initWires r witness wireValues with
      | error e => rw [hinit] at h; cases h
      | ok v =>
        obtain ⟨inst0, w0⟩ := v
        rw [hinit] at h
        dsimp only at h ⊢
        cases hsc : solveConstraints ids r
            { a := a, b := b, c := c, wireValues := w0, wireInstantiated := inst0 } with
        | error e => rw [hsc] at h; cases h
        | ok v =>
          obtain ⟨err, s⟩ := v
          rw [hsc] at h
          dsimp only at h
          obtain ⟨t, ht, e1, e2, e3, e4, e5, hrows⟩ := solveConstraints_buffers ids r
            { a := a, b := b, c := c, wireValues := w0, wireInstantiated := inst0 }
            { a := a2, b := b2, c := c2, wireValues := w0, wireInstantiated := inst0 }
            s err rfl rfl ha hb hc hsc
          rw [ht]
          dsimp only
          rw [e1, e2]
          cases hlogs : printLogs r s.wireValues s.wireInstantiated with
          | error e => rw [hlogs] at h; cases h
          | ok logs =>
            rw [hlogs] at h
            simp only [Except.ok.injEq] at h
            subst h
            exact ⟨_, rfl, rfl, rfl, e3, e4, e5, fun hn => ⟨rfl, hrows hn⟩⟩

/-- The two loops of `Solve` keep the lengths of `a`, `b`, `c`. -/
theorem solveConstraints_lengths (ids : CoeffIds) (r : R1CS) (s s2 : Buffers)
    (err : Option SolveError) (h : solveConstraints ids r s = .ok (err, s2)) :
    s2.a.length = s.a.length ∧ s2.b.length = s.b.length ∧ s2.c.length = s.c.length := by
  rw [solveConstraints_eq_ok] at h
  obtain ⟨err1, s1, hcomp, hrest⟩ := h
  obtain ⟨⟨e1, e2, e3⟩, -⟩ := solveComputational_rows ids r _ _ _ _ _ hcomp
  rcases hrest with ⟨-, -, hs2⟩ | ⟨-, -, hchk⟩
  · subst hs2
    exact ⟨e1, e2, e3⟩
  · obtain ⟨-, ⟨f1, f2, f3⟩, -⟩ := checkAssertions_rows ids r _ _ _ _ _ _ hchk
    exact ⟨f1.trans e1, f2.trans e2, f3.trans e3⟩

/-- C19 as stated fails: when the divisor of the wire to solve is zero, the wire is
marked known and keeps what the caller left in its slot.  On `x * y = y` with witness
`y = 0`, two correctly sized calls that differ only in the initial contents of
`wireValues` both return `nil`, one with `a = [5]` and `wireValues = [1, 0, 5]`, the
other with `a = [7]` and `wireValues = [1, 0, 7]`. -/
theorem Solve_depends_on_buffers :
    Solve gnarkIds (skipGate gnarkIds gnarkPool) [0] [0] [0] [0] [0, 0, 5] = .ok
        { err := none, a := [5], b := [0], c := [0], wireValues := [1, 0, 5], logs := [] } ∧
      Solve gnarkIds (skipGate gnarkIds gnarkPool) [0] [0] [0] [0] [0, 0, 7] = .ok
        { err := none, a := [7], b := [0], c := [0], wireValues := [1, 0, 7], logs := [] } ∧
      ([5] : List Element) ≠ [7] ∧ ([1, 0, 5] : List Element) ≠ [1, 0, 7] := by
  decide!

/-- C19, amended: `Solve` is a function of the circuit, the witness, the lengths of
the buffers and the initial contents of `wireValues` above the witness.  For two calls
on the same circuit and witness whose buffers have the same lengths and whose wire
vectors agree at every index above `len(witness)`: if the first returns, the second
returns the same error (or `nil`) and writes the same log lines, and on `nil` both end
with the same `wireValues` and the same rows of `a`, `b`, `c` below
`len(Constraints)`, hence the same `a`, `b`, `c` when `NbConstraints` is
`len(Constraints)`; and if the first aborts, so does the second. -/
theorem Solve_deterministic (ids : CoeffIds) (r : R1CS)
    (witness a b c wireValues a2 b2 c2 wireValues2 : List Element)
    (ha : a2.length = a.length) (hb : b2.length = b.length) (hc : c2.length = c.length)
    (hw : wireValues2.length = wireValues.length)
    (hrest : ∀ j : Nat, witness.length < j → wireValues2[j]? = wireValues[j]?) :
    (∀ res, Solve ids r witness a b c wireValues = .ok res →
      ∃ res2, Solve ids r witness a2 b2 c2 wireValues2 = .ok res2 ∧ res2.err = res.err ∧
        res2.logs = res.logs ∧
        (res.err = none → res2.wireValues = res.wireValues ∧
          (∀ j : Nat, j < r.Constraints.length →
            res2.a[j]? = res.a[j]? ∧ res2.b[j]? = res.b[j]? ∧ res2.c[j]? = res.c[j]?) ∧
          (r.NbConstraints = (r.Constraints.length : Int) →
            res2.a = res.a ∧ res2.b = res.b ∧ res2.c = res.c))) ∧
    (∀ p, Solve ids r witness a b c wireValues = .error p →
      ∃ q, Solve ids r witness a2 b2 c2 wireValues2 = .error q) := by
  constructor
  · intro res h
    obtain ⟨res2, h2, he, hl, la, lb, lc, hn⟩ := Solve_buffers ids r witness a b c wireValues
      a2 b2 c2 wireValues2 ha hb hc hw hrest res h
    refine ⟨res2, h2, he, hl, ?_⟩
    intro hnil
    obtain ⟨hwv, hrows⟩ := hn hnil
    refine ⟨hwv, hrows, ?_⟩
    intro hnb
    obtain ⟨⟨-, sa, sb, sc, -⟩, inst0, w0, s, logs, -, hsc, -, hres⟩ :=
      Solve_nil ids r witness a b c wireValues res h hnil
    obtain ⟨k1, k2, k3⟩ := solveConstraints_lengths ids r _ _ _ hsc
    dsimp only at k1 k2 k3
    have ra : res.a.length = r.Constraints.length := by rw [hres]; dsimp only; omega
    have rb : res.b.length = r.Constraints.length := by rw [hres]; dsimp only; omega
    have rc : res.c.length = r.Constraints.length := by rw [hres]; dsimp only; omega
    refine ⟨?_, ?_, ?_⟩
    · apply List.ext_getElem?
      intro j
      by_cases hj : j < r.Constraints.length
      · exact (hrows j hj).1
      · rw [List.getElem?_eq_none (by omega), List.getElem?_eq_none (by omega)]
    · apply List.ext_getElem?
      intro j
      by_cases hj : j < r.Constraints.length
      · exact (hrows j hj).2.1
      · rw [List.getElem?_eq_none (by omega), List.getElem?_eq_none (by omega)]
    · apply List.ext_getElem?
      intro j
      by_cases hj : j < r.Constraints.length
      · exact (hrows j hj).2.2
      · rw [List.getElem?_eq_none (by omega), List.getElem?_eq_none (by omega)]
  · intro p hp
    cases h2 : Solve ids r witness a2 b2 c2 wireValues2 with
    | error q => exact ⟨q, rfl⟩
    | ok res2 =>
      obtain ⟨res, hres, -⟩ := Solve_buffers ids r witness a2 b2 c2 wireValues2
        a b c wireValues ha.symm hb.symm hc.symm hw.symm (fun j hj => (hrest j hj).symm) res2 h2
      rw [hp] at hres
      cases hres

/-- C19, amended, at a concrete input: on `x * y = y` with witness `y = 0`, a second
call with other contents in `a`, `b`, `c` and in the first two slots of `wireValues`,
and the same `5` in the slot of `x`, ends like the first. -/
theorem Solve_deterministic_witness :
    ∃ res2, Solve gnarkIds (skipGate gnarkIds gnarkPool) [0] [9] [8] [7] [3, 4, 5] = .ok res2 ∧
      res2.err = none ∧ res2.wireValues = [1, 0, 5] ∧ res2.a = [5] ∧ res2.b = [0] ∧
      res2.c = [0] := by
  obtain ⟨res2, h, he, -, hn⟩ := (Solve_deterministic gnarkIds (skipGate gnarkIds gnarkPool)
    [0] [0] [0] [0] [0, 0, 5] [9] [8] [7] [3, 4, 5] rfl rfl rfl rfl
    (by
      intro j hj
      rcases j with _ | _ | _ | j
      · simp at hj
      · simp at hj
      · rfl
      · rfl)).1
    { err := none, a := [5], b := [0], c := [0], wireValues := [1, 0, 5], logs := [] }
    (by decide!)
  obtain ⟨hwv, -, hall⟩ := hn rfl
  obtain ⟨h1, h2, h3⟩ := hall (by decide)
  exact ⟨res2, h, he, hwv, h1, h2, h3⟩

/-! ## Serialization round trip -/

/-- The `k` bytes of `n` are `k` bytes. -/
theorem beBytes_length (k : Nat) : ∀ n : Nat, (beBytes k n).length = k := by
  induction k with
  | zero => intro n; rfl
  | succ k ih => intro n; simp [beBytes, ih]

/-- Reading bytes after more bytes. -/
theorem beNat_append (xs : List Nat) (b : Nat) : beNat (xs ++ [b]) = beNat xs * 256 + b := by
  simp [beNat, List.foldl_append]

/-- The `k` bytes of `n` read back as `n` modulo `256 ^ k`. -/
theorem beNat_beBytes (k : Nat) : ∀ n : Nat, beNat (beBytes k n) = n % 256 ^ k := by
  induction k with
  | zero => intro n; simp [beBytes, beNat, Nat.mod_one]
  | succ k ih =>
    intro n
    rw [beBytes, beNat_append, ih, pow_succ', Nat.mod_mul]
    omega

/-- Reading back a `k`-byte argument. -/
theorem readBE_beBytes (k n : Nat) (rest : List Nat) (h : n < 256 ^ k) :
    readBE k (beBytes k n ++ rest) = .ok (n, rest) := by
  unfold readBE
  have hl := beBytes_length k n
  rw [if_neg (by simp [hl])]
  rw [List.take_left' hl, List.drop_left' hl, beNat_beBytes, Nat.mod_eq_of_lt h]

/-- A head reads back as its kind and its argument. -/
theorem decodeHead_encodeHead (kind arg : Nat) (rest : List Nat)
    (ha : arg < 2 ^ 64) : decodeHead (encodeHead kind arg ++ rest) = .ok (kind, arg, rest) := by
  unfold encodeHead
  by_cases h1 : arg < 24
  · rw [if_pos h1]
    simp only [List.singleton_append, decodeHead]
    have e1 : (kind * 32 + arg) % 32 = arg := by omega
    have e2 : (kind * 32 + arg) / 32 = kind := by omega
    rw [e1, e2, if_pos h1]
  · rw [if_neg h1]
    by_cases h2 : arg < 2 ^ 8
    · rw [if_pos h2]
      simp only [List.cons_append, decodeHead]
      have e1 : (kind * 32 + 24) % 32 = 24 := by omega
      have e2 : (kind * 32 + 24) / 32 = kind := by omega
      rw [e1, e2, if_neg (by decide), if_neg (by decide)]
      rw [show 2 ^ (24 - 24) = 1 from rfl, readBE_beBytes 1 arg rest (by simpa using h2)]
    · rw [if_neg h2]
      by_cases h3 : arg < 2 ^ 16
      · rw [if_pos h3]
        simp only [List.cons_append, decodeHead]
        have e1 : (kind * 32 + 25) % 32 = 25 := by omega
        have e2 : (kind * 32 + 25) / 32 = kind := by omega
        rw [e1, e2, if_neg (by decide), if_neg (by decide)]
        rw [show 2 ^ (25 - 24) = 2 from rfl, readBE_beBytes 2 arg rest (by simpa using h3)]
      · rw [if_neg h3]
        by_cases h4 : arg < 2 ^ 32
        · rw [if_pos h4]
          simp only [List.cons_append, decodeHead]
          have e1 : (kind * 32 + 26) % 32 = 26 := by omega
          have e2 : (kind * 32 + 26) / 32 = kind := by omega
          rw [e1, e2, if_neg (by decide), if_neg (by decide)]
          rw [show 2 ^ (26 - 24) = 4 from rfl, readBE_beBytes 4 arg rest (by simpa using h4)]
        · rw [if_neg h4]
          simp only [List.cons_append, decodeHead]
          have e1 : (kind * 32 + 27) % 32 = 27 := by omega
          have e2 : (kind * 32 + 27) / 32 = kind := by omega
          rw [e1, e2, if_neg (by decide), if_neg (by decide)]
          rw [show 2 ^ (27 - 24) = 8 from rfl, readBE_beBytes 8 arg rest (by simpa using ha)]

/-- A head of the expected kind reads back as its argument. -/
theorem expectHead_encodeHead (kind arg : Nat) (rest : List Nat)
    (ha : arg < 2 ^ 64) : expectHead kind (encodeHead kind arg ++ rest) = .ok (arg, rest) := by
  unfold expectHead
  rw [decodeHead_encodeHead kind arg rest ha]
  simp

/-- Round trip of an unsigned integer. -/
theorem decodeUint_encodeUint (n : Nat) (rest : List Nat) (h : n < 2 ^ 64) :
    decodeUint (encodeUint n ++ rest) = .ok (n, rest) :=
  expectHead_encodeHead kindUint n rest h

/-- Round trip of a signed integer of 64 bits. -/
theorem decodeInt_encodeInt (x : Int) (rest : List Nat) (h1 : -2 ^ 63 ≤ x) (h2 : x < 2 ^ 63) :
    decodeInt (encodeInt x ++ rest) = .ok (x, rest) := by
  unfold encodeInt decodeInt
  by_cases h : 0 ≤ x
  · rw [if_pos h, decodeHead_encodeHead kindUint x.toNat rest (by omega)]
    dsimp only
    rw [if_pos rfl, Int.toNat_of_nonneg h]
  · rw [if_neg h, decodeHead_encodeHead kindNegInt (-1 - x).toNat rest (by omega)]
    dsimp only
    rw [if_neg (by decide), if_pos rfl, Int.toNat_of_nonneg (by omega)]
    congr 2
    omega

/-- Round trip of a sequence of items. -/
theorem decodeMany_encodeAll {α : Type} (enc : α → List Nat)
    (dec : List Nat → Except DecodeError (α × List Nat)) (xs : List α) :
    ∀ rest : List Nat, (∀ x ∈ xs, ∀ tail : List Nat, dec (enc x ++ tail) = .ok (x, tail)) →
      decodeMany dec xs.length (encodeAll enc xs ++ rest) = .ok (xs, rest) := by
  induction xs with
  | nil => intro rest _; rfl
  | cons x xs ih =>
    intro rest h
    simp only [encodeAll, List.length_cons, decodeMany, List.append_assoc]
    rw [h x (List.mem_cons_self _ _)]
    dsimp only
    rw [ih rest (fun y hy => h y (List.mem_cons_of_mem _ hy))]

/-- Round trip of a slice within the bound. -/
theorem decodeArray_encodeArray {α : Type} (maxElems : Nat) (enc : α → List Nat)
    (dec : List Nat → Except DecodeError (α × List Nat)) (xs : List α) (rest : List Nat)
    (hmax : xs.length ≤ maxElems) (hlen : xs.length < 2 ^ 64)
    (h : ∀ x ∈ xs, ∀ tail : List Nat, dec (enc x ++ tail) = .ok (x, tail)) :
    decodeArray maxElems dec (encodeArray enc xs ++ rest) = .ok (xs, rest) := by
  unfold decodeArray encodeArray
  rw [List.append_assoc, expectHead_encodeHead kindArray _ _ hlen]
  dsimp only
  rw [if_neg (by omega), decodeMany_encodeAll enc dec xs rest h]

/-- A slice that declares more elements than the bound is refused. -/
theorem decodeArray_tooMany {α : Type} (maxElems : Nat) (enc : α → List Nat)
    (dec : List Nat → Except DecodeError (α × List Nat)) (xs : List α) (rest : List Nat)
    (hmax : maxElems < xs.length) (hlen : xs.length < 2 ^ 64) :
    decodeArray maxElems dec (encodeArray enc xs ++ rest) = .error .tooManyElements := by
  unfold decodeArray encodeArray
  rw [List.append_assoc, expectHead_encodeHead kindArray _ _ hlen]
  dsimp only
  rw [if_pos hmax]

/-- Round trip of the head of a struct. -/
theorem expectStruct_encodeStruct (n : Nat) (rest : List Nat) (h : n < 2 ^ 64) :
    expectStruct n (encodeStruct n ++ rest) = .ok rest := by
  unfold expectStruct encodeStruct
  rw [expectHead_encodeHead kindArray _ _ h]
  simp

/-- Round trip of a text that is valid UTF-8. -/
theorem decodeText_encodeText (s rest : List Nat) (h : s.length < 2 ^ 64)
    (hv : validUTF8 s = true) : decodeText (encodeText s ++ rest) = .ok (s, rest) := by
  unfold decodeText encodeText
  rw [List.append_assoc, expectHead_encodeHead kindText _ _ h]
  dsimp only
  rw [if_neg (by simp), List.take_left, List.drop_left, if_pos hv]

/-- A text that is not valid UTF-8 is refused. -/
theorem decodeText_invalid (s rest : List Nat) (h : s.length < 2 ^ 64)
    (hv : validUTF8 s = false) : decodeText (encodeText s ++ rest) = .error .invalidUTF8 := by
  unfold decodeText encodeText
  rw [List.append_assoc, expectHead_encodeHead kindText _ _ h]
  dsimp only
  rw [if_neg (by simp), List.take_left, if_neg (by simp [hv])]

/-- The limbs of an integer below `2 ^ 256` recompose to it. -/
theorem limbs_sum (n : Nat) (h : n < 2 ^ 256) :
    n % 2 ^ 64 + n / 2 ^ 64 % 2 ^ 64 * 2 ^ 64 + n / 2 ^ 128 % 2 ^ 64 * 2 ^ 128 +
      n / 2 ^ 192 % 2 ^ 64 * 2 ^ 192 = n := by
  omega

/-- Round trip of a field element. -/
theorem decodeElement_encodeElement (x : Element) (rest : List Nat) :
    decodeElement (encodeElement x ++ rest) = .ok (x, rest) := by
  have hx : ToBigIntRegular x < 2 ^ 256 := by
    have h1 : ToBigIntRegular x < frModulus := ZMod.val_lt x
    have h2 : frModulus < 2 ^ 256 := by decide
    omega
  unfold decodeElement encodeElement
  rw [List.append_assoc, expectStruct_encodeStruct 4 _ (by decide)]
  dsimp only
  have hl : decodeMany decodeUint 4 (encodeAll encodeUint (limbs (ToBigIntRegular x)) ++ rest) =
      .ok (limbs (ToBigIntRegular x), rest) := by
    apply decodeMany_encodeAll encodeUint decodeUint (limbs (ToBigIntRegular x)) rest
    intro l hl tail
    apply decodeUint_encodeUint
    simp only [limbs, List.mem_cons, List.mem_singleton, List.not_mem_nil, or_false] at hl
    rcases hl with rfl | rfl | rfl | rfl <;> exact Nat.mod_lt _ (by decide)
  rw [hl]
  simp only [limbs]
  rw [limbs_sum _ hx]
  congr 2
  exact ZMod.natCast_zmod_val x

/-- Round trip of a term. -/
theorem decodeTerm_encodeTerm (t : Term) (rest : List Nat) (h : t.fits = true) :
    decodeTerm (encodeTerm t ++ rest) = .ok (t, rest) := by
  simp only [Term.fits, fitsUint, Bool.and_eq_true, decide_eq_true_eq] at h
  unfold decodeTerm encodeTerm
  rw [List.append_assoc, List.append_assoc, expectStruct_encodeStruct 2 _ (by decide)]
  dsimp only
  rw [decodeUint_encodeUint _ _ h.1]
  dsimp only
  rw [decodeUint_encodeUint _ _ h.2]

/-- Round trip of a solver tag. -/
theorem ofTag_toTag (m : SolvingMethod) : SolvingMethod.ofTag m.toTag = m := by
  cases m <;> rfl

/-- Round trip of a linear expression. -/
theorem decodeArray_encodeTerms (maxElems : Nat) (ts : List Term) (rest : List Nat)
    (h : fitsTerms maxElems ts = true) :
    decodeArray maxElems decodeTerm (encodeArray encodeTerm ts ++ rest) = .ok (ts, rest) := by
  simp only [fitsTerms, fitsLen, Bool.and_eq_true, decide_eq_true_eq, List.all_eq_true] at h
  exact decodeArray_encodeArray maxElems encodeTerm decodeTerm ts rest h.1.1 h.1.2
    (fun t ht tail => decodeTerm_encodeTerm t tail (h.2 t ht))

/-- Round trip of a constraint. -/
theorem decodeR1C_encodeR1C (maxElems : Nat) (cons : R1C) (rest : List Nat)
    (h : cons.fits maxElems = true) :
    decodeR1C maxElems (encodeR1C cons ++ rest) = .ok (cons, rest) := by
  simp only [R1C.fits, Bool.and_eq_true] at h
  obtain ⟨⟨⟨hL, hR⟩, hO⟩, hS⟩ := h
  simp only [fitsUint, decide_eq_true_eq] at hS
  unfold decodeR1C encodeR1C
  simp only [List.append_assoc]
  rw [expectStruct_encodeStruct 4 _ (by decide)]
  dsimp only
  rw [decodeArray_encodeTerms maxElems cons.L _ hL]
  dsimp only
  rw [decodeArray_encodeTerms maxElems cons.R _ hR]
  dsimp only
  rw [decodeArray_encodeTerms maxElems cons.O _ hO]
  dsimp only
  rw [decodeUint_encodeUint _ _ hS]
  dsimp only
  rw [ofTag_toTag]

/-- Round trip of a log entry. -/
theorem decodeLogEntry_encodeLogEntry (maxElems : Nat) (entry : LogEntry) (rest : List Nat)
    (h : entry.fits maxElems = true) :
    decodeLogEntry maxElems (encodeLogEntry entry ++ rest) = .ok (entry, rest) := by
  simp only [LogEntry.fits, fitsUint, fitsLen, Bool.and_eq_true, decide_eq_true_eq,
    List.all_eq_true] at h
  obtain ⟨⟨⟨hF, hv⟩, hlen⟩, hall⟩ := h
  unfold decodeLogEntry encodeLogEntry
  simp only [List.append_assoc]
  rw [expectStruct_encodeStruct 2 _ (by decide)]
  dsimp only
  rw [decodeText_encodeText _ _ hF hv]
  dsimp only
  rw [decodeArray_encodeArray maxElems encodeUint decodeUint entry.ToResolve rest hlen.1 hlen.2
    (fun n hn tail => decodeUint_encodeUint n tail (hall n hn))]

/-- Round trip of a list of log entries. -/
theorem decodeArray_encodeEntries (maxElems : Nat) (entries : List LogEntry) (rest : List Nat)
    (h : fitsEntries maxElems entries = true) :
    decodeArray maxElems (decodeLogEntry maxElems)
      (encodeArray encodeLogEntry entries ++ rest) = .ok (entries, rest) := by
  simp only [fitsEntries, fitsLen, Bool.and_eq_true, decide_eq_true_eq, List.all_eq_true] at h
  exact decodeArray_encodeArray maxElems encodeLogEntry (decodeLogEntry maxElems) entries rest
    h.1.1 h.1.2 (fun e he tail => decodeLogEntry_encodeLogEntry maxElems e tail (h.2 e he))

/-- The decoder on the encoding of a circuit object, up to the coefficient pool: the
counts, the constraints and the entries are read back, and the input that remains is
the encoding of the pool. -/
theorem decodeR1CS_encodeR1CS (maxElems : Nat) (loggerOut : Bool) (r : R1CS) (rest : List Nat)
    (h : R1CS.fits maxElems { r with Coefficients := [] } = true) :
    decodeR1CS maxElems loggerOut (encodeR1CS r ++ rest) =
      match decodeArray maxElems decodeElement
          (encodeArray encodeElement r.Coefficients ++ rest) with
      | .error e => .error e
      | .ok (coefficients, rest9) =>
        .ok ({ r with Coefficients := coefficients, loggerOut := loggerOut }, rest9) := by
  simp only [R1CS.fits, fitsInt, fitsLen, Bool.and_eq_true, decide_eq_true_eq,
    List.all_eq_true] at h
  obtain ⟨⟨⟨⟨⟨⟨⟨⟨⟨h1, h2⟩, h3⟩, h4⟩, h5⟩, h6⟩, h7⟩, h8⟩, h9⟩, -⟩ := h
  unfold decodeR1CS encodeR1CS
  simp only [List.append_assoc]
  rw [expectStruct_encodeStruct 9 _ (by decide)]
  dsimp only
  rw [decodeInt_encodeInt _ _ h1.1 h1.2]
  dsimp only
  rw [decodeInt_encodeInt _ _ h2.1 h2.2]
  dsimp only
  rw [decodeInt_encodeInt _ _ h3.1 h3.2]
  dsimp only
  rw [decodeInt_encodeInt _ _ h4.1 h4.2]
  dsimp only
  rw [decodeInt_encodeInt _ _ h5.1 h5.2]
  dsimp only
  rw [decodeArray_encodeArray maxElems encodeR1C (decodeR1C maxElems) r.Constraints _ h6.1 h6.2
    (fun x hx tail => decodeR1C_encodeR1C maxElems x tail (h7 x hx))]
  dsimp only
  rw [decodeArray_encodeEntries maxElems r.Logs _ h8]
  dsimp only
  rw [decodeArray_encodeEntries maxElems r.DebugInfoAssertion _ h9]

/-- The decoder refuses the encoding of a circuit object whose coefficient pool has
more elements than the bound. -/
theorem ReadFrom_tooMany (r recv : R1CS)
    (h : R1CS.fits MaxArrayElements { r with Coefficients := [] } = true)
    (hbig : MaxArrayElements < r.Coefficients.length) (hlen : r.Coefficients.length < 2 ^ 64) :
    ReadFrom recv (WriteTo r).1 = .error .tooManyElements := by
  have hd := decodeR1CS_encodeR1CS MaxArrayElements recv.loggerOut r [] h
  rw [decodeArray_tooMany MaxArrayElements encodeElement decodeElement r.Coefficients [] hbig
    hlen, List.append_nil] at hd
  unfold ReadFrom WriteTo
  dsimp only
  rw [hd]

/-- C16 as stated fails: the decoder of `ReadFrom` is built with `MaxArrayElements:
134217728`, and the bytes that `WriteTo` produces for a circuit whose coefficient pool
has `134217729` elements are refused; and the bytes that `WriteTo` produces for a
circuit with a log template that is not valid UTF-8 (the single byte `0xff`) are
refused as well. -/
theorem ReadFrom_WriteTo_bigPool :
    bigPoolCircuit.Coefficients.length = 134217729 ∧
      ReadFrom bigPoolCircuit (WriteTo bigPoolCircuit).1 = .error .tooManyElements ∧
      ReadFrom badTextCircuit (WriteTo badTextCircuit).1 = .error .invalidUTF8 := by
  have hl : bigPoolCircuit.Coefficients.length = 134217729 := by
    unfold bigPoolCircuit
    dsimp only
    rw [List.length_replicate]
    rfl
  refine ⟨hl, ReadFrom_tooMany bigPoolCircuit bigPoolCircuit (by rfl) ?_ ?_, by decide!⟩
  · rw [hl]; decide
  · rw [hl]; decide

/-- C16, amended: for every circuit object whose slices, at every level, have at most
`134217728` elements and whose log and debug templates are valid UTF-8 (and whose
counts and identifiers are values of their 64-bit types), and for every receiver, `ReadFrom` on the bytes that `WriteTo` produces
succeeds, reports as bytes read the count that `WriteTo` reports as written, and leaves
in the receiver every exported field of the circuit object; the unexported `loggerOut`
of the receiver is kept. -/
theorem ReadFrom_WriteTo (r recv : R1CS) (h : R1CS.fits MaxArrayElements r = true) :
    ReadFrom recv (WriteTo r).1 = .ok ({ r with loggerOut := recv.loggerOut }, (WriteTo r).2) := by
  have h0 : R1CS.fits MaxArrayElements { r with Coefficients := [] } = true := by
    simp only [R1CS.fits, Bool.and_eq_true] at h ⊢
    refine ⟨h.1, ?_⟩
    decide
  have hc : fitsLen MaxArrayElements r.Coefficients.length = true := by
    simp only [R1CS.fits, Bool.and_eq_true] at h
    exact h.2
  simp only [fitsLen, Bool.and_eq_true, decide_eq_true_eq] at hc
  have hd := decodeR1CS_encodeR1CS MaxArrayElements recv.loggerOut r [] h0
  rw [decodeArray_encodeArray MaxArrayElements encodeElement decodeElement r.Coefficients []
    hc.1 hc.2 (fun x _ tail => decodeElement_encodeElement x tail), List.append_nil] at hd
  unfold ReadFrom WriteTo
  dsimp only at hd ⊢
  rw [hd]
  simp

/-- C16, amended, at a concrete input: the circuit of scenario B, read into another
receiver. -/
theorem ReadFrom_WriteTo_witness :
    ReadFrom { bigPoolCircuit with loggerOut := false } (WriteTo (assertGate gnarkIds)).1 =
      .ok ({ assertGate gnarkIds with loggerOut := false },
        (WriteTo (assertGate gnarkIds)).2) :=
  ReadFrom_WriteTo (assertGate gnarkIds) { bigPoolCircuit with loggerOut := false } (by decide!)

/-- The bytes of an argument are bytes. -/
theorem beBytes_lt (k : Nat) : ∀ n : Nat, ∀ b ∈ beBytes k n, b < 256 := by
  induction k with
  | zero => intro n b hb; simp [beBytes] at hb
  | succ k ih =>
    intro n b hb
    simp only [beBytes, List.mem_append, List.mem_singleton] at hb
    rcases hb with hb | hb
    · exact ih _ b hb
    · omega

/-- The bytes of a head are bytes. -/
theorem encodeHead_lt (kind arg : Nat) (hk : kind < 8) : ∀ b ∈ encodeHead kind arg, b < 256 := by
  intro b hb
  unfold encodeHead at hb
  split at hb
  · simp only [List.mem_singleton] at hb; omega
  · split at hb
    · rcases List.mem_cons.mp hb with h | h
      · omega
      · exact beBytes_lt _ _ b h
    · split at hb
      · rcases List.mem_cons.mp hb with h | h
        · omega
        · exact beBytes_lt _ _ b h
      · split at hb
        · rcases List.mem_cons.mp hb with h | h
          · omega
          · exact beBytes_lt _ _ b h
        · rcases List.mem_cons.mp hb with h | h
          · omega
          · exact beBytes_lt _ _ b h

/-- The bytes of a sequence of items are bytes when those of every item are. -/
theorem encodeAll_lt {α : Type} (enc : α → List Nat) (xs : List α)
    (h : ∀ x ∈ xs, ∀ b ∈ enc x, b < 256) : ∀ b ∈ encodeAll enc xs, b < 256 := by
  induction xs with
  | nil => intro b hb; simp [encodeAll] at hb
  | cons x xs ih =>
    intro b hb
    simp only [encodeAll, List.mem_append] at hb
    rcases hb with hb | hb
    · exact h x (List.mem_cons_self _ _) b hb
    · exact ih (fun y hy => h y (List.mem_cons_of_mem _ hy)) b hb

/-- The bytes of a slice are bytes when those of every element are. -/
theorem encodeArray_lt {α : Type} (enc : α → List Nat) (xs : List α)
    (h : ∀ x ∈ xs, ∀ b ∈ enc x, b < 256) : ∀ b ∈ encodeArray enc xs, b < 256 := by
  intro b hb
  simp only [encodeArray, List.mem_append] at hb
  rcases hb with hb | hb
  · exact encodeHead_lt _ _ (by decide) b hb
  · exact encodeAll_lt enc xs h b hb

/-- The bytes of a term are bytes. -/
theorem encodeTerm_lt (t : Term) : ∀ b ∈ encodeTerm t, b < 256 := by
  intro b hb
  simp only [encodeTerm, encodeStruct, encodeUint, List.mem_append] at hb
  rcases hb with hb | hb | hb <;> exact encodeHead_lt _ _ (by decide) b hb

/-- The bytes of a constraint are bytes. -/
theorem encodeR1C_lt (cons : R1C) : ∀ b ∈ encodeR1C cons, b < 256 := by
  intro b hb
  simp only [encodeR1C, encodeStruct, encodeUint, List.mem_append] at hb
  rcases hb with hb | hb | hb | hb | hb
  · exact encodeHead_lt _ _ (by decide) b hb
  · exact encodeArray_lt _ _ (fun t _ => encodeTerm_lt t) b hb
  · exact encodeArray_lt _ _ (fun t _ => encodeTerm_lt t) b hb
  · exact encodeArray_lt _ _ (fun t _ => encodeTerm_lt t) b hb
  · exact encodeHead_lt _ _ (by decide) b hb

/-- The bytes of a log entry are bytes when those of its template are. -/
theorem encodeLogEntry_lt (entry : LogEntry) (h : ∀ b ∈ entry.Format, b < 256) :
    ∀ b ∈ encodeLogEntry entry, b < 256 := by
  intro b hb
  simp only [encodeLogEntry, encodeStruct, encodeText, List.mem_append] at hb
  rcases hb with hb | ⟨hb | hb⟩ | hb
  · exact encodeHead_lt _ _ (by decide) b hb
  · exact encodeHead_lt _ _ (by decide) b hb
  · exact h b hb
  · exact encodeArray_lt _ _ (fun n _ => encodeHead_lt _ _ (by decide)) b hb

/-- The bytes of a field element are bytes. -/
theorem encodeElement_lt (x : Element) : ∀ b ∈ encodeElement x, b < 256 := by
  intro b hb
  simp only [encodeElement, encodeStruct, List.mem_append] at hb
  rcases hb with hb | hb
  · exact encodeHead_lt _ _ (by decide) b hb
  · exact encodeAll_lt _ _ (fun n _ => encodeHead_lt _ _ (by decide)) b hb

/-- The bytes of a signed integer are bytes. -/
theorem encodeInt_lt (x : Int) : ∀ b ∈ encodeInt x, b < 256 := by
  intro b hb
  unfold encodeInt at hb
  split at hb <;> exact encodeHead_lt _ _ (by decide) b hb

/-- What `WriteTo` writes are bytes, the templates being Go strings, and it reports
their number. -/
theorem WriteTo_bytes (r : R1CS)
    (h : ∀ entry ∈ r.Logs ++ r.DebugInfoAssertion, ∀ b ∈ entry.Format, b < 256) :
    (∀ b ∈ (WriteTo r).1, b < 256) ∧ (WriteTo r).2 = (WriteTo r).1.length := by
  refine ⟨?_, rfl⟩
  intro b hb
  simp only [WriteTo, encodeR1CS, encodeStruct, List.mem_append] at hb
  rcases hb with hb | hb | hb | hb | hb | hb | hb | hb | hb | hb
  · exact encodeHead_lt _ _ (by decide) b hb
  · exact encodeInt_lt _ b hb
  · exact encodeInt_lt _ b hb
  · exact encodeInt_lt _ b hb
  · exact encodeInt_lt _ b hb
  · exact encodeInt_lt _ b hb
  · exact encodeArray_lt _ _ (fun x _ => encodeR1C_lt x) b hb
  · exact encodeArray_lt _ _ (fun x hx => encodeLogEntry_lt x
      (h x (List.mem_append_left _ hx))) b hb
  · exact encodeArray_lt _ _ (fun x hx => encodeLogEntry_lt x
      (h x (List.mem_append_right _ hx))) b hb
  · exact encodeArray_lt _ _ (fun x _ => encodeElement_lt x) b hb

/-! ## The final wire vector and the later writes -/

/-- A returning bit assignment keeps every flag that is set and sets the flag of every
wire of its terms. -/
theorem assignBits_marks (r : R1CS) (bits : List Nat) (nbBits : Nat) (ts : List Term) :
    ∀ (inst : List Bool) (wv : List Element) (inst1 : List Bool) (wv1 : List Element),
      assignBits r bits nbBits ts inst wv = .ok (inst1, wv1) →
      (∀ id : Nat, inst[id]? = some true → inst1[id]? = some true) ∧
        ∀ t ∈ ts, inst1[t.VariableID]? = some true := by
  induction ts with
  | nil =>
    intro inst wv inst1 wv1 h
    simp only [assignBits, Except.ok.injEq, Prod.mk.injEq] at h
    obtain ⟨rfl, rfl⟩ := h
    exact ⟨fun id hid => hid, fun t ht => by simp at ht⟩
  | cons t ts ih =>
    intro inst wv inst1 wv1 h
    unfold assignBits at h
    cases h1 : index r.Coefficients t.CoeffID with
    | error e => rw [h1] at h; cases h
    | ok k =>
      rw [h1] at h
      dsimp only at h
      cases h2 : quickLog nbBits (ToBigIntRegular k) with
      | error e => rw [h2] at h; cases h
      | ok ithBit =>
        rw [h2] at h
        dsimp only at h
        cases h3 : indexInt bits ithBit with
        | error e => rw [h3] at h; cases h
        | ok bit =>
          rw [h3] at h
          dsimp only at h
          cases h4 : assign wv t.VariableID (bit : Element) with
          | error e => rw [h4] at h; cases h
          | ok wv2 =>
            rw [h4] at h
            dsimp only at h
            cases h5 : assign inst t.VariableID true with
            | error e => rw [h5] at h; cases h
            | ok inst2 =>
              rw [h5] at h
              dsimp only at h
              obtain ⟨hlt, hinst2⟩ := (assign_eq_ok _ _ _ _).mp h5
              obtain ⟨hmono, hmarks⟩ := ih _ _ _ _ h
              have hstep : ∀ id : Nat, inst[id]? = some true → inst2[id]? = some true := by
                intro id hid
                rw [hinst2]
                by_cases he : t.VariableID = id
                · subst he
                  rw [List.getElem?_set_self hlt]
                · rw [List.getElem?_set_ne he]
                  exact hid
              refine ⟨fun id hid => hmono id (hstep id hid), ?_⟩
              intro u hu
              rcases List.mem_cons.mp hu with rfl | hu
              · apply hmono
                rw [hinst2, List.getElem?_set_self hlt]
              · exact hmarks u hu

/-- The wires known after one more constraint. -/
theorem knownAfter_succ (r : R1CS) (n k w : Nat) (cons : R1C)
    (hcons : r.Constraints[k]? = some cons) :
    knownAfter r n (k + 1) w = (knownAfter r n k w || cons.marks w) := by
  unfold knownAfter
  rw [List.take_succ, hcons]
  simp [Bool.or_assoc]

/-- One call of `solveR1C` on the constraint of index `k`, when the wires known after
the first `k` constraints are marked: the wires known after `k + 1` constraints are
marked, and a wire that the constraint cannot write keeps its value. -/
theorem solveR1C_step (ids : CoeffIds) (r : R1CS) (n k : Nat) (cons : R1C)
    (inst inst1 : List Bool) (wv wv1 : List Element)
    (hcons : r.Constraints[k]? = some cons)
    (h : solveR1C ids r cons inst wv = .ok (inst1, wv1))
    (hinv : ∀ w : Nat, knownAfter r n k w = true → inst[w]? = some true) :
    (∀ w : Nat, knownAfter r n (k + 1) w = true → inst1[w]? = some true) ∧
      ∀ w : Nat, mayWrite r n k cons w = false → wv1[w]? = wv[w]? := by
  unfold solveR1C at h
  cases hS : cons.Solver with
  | SingleOutput =>
    rw [hS] at h
    dsimp only at h
    obtain ⟨-, -, hkeep, hch⟩ := solveSingleOutput_changes ids r cons inst inst1 wv wv1 h
    constructor
    · intro w hw
      rw [knownAfter_succ r n k w cons hcons, Bool.or_eq_true] at hw
      rcases hw with hw | hw
      · exact (hkeep w (hinv w hw)).1
      · simp only [R1C.marks, hS, List.any_eq_true, beq_iff_eq] at hw
        obtain ⟨t, ht, rfl⟩ := hw
        exact solveSingleOutput_known ids r cons inst inst1 wv wv1 h t ht
    · intro w hw
      simp only [mayWrite, hS, Bool.and_eq_false_iff, Bool.not_eq_false',
        List.any_eq_false, beq_iff_eq] at hw
      rcases hw with hw | hw
      · rcases hch with ⟨-, rfl⟩ | ⟨t, ht, -, hrest⟩
        · rfl
        · exact (hrest w (fun he => hw t ht he.symm)).2
      · exact (hkeep w (hinv w hw)).2
  | BinaryDec =>
    rw [hS] at h
    dsimp only at h
    unfold solveBinaryDec at h
    cases hO : addTerms ids r wv cons.O 0 with
    | error e => rw [hO] at h; cases h
    | ok v =>
      rw [hO] at h
      dsimp only at h
      obtain ⟨hmono, hmarks⟩ := assignBits_marks r _ _ _ _ _ _ _ h
      constructor
      · intro w hw
        rw [knownAfter_succ r n k w cons hcons, Bool.or_eq_true] at hw
        rcases hw with hw | hw
        · exact hmono w (hinv w hw)
        · simp only [R1C.marks, hS, List.any_eq_true, beq_iff_eq] at hw
          obtain ⟨t, ht, rfl⟩ := hw
          exact hmarks t ht
      · intro w hw
        simp only [mayWrite, hS, List.any_eq_false, beq_iff_eq] at hw
        exact (assignBits_frame r _ _ _ _ _ _ _ h w hw).1
  | other m =>
    rw [hS] at h
    cases h

/-- A run of the computational loop from index `k`, when the wires known after the
first `k` constraints are marked: a wire that none of the constraints the loop goes
over can write keeps its value. -/
theorem solveComputational_wire (ids : CoeffIds) (r : R1CS) (n w : Nat) (steps : Nat) :
    ∀ (k : Nat) (s s2 : Buffers) (err : Option SolveError),
      solveComputational ids r steps k s = .ok (err, s2) →
      (∀ v : Nat, knownAfter r n k v = true → s.wireInstantiated[v]? = some true) →
      (∀ (j : Nat) (cj : R1C), k ≤ j → j < k + steps → r.Constraints[j]? = some cj →
        mayWrite r n j cj w = false) →
      s2.wireValues[w]? = s.wireValues[w]? := by
  induction steps with
  | zero =>
    intro k s s2 err h _ _
    simp only [solveComputational, Except.ok.injEq, Prod.mk.injEq] at h
    obtain ⟨-, rfl⟩ := h
    rfl
  | succ m ih =>
    intro k s s2 err h hinv hw
    rw [solveComputational_succ] at h
    obtain ⟨cons, inst1, w1, s1, passed, hcons, hsolve, hi, hrest⟩ := h
    rw [instantiateAndCheck_eq_ok] at hi
    obtain ⟨av, bv, cv, -, -, -, -, hs1, -⟩ := hi
    obtain ⟨hinv1, hval⟩ := solveR1C_step ids r n k cons _ _ _ _ hcons hsolve hinv
    have e1 : s1.wireValues = w1 := by rw [hs1]
    have e2 : s1.wireInstantiated = inst1 := by rw [hs1]
    have hstep : w1[w]? = s.wireValues[w]? := hval w (hw k cons (le_refl _) (by omega) hcons)
    rcases hrest with ⟨-, hrec⟩ | ⟨-, -, hs2⟩
    · have := ih (k + 1) s1 s2 err hrec (by rw [e2]; exact hinv1)
        (fun j cj h1 h2 => hw j cj (by omega) (by omega))
      rw [this, e1]
      exact hstep
    · rw [hs2, e1]
      exact hstep

/-- On `nil`, a constraint the computational loop went over, none of whose wires can be
written by a constraint the loop went over after it, is satisfied by the wire values
at the end of the loop, with `a[i]`, `b[i]`, `c[i]` its values there. -/
theorem solveComputational_final (ids : CoeffIds) (r : R1CS) (n : Nat) (steps : Nat) :
    ∀ (k : Nat) (s s2 : Buffers),
      solveComputational ids r steps k s = .ok (none, s2) →
      (∀ v : Nat, knownAfter r n k v = true → s.wireInstantiated[v]? = some true) →
      ∀ (i : Nat) (cons : R1C), k ≤ i → i < k + steps → r.Constraints[i]? = some cons →
        (∀ (j : Nat) (cj : R1C), i < j → j < k + steps → r.Constraints[j]? = some cj →
          ∀ t ∈ cons.terms, mayWrite r n j cj t.VariableID = false) →
        ∃ x y z, instantiateR1C ids cons r s2.wireValues = .ok (x, y, z) ∧
          s2.a[i]? = some x ∧ s2.b[i]? = some y ∧ s2.c[i]? = some z ∧ x * y = z := by
  induction steps with
  | zero =>
    intro k s s2 _ _ i cons h1 h2
    omega
  | succ m ih =>
    intro k s s2 h hinv i cons hki hik hi hlater
    rw [solveComputational_succ] at h
    obtain ⟨ck, inst1, w1, s1, passed, hcons, hsolve, hiac, hrest⟩ := h
    rw [instantiateAndCheck_eq_ok] at hiac
    obtain ⟨av, bv, cv, hinstv, hia, hib, hic, hs1, hp⟩ := hiac
    dsimp only at hinstv hia hib hic
    obtain ⟨hinv1, -⟩ := solveR1C_step ids r n k ck _ _ _ _ hcons hsolve hinv
    have e1 : s1.wireValues = w1 := by rw [hs1]
    have e2 : s1.wireInstantiated = inst1 := by rw [hs1]
    rcases hrest with ⟨hpass, hrec⟩ | ⟨-, herr, -⟩
    · by_cases hik0 : i = k
      · subst hik0
        rw [hcons] at hi
        cases hi
        have hwires : ∀ t ∈ cons.terms, s2.wireValues[t.VariableID]? = w1[t.VariableID]? := by
          intro t ht
          rw [← e1]
          exact solveComputational_wire ids r n t.VariableID m (i + 1) s1 s2 none hrec
            (by rw [e2]; exact hinv1)
            (fun j cj h1 h2 hj => hlater j cj (by omega) (by omega) hj t ht)
        obtain ⟨-, hrows, -⟩ := solveComputational_rows ids r _ _ _ _ _ hrec
        obtain ⟨r1, r2, r3⟩ := hrows i (by omega)
        refine ⟨av, bv, cv, ?_, ?_, ?_, ?_, ?_⟩
        · rw [instantiateR1C_congr ids r cons w1 s2.wireValues hwires]
          exact hinstv
        · rw [r1, hs1]; exact List.getElem?_set_self hia
        · rw [r2, hs1]; exact List.getElem?_set_self hib
        · rw [r3, hs1]; exact List.getElem?_set_self hic
        · rw [hpass] at hp
          exact of_decide_eq_true hp.symm
      · exact ih (k + 1) s1 s2 hrec (by rw [e2]; exact hinv1) i cons (by omega) (by omega) hi
          (fun j cj h1 h2 => hlater j cj h1 (by omega))
    · cases herr

/-- A later constraint cannot write a wire of a constraint solved by isolation, unless
it is a bit decomposition with a term of `L` on that wire. -/
theorem mayWrite_of_singleOutput (r : R1CS) (n i j : Nat) (cons cj : R1C)
    (hi : r.Constraints[i]? = some cons) (hS : cons.Solver = .SingleOutput) (hij : i < j)
    (hbd : cj.Solver = .BinaryDec →
      ∀ t ∈ cj.L, ∀ u ∈ cons.terms, t.VariableID ≠ u.VariableID) :
    ∀ u ∈ cons.terms, mayWrite r n j cj u.VariableID = false := by
  intro u hu
  unfold mayWrite
  cases hSj : cj.Solver with
  | SingleOutput =>
    dsimp only
    have hmem : cons ∈ r.Constraints.take j := by
      apply List.mem_iff_getElem?.mpr
      exact ⟨i, by rw [List.getElem?_take_of_lt hij]; exact hi⟩
    have hk : knownAfter r n j u.VariableID = true := by
      unfold knownAfter
      rw [Bool.or_eq_true]
      right
      rw [List.any_eq_true]
      refine ⟨cons, hmem, ?_⟩
      simp only [R1C.marks, hS, List.any_eq_true, beq_iff_eq]
      exact ⟨u, hu, rfl⟩
    rw [hk]
    simp
  | BinaryDec =>
    dsimp only
    rw [List.any_eq_false]
    intro t ht
    simpa using hbd hSj t ht u hu
  | other m => rfl

/-- C1, amended: if `Solve` returns `nil`, then every constraint `i` none of whose
wires can be written by a later computational constraint is satisfied by the final
wire vector: `a[i]`, `b[i]`, `c[i]` are the values of `L_i`, `R_i`, `O_i` on the final
`wireValues`, and `a[i] * b[i] = c[i]`.  A later bit decomposition writes the wires of
its `L`; a later constraint solved by isolation writes at most one of its wires that
is not known yet.  So the statement covers every assertion, and every computational
constraint solved by isolation that no later bit decomposition has a term of `L` on a
wire of (`mayWrite_of_singleOutput`). -/
theorem Solve_satisfies (ids : CoeffIds) (r : R1CS) (witness a b c wireValues : List Element)
    (res : SolveResult) (h : Solve ids r witness a b c wireValues = .ok res)
    (hnil : res.err = none) (i : Nat) (cons : R1C) (hi : r.Constraints[i]? = some cons)
    (hlater : ∀ (j : Nat) (cj : R1C), i < j → (j : Int) < r.NbCOConstraints →
      r.Constraints[j]? = some cj →
      ∀ t ∈ cons.terms, mayWrite r witness.length j cj t.VariableID = false) :
    ∃ x y z, instantiateR1C ids cons r res.wireValues = .ok (x, y, z) ∧
      res.a[i]? = some x ∧ res.b[i]? = some y ∧ res.c[i]? = some z ∧ x * y = z := by
  obtain ⟨⟨-, -, -, -, hlw⟩, inst0, w0, s, logs, hinit, hsc, -, hres⟩ :=
    Solve_nil ids r witness a b c wireValues res h hnil
  obtain ⟨-, -, -, -, hflags⟩ := initWires_spec r witness wireValues inst0 w0 hinit hlw
  rw [solveConstraints_eq_ok] at hsc
  obtain ⟨err1, s1, hcomp, hrest⟩ := hsc
  rcases hrest with ⟨h1, h2, -⟩ | ⟨h1, hpos, hchk⟩
  · exact absurd h2.symm h1
  subst h1
  have hlen : i < r.Constraints.length := (List.getElem?_eq_some_iff.mp hi).1
  obtain ⟨⟨hwv, -⟩, -, hfr2, -⟩ := checkAssertions_rows ids r _ _ _ _ _ _ hchk
  rw [hres]
  dsimp only
  by_cases hlt : i < r.NbCOConstraints.toNat
  · obtain ⟨x, y, z, h1, h2, h3, h4, h5⟩ := solveComputational_final ids r witness.length
      _ 0 _ _ hcomp
      (by
        intro v hv
        apply hflags
        simpa [knownAfter] using hv)
      i cons (Nat.zero_le _) (by omega) hi
      (fun j cj h1 h2 h3 => hlater j cj h1 (by omega) h3)
    obtain ⟨h6, h7, h8⟩ := hfr2 i hlt
    exact ⟨x, y, z, by rw [hwv]; exact h1, h6.trans h2, h7.trans h3, h8.trans h4, h5⟩
  · obtain ⟨x, y, z, h1, h2, h3, h4, h5⟩ := checkAssertions_eval ids r _ _ _ _ _ hchk i cons
      (by omega) (by omega) hi
    exact ⟨x, y, z, by rw [hwv]; exact h1, h2, h3, h4, h5⟩

/-- C1, amended, at a concrete input: the gate `x * y = z` with `x = 1`, `y = 3`,
followed by the decomposition of `z` into two fresh bits, which leaves the gate
satisfied by the final wire vector `[1, 1, 3, 3, 1, 1]`. -/
theorem Solve_satisfies_witness :
    ∃ x y z, instantiateR1C gnarkIds (mulCons gnarkIds) (mulBitsCircuit gnarkIds gnarkPool)
        [1, 1, 3, 3, 1, 1] = .ok (x, y, z) ∧
      ([1, 3] : List Element)[0]? = some x ∧ ([3, 1] : List Element)[0]? = some y ∧
      ([3, 3] : List Element)[0]? = some z ∧ x * y = z :=
  Solve_satisfies gnarkIds (mulBitsCircuit gnarkIds gnarkPool) [1, 3] [0, 0] [0, 0] [0, 0]
    [0, 0, 0, 0, 0, 0]
    { err := none, a := [1, 3], b := [3, 1], c := [3, 3], wireValues := [1, 1, 3, 3, 1, 1],
      logs := [] }
    (by decide!) rfl 0 (mulCons gnarkIds) rfl
    (by
      intro j cj h1 h2 h3 t ht
      have hj : j = 1 := by
        have : (j : Int) < 2 := h2
        omega
      subst hj
      simp only [mulBitsCircuit, List.getElem?_cons_succ, List.getElem?_cons_zero,
        Option.some.injEq] at h3
      subst h3
      simp only [mulCons, R1C.terms, List.cons_append, List.nil_append, List.mem_cons,
        List.mem_singleton, List.not_mem_nil, or_false] at ht
      rcases ht with rfl | rfl | rfl <;> decide)

end Cs
